import Mathlib

/-!
Verification of the grid-pathfinding core and game-state logic of the
PacMan-game repository (src/pathfinding.py, src/game.py).

The Python code is shallowly embedded:
* a Python `List[str]` grid becomes `List (List Char)`;
* Python sequence indexing (including negative-index wrap-around and
  IndexError) is modelled by `pyIdx : List α → Int → Option α`
  (`none` = IndexError);
* Python dicts are modelled as association lists with unique keys kept in
  insertion order (`dFind` / `dSet`), matching dict lookup, membership,
  insertion-order iteration of `.values()`, and overwrite semantics;
* the unbounded `while` loops of bfs/dfs/astar and of path reconstruction
  are modelled with an explicit fuel parameter; the fuel supplied by the
  top-level functions is proved sufficient, so the embedded functions
  agree with the Python loops whenever the latter terminate.
-/

set_option maxHeartbeats 1000000

abbrev Coord := Int × Int

abbrev Grid := List (List Char)

/-- Python sequence indexing `l[i]`: non-negative indices address from the
front, negative indices in `[-len, -1]` wrap around from the end, anything
else raises IndexError (`none`). -/
def pyIdx {α : Type} (l : List α) (i : Int) : Option α :=
  if 0 ≤ i then l.get? i.toNat
  else if 0 ≤ i + l.length then l.get? (i + l.length).toNat
  else none

/-- Embedding of `pathfinding.in_bounds`. -/
def in_bounds (grid : Grid) (node : Coord) : Bool :=
  let rows : Int := grid.length
  let cols : Int := if grid.length = 0 then 0 else (grid.headD []).length
  decide (0 ≤ node.1 ∧ node.1 < rows ∧ 0 ≤ node.2 ∧ node.2 < cols)

/-- Embedding of `pathfinding.passable` (`grid[r][c] != '#'`).  The result is
`none` when the Python code would raise IndexError. -/
def passable (grid : Grid) (node : Coord) : Option Bool :=
  (pyIdx grid node.1).bind fun row => (pyIdx row node.2).map (fun ch => ch ≠ '#')

/-- The four cardinal direction deltas, in the source order
up, down, left, right. -/
def dirs4 : List Coord := [(-1, 0), (1, 0), (0, -1), (0, 1)]

/-- Embedding of `pathfinding.neighbors4`: in-bounds passable cardinal
neighbours, in the fixed order up, down, left, right. -/
def neighbors4 (grid : Grid) (node : Coord) : List Coord :=
  (dirs4.map (fun d => (node.1 + d.1, node.2 + d.2))).filter
    (fun nxt => in_bounds grid nxt && decide (passable grid nxt = some true))

/-- Dict lookup (first—and, with unique keys, only—binding of the key). -/
def dFind {α β : Type} [DecidableEq α] (d : List (α × β)) (k : α) : Option β :=
  match d with
  | [] => none
  | (k1, v) :: rest => if k1 = k then some v else dFind rest k

/-- Dict update `d[k] = v`: overwrite the existing binding in place, or
append a new binding at the end (Python dicts preserve insertion order). -/
def dSet {α β : Type} [DecidableEq α] (d : List (α × β)) (k : α) (v : β) :
    List (α × β) :=
  match d with
  | [] => [(k, v)]
  | (k1, v1) :: rest => if k1 = k then (k, v) :: rest else (k1, v1) :: dSet rest k v

abbrev CameFrom := List (Coord × Option Coord)

/-- Fuel-indexed embedding of the parent-pointer walk inside
`reconstruct_path` (`while cur is not None and cur != start`); the Python
`came_from.get(cur)` returns `None` both for a missing key and for a stored
`None`, hence the `Option.join`. -/
def reconWalk (cf : CameFrom) (start : Coord) :
    Nat → Option Coord → List Coord → List Coord
  | 0, _, path => path
  | _ + 1, none, path => path
  | fuel + 1, some cur, path =>
    if cur = start then path
    else reconWalk cf start fuel ((dFind cf cur).join) (path ++ [cur])

/-- Embedding of `pathfinding.reconstruct_path`.  The walk needs at most one
step per key of `came_from` (proved below for the maps produced by the three
search functions), so `cf.length + 1` fuel reproduces the Python loop. -/
def reconstruct_path (cf : CameFrom) (start goal : Coord) : List Coord :=
  if (dFind cf goal).isSome then
    (reconWalk cf start (cf.length + 1) (some goal) []).reverse
  else []

/-- Number of in-bounds cells of the grid (`rows * cols`); used only to
compute a sufficient amount of loop fuel. -/
def cellCount (grid : Grid) : Nat :=
  grid.length * (if grid.length = 0 then 0 else (grid.headD []).length)

/-- One neighbour handled by the BFS loop body: enqueue it and record its
parent if it is not yet in `came_from`. -/
def bfsPush (cur : Coord) (acc : List Coord × CameFrom) (nxt : Coord) :
    List Coord × CameFrom :=
  if (dFind acc.2 nxt).isSome then acc
  else (acc.1 ++ [nxt], dSet acc.2 nxt (some cur))

/-- One iteration of the BFS `while q` loop body's neighbour scan. -/
def bfsScan (grid : Grid) (cur : Coord) (acc : List Coord × CameFrom) :
    List Coord × CameFrom :=
  (neighbors4 grid cur).foldl (bfsPush cur) acc

/-- Fuel-indexed embedding of the BFS `while q` loop (queue popped at the
front, pushed at the back). -/
def bfsLoop (grid : Grid) (goal : Coord) :
    Nat → List Coord → CameFrom → CameFrom
  | 0, _, cf => cf
  | _ + 1, [], cf => cf
  | fuel + 1, cur :: q, cf =>
    if cur = goal then cf
    else
      let acc := bfsScan grid cur (q, cf)
      bfsLoop grid goal fuel acc.1 acc.2

/-- Embedding of `pathfinding.bfs`. -/
def bfs (grid : Grid) (start goal : Coord) : List Coord :=
  if start = goal then []
  else
    reconstruct_path (bfsLoop grid goal (cellCount grid + 1) [start] [(start, none)])
      start goal

/-- One neighbour handled by the DFS loop body: push it and record its
parent if it is neither visited nor in `came_from` (the stack is held
top-first, so the Python `stack.append` is a cons, matching `stack.pop()`
from the end). -/
def dfsPush (cur : Coord) (visited : List Coord)
    (acc : List Coord × CameFrom) (nxt : Coord) : List Coord × CameFrom :=
  if nxt ∈ visited ∨ (dFind acc.2 nxt).isSome then acc
  else (nxt :: acc.1, dSet acc.2 nxt (some cur))

/-- One DFS neighbour scan. -/
def dfsScan (grid : Grid) (cur : Coord) (visited : List Coord)
    (acc : List Coord × CameFrom) : List Coord × CameFrom :=
  (neighbors4 grid cur).foldl (dfsPush cur visited) acc

/-- Fuel-indexed embedding of the DFS `while stack` loop. -/
def dfsLoop (grid : Grid) (goal : Coord) :
    Nat → List Coord → CameFrom → List Coord → CameFrom
  | 0, _, cf, _ => cf
  | _ + 1, [], cf, _ => cf
  | fuel + 1, cur :: stack, cf, visited =>
    if cur ∈ visited then dfsLoop grid goal fuel stack cf visited
    else
      if cur = goal then cf
      else
        let acc := dfsScan grid cur (cur :: visited) (stack, cf)
        dfsLoop grid goal fuel acc.1 acc.2 (cur :: visited)

/-- Embedding of `pathfinding.dfs`. -/
def dfs (grid : Grid) (start goal : Coord) : List Coord :=
  if start = goal then []
  else
    reconstruct_path (dfsLoop grid goal (cellCount grid + 1) [start] [(start, none)] [])
      start goal

/-- Embedding of `pathfinding.manhattan` (`abs(a0-b0) + abs(a1-b1)`; the
Python value is a non-negative int, rendered here as a `Nat`). -/
def manhattan (a b : Coord) : Nat :=
  (a.1 - b.1).natAbs + (a.2 - b.2).natAbs

abbrev GScore := List (Coord × Nat)

abbrev HeapT := List (Nat × Coord)

/-- The order `heapq` uses on the `(f_score, node)` tuples: lexicographic on
the int `f` and then on the int-pair node. -/
def entryLe (a b : Nat × Coord) : Bool :=
  decide (a.1 < b.1 ∨ (a.1 = b.1 ∧
    (a.2.1 < b.2.1 ∨ (a.2.1 = b.2.1 ∧ a.2.2 ≤ b.2.2))))

/-- Minimum entry of a non-empty heap (the tuple order is total, so the
minimal tuple value is unique and this is exactly what `heappop` returns;
the heap is modelled as the multiset of its entries, kept as a list). -/
def heapMin (x : Nat × Coord) (h : HeapT) : Nat × Coord :=
  h.foldl (fun m y => if entryLe y m then y else m) x

/-- Pop the minimal entry: `heapq.heappop`. -/
def heapPop (h : HeapT) : Option ((Nat × Coord) × HeapT) :=
  match h with
  | [] => none
  | x :: rest =>
    let m := heapMin x rest
    some (m, (x :: rest).erase m)

/-- One A* neighbour relaxation scan (`tentative < g_score.get(nxt, 10^9)`
records the better parent and pushes `(tentative + h, nxt)`).  The
`g_score[cur]` read is total here via `getD 0`; every node popped from the
heap is proved below to have a `g_score` entry, so the default is never
consulted on the states the loops actually reach. -/
def astarRelax (goal cur : Coord) (acc : HeapT × CameFrom × GScore)
    (nxt : Coord) : HeapT × CameFrom × GScore :=
  let tentative := (dFind acc.2.2 cur).getD 0 + 1
  if tentative < (dFind acc.2.2 nxt).getD 1000000000 then
    ((tentative + manhattan nxt goal, nxt) :: acc.1,
     dSet acc.2.1 nxt (some cur),
     dSet acc.2.2 nxt tentative)
  else acc

def astarScan (grid : Grid) (goal cur : Coord)
    (acc : HeapT × CameFrom × GScore) : HeapT × CameFrom × GScore :=
  (neighbors4 grid cur).foldl (astarRelax goal cur) acc

/-- Fuel-indexed embedding of the A* `while open_heap` loop. -/
def astarLoop (grid : Grid) (goal : Coord) :
    Nat → HeapT → CameFrom → GScore → CameFrom
  | 0, _, cf, _ => cf
  | fuel + 1, heap, cf, g =>
    match heapPop heap with
    | none => cf
    | some (entry, heap1) =>
      if entry.2 = goal then cf
      else
        let acc := astarScan grid goal entry.2 (heap1, cf, g)
        astarLoop grid goal fuel acc.1 acc.2.1 acc.2.2

/-- Fuel sufficient for the A* loop: every heap push accompanies a strict
decrease of one g-score entry (or a fresh entry), and g-scores are bounded
by the number of keys, itself at most `cellCount + 1`. -/
def astarFuel (grid : Grid) : Nat :=
  (cellCount grid + 2) * (cellCount grid + 2) + 1

/-- Embedding of `pathfinding.astar` with the default Manhattan heuristic. -/
def astar (grid : Grid) (start goal : Coord) : List Coord :=
  if start = goal then []
  else
    reconstruct_path
      (astarLoop grid goal (astarFuel grid) [(0, start)] [(start, none)] [(start, 0)])
      start goal

/-- A grid is rectangular: every row has the width that `in_bounds` uses
(the spec's level format: "a rectangular sequence of equal-length strings").
On ragged grids the Python functions can raise IndexError instead. -/
def Rect (grid : Grid) : Prop :=
  ∀ row ∈ grid, row.length = (grid.headD []).length

example : bfs [['.', '.', '.'], ['.', '#', '.'], ['.', '.', '.']] (0, 0) (2, 2) =
    [(1, 0), (2, 0), (2, 1), (2, 2)] := by decide

example : dfs [['.', '.', '.'], ['.', '#', '.'], ['.', '.', '.']] (0, 0) (2, 2) =
    [(0, 1), (0, 2), (1, 2), (2, 2)] := by decide

example : astar [['.', '.', '.'], ['.', '#', '.'], ['.', '.', '.']] (0, 0) (2, 2) =
    [(0, 1), (0, 2), (1, 2), (2, 2)] := by decide

example : bfs [['.', '#', '.']] (0, 0) (0, 2) = [] := by decide

example : bfs [['.', '.']] (0, 0) (0, 0) = [] := by decide

/-! ### Reachability and graph distance (the specification side) -/

/-- Reachability in exactly `k` moves: each move goes to an in-bounds,
passable cardinal neighbour (`neighbors4`).  This is the claim's notion of
"cardinal moves through in-bounds passable cells". -/
inductive ReachN (grid : Grid) (s : Coord) : Nat → Coord → Prop where
  | refl : ReachN grid s 0 s
  | step : ∀ {k n m}, ReachN grid s k n → m ∈ neighbors4 grid n → ReachN grid s (k + 1) m

/-- The goal is reachable from the start. -/
def Reaches (grid : Grid) (s t : Coord) : Prop := ∃ k, ReachN grid s k t

/-- The true graph distance from `s` to `t` is `k`: realizable and minimal. -/
def IsDist (grid : Grid) (s t : Coord) (k : Nat) : Prop :=
  ReachN grid s k t ∧ ∀ j, ReachN grid s j t → k ≤ j

theorem reachN_zero {grid : Grid} {s t : Coord} (h : ReachN grid s 0 t) : t = s := by
  cases h; rfl

theorem reachN_trans {grid : Grid} {s v z : Coord} {a b : Nat}
    (h1 : ReachN grid s a v) (h2 : ReachN grid v b z) : ReachN grid s (a + b) z := by
  induction h2 with
  | refl => exact h1
  | step h hm ih => exact ReachN.step ih hm

theorem reachN_front {grid : Grid} {v z : Coord} {b : Nat}
    (h : ReachN grid v (b + 1) z) :
    ∃ w, w ∈ neighbors4 grid v ∧ ReachN grid w b z := by
  induction b generalizing z with
  | zero =>
    cases h with
    | step h hm => exact ⟨z, by rwa [reachN_zero h] at hm, ReachN.refl⟩
  | succ c ih =>
    cases h with
    | step h hm =>
      obtain ⟨w, hw, hr⟩ := ih h
      exact ⟨w, hw, ReachN.step hr hm⟩

theorem isDist_exists {grid : Grid} {s t : Coord} (h : Reaches grid s t) :
    ∃ k, IsDist grid s t k := by
  classical
  exact ⟨Nat.find h, Nat.find_spec h, fun j hj => Nat.find_min' h hj⟩

theorem isDist_unique {grid : Grid} {s t : Coord} {k j : Nat}
    (h1 : IsDist grid s t k) (h2 : IsDist grid s t j) : k = j :=
  Nat.le_antisymm (h1.2 j h2.1) (h2.2 k h1.1)

theorem isDist_self (grid : Grid) (s : Coord) : IsDist grid s s 0 :=
  ⟨ReachN.refl, fun j _ => Nat.zero_le j⟩

theorem isDist_zero_eq {grid : Grid} {s t : Coord} (h : IsDist grid s t 0) : t = s :=
  reachN_zero h.1

theorem isDist_step_le {grid : Grid} {s n m : Coord} {a b : Nat}
    (h : IsDist grid s n a) (hm : m ∈ neighbors4 grid n)
    (h2 : IsDist grid s m b) : b ≤ a + 1 :=
  h2.2 _ (ReachN.step h.1 hm)

theorem isDist_pred {grid : Grid} {s m : Coord} {k : Nat}
    (h : IsDist grid s m (k + 1)) :
    ∃ n, m ∈ neighbors4 grid n ∧ IsDist grid s n k := by
  obtain ⟨hr, hmin⟩ := h
  cases hr with
  | step hn hm =>
    rename_i n
    obtain ⟨j, hj⟩ := isDist_exists ⟨_, hn⟩
    have hjk : j ≤ k := hj.2 _ hn
    have hk : k ≤ j := by
      by_contra hcon
      push_neg at hcon
      have := hmin _ (ReachN.step hj.1 hm)
      omega
    have hje : j = k := le_antisymm hjk hk
    exact ⟨n, hm, hje ▸ hj⟩

theorem mem_neighbors4 {grid : Grid} {n m : Coord} :
    m ∈ neighbors4 grid n ↔
      ((m.1 - n.1, m.2 - n.2) ∈ dirs4 ∧ in_bounds grid m = true ∧
        passable grid m = some true) := by
  simp only [neighbors4, List.mem_filter, List.mem_map, Bool.and_eq_true,
    decide_eq_true_eq]
  constructor
  · rintro ⟨⟨d, hd, rfl⟩, hb, hp⟩
    refine ⟨?_, hb, hp⟩
    simpa using hd
  · rintro ⟨hd, hb, hp⟩
    exact ⟨⟨(m.1 - n.1, m.2 - n.2), hd, by simp⟩, hb, hp⟩

theorem neighbors4_manhattan {grid : Grid} {n m : Coord}
    (h : m ∈ neighbors4 grid n) : manhattan n m = 1 := by
  obtain ⟨hd, -, -⟩ := mem_neighbors4.1 h
  simp only [dirs4, List.mem_cons, List.mem_singleton, Prod.mk.injEq,
    List.not_mem_nil, or_false] at hd
  unfold manhattan
  rcases hd with ⟨h1, h2⟩ | ⟨h1, h2⟩ | ⟨h1, h2⟩ | ⟨h1, h2⟩ <;> omega

theorem manhattan_triangle (a b c : Coord) :
    manhattan a c ≤ manhattan a b + manhattan b c := by
  unfold manhattan
  omega

theorem manhattan_comm (a b : Coord) : manhattan a b = manhattan b a := by
  unfold manhattan
  omega

theorem manhattan_le_reachN {grid : Grid} {v z : Coord} {k : Nat}
    (h : ReachN grid v k z) : manhattan v z ≤ k := by
  induction h with
  | refl => simp [manhattan]
  | step h hm ih =>
    rename_i k n m
    calc manhattan v m ≤ manhattan v n + manhattan n m := manhattan_triangle _ _ _
    _ ≤ k + 1 := by rw [neighbors4_manhattan hm]; omega

/-! ### Association-list dictionary lemmas -/

theorem dFind_dSet_self {α β : Type} [DecidableEq α] (d : List (α × β)) (k : α) (v : β) :
    dFind (dSet d k v) k = some v := by
  induction d with
  | nil => simp [dSet, dFind]
  | cons p rest ih =>
    by_cases h : p.1 = k
    · simp [dSet, dFind, h]
    · simp [dSet, dFind, h, ih]

theorem dFind_dSet_ne {α β : Type} [DecidableEq α] (d : List (α × β)) (k k1 : α) (v : β)
    (h : k1 ≠ k) : dFind (dSet d k v) k1 = dFind d k1 := by
  induction d with
  | nil => simp [dSet, dFind, Ne.symm h]
  | cons p rest ih =>
    by_cases hp : p.1 = k
    · subst hp
      simp [dSet, dFind, Ne.symm h]
    · by_cases hp1 : p.1 = k1
      · simp [dSet, dFind, hp, hp1, h]
      · simp [dSet, dFind, hp, hp1, ih]

theorem length_dSet_isSome {α β : Type} [DecidableEq α] {d : List (α × β)} {k : α} (v : β)
    (h : (dFind d k).isSome) : (dSet d k v).length = d.length := by
  induction d with
  | nil => simp [dFind] at h
  | cons p rest ih =>
    by_cases hp : p.1 = k
    · simp [dSet, hp]
    · simp only [dFind, hp, if_false] at h
      simp [dSet, hp, ih h]

theorem length_dSet_none {α β : Type} [DecidableEq α] {d : List (α × β)} {k : α} (v : β)
    (h : dFind d k = none) : (dSet d k v).length = d.length + 1 := by
  induction d with
  | nil => simp [dSet]
  | cons p rest ih =>
    by_cases hp : p.1 = k
    · simp [dFind, hp] at h
    · simp only [dFind, hp, if_false] at h
      simp [dSet, hp, ih h]

theorem dFind_eq_none_iff {α β : Type} [DecidableEq α] {d : List (α × β)} {k : α} :
    dFind d k = none ↔ k ∉ d.map Prod.fst := by
  induction d with
  | nil => simp [dFind]
  | cons p rest ih =>
    by_cases hp : p.1 = k
    · simp [dFind, hp]
    · simp only [dFind, hp, if_false, List.map_cons, List.mem_cons]
      rw [ih]
      constructor
      · rintro hnot (h1 | h2)
        · exact hp h1.symm
        · exact hnot h2
      · intro hnot h2
        exact hnot (Or.inr h2)

theorem dSet_of_none {α β : Type} [DecidableEq α] {d : List (α × β)} {k : α} (v : β)
    (h : dFind d k = none) : dSet d k v = d ++ [(k, v)] := by
  induction d with
  | nil => simp [dSet]
  | cons p rest ih =>
    by_cases hp : p.1 = k
    · simp [dFind, hp] at h
    · simp only [dFind, hp, if_false] at h
      simp [dSet, hp, ih h]

theorem dSet_keys_of_isSome {α β : Type} [DecidableEq α] {d : List (α × β)} {k : α}
    (v : β) (h : (dFind d k).isSome) :
    (dSet d k v).map Prod.fst = d.map Prod.fst := by
  induction d with
  | nil => simp [dFind] at h
  | cons p rest ih =>
    by_cases hp : p.1 = k
    · simp [dSet, hp]
    · simp only [dFind, hp, if_false] at h
      simp [dSet, hp, ih h]

theorem dSet_keys_nodup {α β : Type} [DecidableEq α] {d : List (α × β)} (k : α) (v : β)
    (h : (d.map Prod.fst).Nodup) : ((dSet d k v).map Prod.fst).Nodup := by
  rcases hk : dFind d k with _ | w
  · rw [dSet_of_none v hk]
    have hnot : k ∉ d.map Prod.fst := dFind_eq_none_iff.1 hk
    simp only [List.map_append, List.map_cons, List.map_nil]
    rw [List.nodup_append]
    refine ⟨h, List.nodup_singleton _, ?_⟩
    intro a ha hmem
    simp only [List.mem_singleton] at hmem
    exact hnot (hmem ▸ ha)
  · rw [dSet_keys_of_isSome v (by simp [hk])]
    exact h

/-! ### Cell enumeration and the loop-termination measure -/

/-- Column count used by `in_bounds` (`len(grid[0]) if rows else 0`). -/
def gridCols (grid : Grid) : Nat :=
  if grid.length = 0 then 0 else (grid.headD []).length

theorem in_bounds_iff {grid : Grid} {n : Coord} :
    in_bounds grid n = true ↔
      0 ≤ n.1 ∧ n.1 < (grid.length : Int) ∧ 0 ≤ n.2 ∧ n.2 < (gridCols grid : Int) := by
  simp [in_bounds, gridCols]


/-- The finite set of in-bounds cells. -/
def cellBox (grid : Grid) : Finset Coord :=
  Finset.Ico (0 : Int) grid.length ×ˢ Finset.Ico (0 : Int) (gridCols grid)

theorem mem_cellBox {grid : Grid} {n : Coord} :
    n ∈ cellBox grid ↔ in_bounds grid n = true := by
  rw [in_bounds_iff]
  obtain ⟨a, b⟩ := n
  simp [cellBox, Finset.mem_product, Finset.mem_Ico, and_assoc]

theorem card_cellBox (grid : Grid) : (cellBox grid).card = cellCount grid := by
  have hc : cellCount grid = grid.length * gridCols grid := rfl
  rw [hc, cellBox, Finset.card_product]
  rw [Int.card_Ico, Int.card_Ico]
  simp

/-- Number of in-bounds cells not yet recorded in `came_from`; together with
the queue length this is the strictly decreasing measure of the search
loops. -/
def unseenCount (grid : Grid) (cf : CameFrom) : Nat :=
  ((cellBox grid).filter (fun n => dFind cf n = none)).card

theorem unseenCount_le (grid : Grid) (cf : CameFrom) :
    unseenCount grid cf ≤ cellCount grid := by
  rw [← card_cellBox]
  exact Finset.card_filter_le _ _

theorem unseenCount_dSet_stale {grid : Grid} {cf : CameFrom} {k : Coord} (v : Option Coord)
    (h : (dFind cf k).isSome) :
    unseenCount grid (dSet cf k v) = unseenCount grid cf := by
  unfold unseenCount
  congr 1
  apply Finset.filter_congr
  intro n _
  by_cases hk : n = k
  · subst hk
    rw [dFind_dSet_self]
    obtain ⟨w, hw⟩ := Option.isSome_iff_exists.1 h
    rw [hw]
    simp
  · rw [dFind_dSet_ne _ _ _ _ hk]

theorem unseenCount_dSet_fresh {grid : Grid} {cf : CameFrom} {k : Coord} (v : Option Coord)
    (hin : in_bounds grid k = true) (h : dFind cf k = none) :
    unseenCount grid (dSet cf k v) + 1 = unseenCount grid cf := by
  unfold unseenCount
  have hins : (cellBox grid).filter (fun n => dFind cf n = none) =
      insert k ((cellBox grid).filter (fun n => dFind (dSet cf k v) n = none)) := by
    ext x
    simp only [Finset.mem_filter, Finset.mem_insert]
    constructor
    · rintro ⟨hx, hfx⟩
      by_cases hxk : x = k
      · exact Or.inl hxk
      · exact Or.inr ⟨hx, by rwa [dFind_dSet_ne _ _ _ _ hxk]⟩
    · rintro (rfl | ⟨hx, hfx⟩)
      · exact ⟨mem_cellBox.2 hin, h⟩
      · by_cases hxk : x = k
        · subst hxk
          rw [dFind_dSet_self] at hfx
          cases hfx
        · rw [dFind_dSet_ne _ _ _ _ hxk] at hfx
          exact ⟨hx, hfx⟩
  rw [hins, Finset.card_insert_of_not_mem]
  simp [dFind_dSet_self]

/-- A nodup key list contained in the cell box (possibly with the start cell
adjoined) is no longer than `cellCount + 1`; bounds the size of the
dictionaries the searches build. -/
theorem keys_length_le {grid : Grid} {start : Coord} {l : List Coord}
    (hnd : l.Nodup) (hsub : ∀ x ∈ l, x = start ∨ in_bounds grid x = true) :
    l.length ≤ cellCount grid + 1 := by
  have hsub2 : l.toFinset ⊆ insert start (cellBox grid) := by
    intro x hx
    rw [List.mem_toFinset] at hx
    rcases hsub x hx with rfl | hb
    · exact Finset.mem_insert_self _ _
    · exact Finset.mem_insert_of_mem (mem_cellBox.2 hb)
  calc l.length = l.toFinset.card := (List.toFinset_card_of_nodup hnd).symm
  _ ≤ (insert start (cellBox grid)).card := Finset.card_le_card hsub2
  _ ≤ (cellBox grid).card + 1 := Finset.card_insert_le _ _
  _ = cellCount grid + 1 := by rw [card_cellBox]

/-! ### Valid paths and the parent-pointer walk of `reconstruct_path` -/

/-- The list `P` is a step-by-step valid path starting (exclusively) at `v`:
each cell is an in-bounds passable cardinal neighbour of its predecessor. -/
def ChainFrom (grid : Grid) : Coord → List Coord → Prop
  | _, [] => True
  | v, c :: rest => c ∈ neighbors4 grid v ∧ ChainFrom grid c rest

theorem chainFrom_append_one {grid : Grid} {v c : Coord} {P : List Coord}
    (h : ChainFrom grid v P) (hc : c ∈ neighbors4 grid (P.getLastD v)) :
    ChainFrom grid v (P ++ [c]) := by
  induction P generalizing v with
  | nil => exact ⟨by simpa using hc, trivial⟩
  | cons d rest ih =>
    obtain ⟨hd, hrest⟩ := h
    exact ⟨hd, ih hrest (by rwa [List.getLastD_cons] at hc)⟩

theorem chainFrom_reachN {grid : Grid} {v : Coord} {P : List Coord}
    (h : ChainFrom grid v P) : ReachN grid v P.length (P.getLastD v) := by
  induction P generalizing v with
  | nil => exact ReachN.refl
  | cons c rest ih =>
    obtain ⟨hc, hrest⟩ := h
    have h1 : ReachN grid v 1 c := ReachN.step ReachN.refl hc
    have h3 := reachN_trans h1 (ih hrest)
    rw [Nat.add_comm 1 rest.length] at h3
    rw [List.getLastD_cons, List.length_cons]
    exact h3

theorem chainFrom_valid {grid : Grid} {v : Coord} {P : List Coord}
    (h : ChainFrom grid v P) :
    ∀ c ∈ P, in_bounds grid c = true ∧ passable grid c = some true := by
  induction P generalizing v with
  | nil => intro c hc; cases hc
  | cons d rest ih =>
    obtain ⟨hd, hrest⟩ := h
    intro c hc
    rcases List.mem_cons.1 hc with rfl | hmem
    · obtain ⟨-, hb, hp⟩ := mem_neighbors4.1 hd
      exact ⟨hb, hp⟩
    · exact ih hrest c hmem

theorem chainFrom_adjacent {grid : Grid} {v : Coord} {P : List Coord}
    (h : ChainFrom grid v P) : List.Chain' (fun a b => manhattan a b = 1) P := by
  induction P generalizing v with
  | nil => exact List.chain'_nil
  | cons c rest ih =>
    obtain ⟨hc, hrest⟩ := h
    cases rest with
    | nil => simp
    | cons d rest2 =>
      exact List.Chain'.cons (neighbors4_manhattan hrest.1) (ih hrest)

theorem dFind_mem {α β : Type} [DecidableEq α] {d : List (α × β)} {k : α} {v : β}
    (h : dFind d k = some v) : (k, v) ∈ d := by
  induction d with
  | nil => cases h
  | cons p rest ih =>
    by_cases hp : p.1 = k
    · simp only [dFind, hp, if_true, Option.some.injEq] at h
      exact List.mem_cons.2 (Or.inl (Prod.ext_iff.2 ⟨hp.symm, h.symm⟩))
    · simp only [dFind, hp, if_false] at h
      exact List.mem_cons_of_mem _ (ih h)

/-- Entries of `cf` whose key has smaller rank than `c`; the decreasing
measure of the parent-pointer walk. -/
def countBelow (cf : CameFrom) (r : Coord → Nat) (c : Coord) : Nat :=
  (cf.filter (fun e => decide (r e.1 < r c))).length

theorem countBelow_lt {cf : CameFrom} {r : Coord → Nat} {p cur : Coord} {vp : Option Coord}
    (hkey : dFind cf p = some vp) (hlt : r p < r cur) :
    countBelow cf r p < countBelow cf r cur := by
  have hmem : (p, vp) ∈ cf.filter (fun e => decide (r e.1 < r cur)) :=
    List.mem_filter.2 ⟨dFind_mem hkey, by simpa using hlt⟩
  have hsub : List.Sublist (cf.filter (fun e => decide (r e.1 < r p)))
      (cf.filter (fun e => decide (r e.1 < r cur))) := by
    apply List.monotone_filter_right
    intro e he
    simp only [decide_eq_true_eq] at he ⊢
    omega
  have hle := hsub.length_le
  rcases Nat.lt_or_ge (countBelow cf r p) (countBelow cf r cur) with hgood | hbad
  · exact hgood
  · exfalso
    have heq : countBelow cf r p = countBelow cf r cur := le_antisymm hle hbad
    have := hsub.eq_of_length heq
    rw [← this] at hmem
    have := (List.mem_filter.1 hmem).2
    simp at this

theorem reconWalk_spec (grid : Grid) (cf : CameFrom) (start : Coord) (r : Coord → Nat)
    (hnone : ∀ n, dFind cf n = some none → n = start)
    (hpar : ∀ n q, dFind cf n = some (some q) →
      n ∈ neighbors4 grid q ∧ (dFind cf q).isSome ∧ r q < r n) :
    ∀ fuel cur acc, (dFind cf cur).isSome → cur ≠ start →
      countBelow cf r cur + 1 ≤ fuel →
      ∃ L, reconWalk cf start fuel (some cur) acc = acc ++ L ∧ L ≠ [] ∧
        ChainFrom grid start L.reverse ∧ L.reverse.getLastD start = cur ∧
        r start + L.length ≤ r cur ∧
        ((∀ n q, dFind cf n = some (some q) → r q + 1 = r n) →
          r start + L.length = r cur) := by
  intro fuel
  induction fuel with
  | zero => intro cur acc hkey hne hfuel; omega
  | succ f ih =>
    intro cur acc hkey hne hfuel
    obtain ⟨v, hv⟩ := Option.isSome_iff_exists.1 hkey
    have hstep : reconWalk cf start (f + 1) (some cur) acc
        = reconWalk cf start f ((dFind cf cur).join) (acc ++ [cur]) := by
      simp [reconWalk, hne]
    match v, hv with
    | none, hv => exact absurd (hnone cur hv) hne
    | some p, hv =>
      obtain ⟨hnb, hpkey, hplt⟩ := hpar cur p hv
      rw [hv] at hstep
      have hj : (some (some p) : Option (Option Coord)).join = some p := rfl
      rw [hj] at hstep
      have hpblt : countBelow cf r p < countBelow cf r cur := by
        obtain ⟨vp, hvp⟩ := Option.isSome_iff_exists.1 hpkey
        exact countBelow_lt hvp hplt
      by_cases hps : p = start
      · rw [hps] at hnb hplt hv
        have hcb : 1 ≤ countBelow cf r cur := by omega
        have hf1 : 1 ≤ f := by omega
        obtain ⟨f2, hf2⟩ := Nat.exists_eq_add_of_le hf1
        have hdone : reconWalk cf start f (some start) (acc ++ [cur]) = acc ++ [cur] := by
          rw [hf2, Nat.add_comm 1 f2]
          simp [reconWalk]
        rw [hstep, hps, hdone]
        refine ⟨[cur], rfl, by simp, ?_, by simp, ?_, ?_⟩
        · rw [List.reverse_singleton]
          exact ⟨hnb, trivial⟩
        · simp only [List.length_singleton]
          omega
        · intro hex
          have hx := hex cur start hv
          simp only [List.length_singleton]
          omega
      · obtain ⟨L2, hL2, hL2ne, hL2chain, hL2last, hL2len, hL2ex⟩ :=
          ih p (acc ++ [cur]) hpkey hps (by omega)
        rw [hstep, hL2]
        refine ⟨cur :: L2, by simp, by simp, ?_, ?_, ?_, ?_⟩
        · simp only [List.reverse_cons]
          exact chainFrom_append_one hL2chain (by rwa [hL2last])
        · simp
        · simp only [List.length_cons]
          omega
        · intro hex
          have := hex cur p hv
          have := hL2ex hex
          simp only [List.length_cons]
          omega

theorem reconstruct_path_spec {grid : Grid} {cf : CameFrom} {start : Coord}
    (r : Coord → Nat)
    (hnone : ∀ n, dFind cf n = some none → n = start)
    (hpar : ∀ n q, dFind cf n = some (some q) →
      n ∈ neighbors4 grid q ∧ (dFind cf q).isSome ∧ r q < r n)
    {goal : Coord} (hkey : (dFind cf goal).isSome) (hne : goal ≠ start) :
    ∃ P, reconstruct_path cf start goal = P ∧ P ≠ [] ∧
      ChainFrom grid start P ∧ P.getLastD start = goal ∧
      r start + P.length ≤ r goal ∧
      ((∀ n q, dFind cf n = some (some q) → r q + 1 = r n) →
        r start + P.length = r goal) := by
  have hfuel : countBelow cf r goal + 1 ≤ cf.length + 1 := by
    have := List.length_filter_le (fun e => decide (r e.1 < r goal)) cf
    unfold countBelow
    omega
  obtain ⟨L, hL, hLne, hLchain, hLlast, hLlen, hLex⟩ :=
    reconWalk_spec grid cf start r hnone hpar (cf.length + 1) goal [] hkey hne hfuel
  refine ⟨L.reverse, ?_, by simpa using hLne, hLchain, hLlast, by simpa using hLlen, ?_⟩
  · rw [reconstruct_path, if_pos hkey, hL]
    simp
  · intro hex
    simpa using hLex hex

theorem reconstruct_path_missing {cf : CameFrom} {start goal : Coord}
    (h : dFind cf goal = none) : reconstruct_path cf start goal = [] := by
  simp [reconstruct_path, h]

/-! ### BFS: scan lemmas -/

theorem dFind_dSet_isSome_mono {α β : Type} [DecidableEq α] {d : List (α × β)}
    {k : α} {v : β} {n : α} (h : (dFind d n).isSome) :
    (dFind (dSet d k v) n).isSome := by
  by_cases hk : n = k
  · subst hk; rw [dFind_dSet_self]; rfl
  · rwa [dFind_dSet_ne _ _ _ _ hk]

theorem bfsFold_measure {grid : Grid} (cur : Coord) :
    ∀ ns : List Coord, ∀ q : List Coord, ∀ cf : CameFrom,
      (∀ n ∈ ns, in_bounds grid n = true) →
      (ns.foldl (bfsPush cur) (q, cf)).1.length +
          unseenCount grid (ns.foldl (bfsPush cur) (q, cf)).2 =
        q.length + unseenCount grid cf := by
  intro ns
  induction ns with
  | nil => intro q cf _; rfl
  | cons h rest ih =>
    intro q cf hb
    rw [List.foldl_cons]
    rcases hh : dFind cf h with _ | v
    · have hpush : bfsPush cur (q, cf) h = (q ++ [h], dSet cf h (some cur)) := by
        simp [bfsPush, hh]
      rw [hpush]
      rw [ih _ _ (fun n hn => hb n (List.mem_cons_of_mem _ hn))]
      have := @unseenCount_dSet_fresh grid _ _ (some cur) (hb h (List.mem_cons_self _ _)) hh
      simp only [List.length_append, List.length_singleton]
      omega
    · have hpush : bfsPush cur (q, cf) h = (q, cf) := by
        simp [bfsPush, hh]
      rw [hpush]
      exact ih _ _ (fun n hn => hb n (List.mem_cons_of_mem _ hn))

theorem bfsFold_key_mono {cur : Coord} :
    ∀ ns : List Coord, ∀ q : List Coord, ∀ cf : CameFrom, ∀ n : Coord,
      (dFind cf n).isSome →
      (dFind (ns.foldl (bfsPush cur) (q, cf)).2 n).isSome := by
  intro ns
  induction ns with
  | nil => intro q cf n h; exact h
  | cons h rest ih =>
    intro q cf n hn
    rw [List.foldl_cons]
    unfold bfsPush
    by_cases hh : (dFind cf h).isSome
    · rw [if_pos hh]
      exact ih _ _ _ hn
    · rw [if_neg hh]
      exact ih _ _ _ (dFind_dSet_isSome_mono hn)

theorem bfsFold_lookup {cur : Coord} :
    ∀ ns : List Coord, ∀ q : List Coord, ∀ cf : CameFrom, ∀ n : Coord,
      dFind (ns.foldl (bfsPush cur) (q, cf)).2 n = dFind cf n ∨
        (dFind cf n = none ∧ n ∈ ns ∧
          dFind (ns.foldl (bfsPush cur) (q, cf)).2 n = some (some cur)) := by
  intro ns
  induction ns with
  | nil => intro q cf n; exact Or.inl rfl
  | cons h rest ih =>
    intro q cf n
    rw [List.foldl_cons]
    unfold bfsPush
    by_cases hh : (dFind cf h).isSome
    · rw [if_pos hh]
      rcases ih q cf n with h1 | ⟨h1, h2, h3⟩
      · exact Or.inl h1
      · exact Or.inr ⟨h1, List.mem_cons_of_mem _ h2, h3⟩
    · rw [if_neg hh]
      rcases ih (q ++ [h]) (dSet cf h (some cur)) n with h1 | ⟨h1, h2, h3⟩
      · by_cases hnh : n = h
        · subst hnh
          rw [dFind_dSet_self] at h1
          refine Or.inr ⟨?_, List.mem_cons_self _ _, h1⟩
          cases hcc : dFind cf n
          · rfl
          · rw [hcc] at hh; exact absurd rfl hh
        · rw [dFind_dSet_ne _ _ _ _ hnh] at h1
          exact Or.inl h1
      · by_cases hnh : n = h
        · subst hnh
          rw [dFind_dSet_self] at h1
          cases h1
        · rw [dFind_dSet_ne _ _ _ _ hnh] at h1
          exact Or.inr ⟨h1, List.mem_cons_of_mem _ h2, h3⟩

theorem bfsFold_queue {cur : Coord} :
    ∀ ns : List Coord, ∀ q : List Coord, ∀ cf : CameFrom,
      ∃ ext : List Coord, (ns.foldl (bfsPush cur) (q, cf)).1 = q ++ ext ∧
        (∀ n ∈ ext, dFind cf n = none ∧ n ∈ ns) ∧
        (∀ n, dFind cf n = none →
          (dFind (ns.foldl (bfsPush cur) (q, cf)).2 n).isSome → n ∈ ext) := by
  intro ns
  induction ns with
  | nil =>
    intro q cf
    refine ⟨[], by simp, by simp, ?_⟩
    intro n h1 h2
    simp only [List.foldl_nil] at h2
    rw [h1] at h2
    cases h2
  | cons h rest ih =>
    intro q cf
    rw [List.foldl_cons]
    by_cases hh : (dFind cf h).isSome
    · have hpush : bfsPush cur (q, cf) h = (q, cf) := by
        simp [bfsPush, hh]
      rw [hpush]
      obtain ⟨ext, he1, he2, he3⟩ := ih q cf
      exact ⟨ext, he1, fun n hn => ⟨(he2 n hn).1, List.mem_cons_of_mem _ (he2 n hn).2⟩, he3⟩
    · have hhn : dFind cf h = none := by
        cases hcc : dFind cf h
        · rfl
        · rw [hcc] at hh; exact absurd rfl hh
      have hpush : bfsPush cur (q, cf) h = (q ++ [h], dSet cf h (some cur)) := by
        simp [bfsPush, hhn]
      rw [hpush]
      obtain ⟨ext, he1, he2, he3⟩ := ih (q ++ [h]) (dSet cf h (some cur))
      refine ⟨h :: ext, by rw [he1]; simp, ?_, ?_⟩
      · intro n hn
        rcases List.mem_cons.1 hn with rfl | hmem
        · exact ⟨hhn, List.mem_cons_self _ _⟩
        · obtain ⟨hf, hm⟩ := he2 n hmem
          constructor
          · by_cases hnh : n = h
            · subst hnh; exact hhn
            · rwa [dFind_dSet_ne _ _ _ _ hnh] at hf
          · exact List.mem_cons_of_mem _ hm
      · intro n h1 h2
        by_cases hnh : n = h
        · subst hnh; exact List.mem_cons_self _ _
        · refine List.mem_cons_of_mem _ (he3 n ?_ h2)
          rwa [dFind_dSet_ne _ _ _ _ hnh]


theorem bfsFold_covers {cur : Coord} :
    ∀ ns : List Coord, ∀ q : List Coord, ∀ cf : CameFrom, ∀ n : Coord, n ∈ ns →
      (dFind (ns.foldl (bfsPush cur) (q, cf)).2 n).isSome := by
  intro ns
  induction ns with
  | nil => intro q cf n hn; cases hn
  | cons h rest ih =>
    intro q cf n hn
    rw [List.foldl_cons]
    unfold bfsPush
    rcases List.mem_cons.1 hn with rfl | hmem
    · by_cases hh : (dFind cf n).isSome
      · rw [if_pos hh]
        exact bfsFold_key_mono rest _ _ _ hh
      · rw [if_neg hh]
        exact bfsFold_key_mono rest _ _ _ (by rw [dFind_dSet_self]; rfl)
    · by_cases hh : (dFind cf h).isSome
      · rw [if_pos hh]
        exact ih _ _ _ hmem
      · rw [if_neg hh]
        exact ih _ _ _ hmem

/-! ### BFS: loop invariant and correctness -/

/-- Invariant of the BFS `while` loop.  `k` is the current frontier level:
queued nodes split into a block at true distance `k` followed by a block at
`k + 1`; parents are recorded with exact-distance decrements, every node at
distance `≤ k` is discovered, and every dequeued node has all neighbours
discovered. -/
structure BfsInv (grid : Grid) (start : Coord) (q : List Coord) (cf : CameFrom)
    (k : Nat) : Prop where
  start_key : dFind cf start = some none
  none_start : ∀ n, dFind cf n = some none → n = start
  parent : ∀ n p, dFind cf n = some (some p) →
    n ∈ neighbors4 grid p ∧ (dFind cf p).isSome
  key_dist : ∀ n, (dFind cf n).isSome → ∃ a, IsDist grid start n a
  parent_exact : ∀ n p, dFind cf n = some (some p) → ∀ a b,
    IsDist grid start n a → IsDist grid start p b → a = b + 1
  q_keys : ∀ n ∈ q, (dFind cf n).isSome
  levels : ∃ A B, q = A ++ B ∧ (∀ n ∈ A, IsDist grid start n k) ∧
    (∀ n ∈ B, IsDist grid start n (k + 1))
  discovered : ∀ n a, IsDist grid start n a → a ≤ k → (dFind cf n).isSome
  closure : ∀ n, (dFind cf n).isSome → n ∈ q ∨
    ∀ m ∈ neighbors4 grid n, (dFind cf m).isSome

/-- What survives of the BFS invariant when the loop returns. -/
structure BfsPost (grid : Grid) (start goal : Coord) (cf : CameFrom) : Prop where
  none_start : ∀ n, dFind cf n = some none → n = start
  parent : ∀ n p, dFind cf n = some (some p) →
    n ∈ neighbors4 grid p ∧ (dFind cf p).isSome
  key_dist : ∀ n, (dFind cf n).isSome → ∃ a, IsDist grid start n a
  parent_exact : ∀ n p, dFind cf n = some (some p) → ∀ a b,
    IsDist grid start n a → IsDist grid start p b → a = b + 1
  goal_key : Reaches grid start goal → (dFind cf goal).isSome

theorem reach_closed {grid : Grid} {start : Coord} {cf : CameFrom}
    (hs : (dFind cf start).isSome)
    (hc : ∀ n, (dFind cf n).isSome → ∀ m ∈ neighbors4 grid n, (dFind cf m).isSome) :
    ∀ z, Reaches grid start z → (dFind cf z).isSome := by
  rintro z ⟨k, hk⟩
  induction hk with
  | refl => exact hs
  | step h hm ih => exact hc _ ih _ hm

theorem bfsInv_step {grid : Grid} {start cur : Coord} {rest : List Coord}
    {cf : CameFrom} {k : Nat} (hinv : BfsInv grid start (cur :: rest) cf k) :
    ∃ k2, BfsInv grid start (bfsScan grid cur (rest, cf)).1
      (bfsScan grid cur (rest, cf)).2 k2 := by
  have hcurkey : (dFind cf cur).isSome := hinv.q_keys cur (List.mem_cons_self _ _)
  obtain ⟨A, B, hq, hA, hB⟩ := hinv.levels
  -- Unified frontier data: `cur` is at level `kc`, the rest of the queue is
  -- a level-`kc` block then a level-`kc+1` block, and everything at distance
  -- `≤ kc` is already discovered.
  obtain ⟨kc, A1, B1, hq2, hA1, hB1, hcur, hdisc⟩ :
      ∃ kc A1 B1, rest = A1 ++ B1 ∧ (∀ n ∈ A1, IsDist grid start n kc) ∧
        (∀ n ∈ B1, IsDist grid start n (kc + 1)) ∧ IsDist grid start cur kc ∧
        (∀ n a, IsDist grid start n a → a ≤ kc → (dFind cf n).isSome) := by
    cases A with
    | nil =>
      have hBeq : B = cur :: rest := by simpa using hq.symm
      have hdisc2 : ∀ n a, IsDist grid start n a → a ≤ k + 1 → (dFind cf n).isSome := by
        intro n a ha hle
        rcases Nat.lt_or_ge a (k + 1) with h1 | h2
        · exact hinv.discovered n a ha (by omega)
        · have hak : a = k + 1 := by omega
          subst hak
          obtain ⟨m, hmn, hm⟩ := isDist_pred ha
          have hmkey := hinv.discovered m k hm (le_refl _)
          rcases hinv.closure m hmkey with hqmem | hcl
          · rw [hq] at hqmem
            simp only [List.nil_append] at hqmem
            have hm2 := hB m hqmem
            have := isDist_unique hm hm2
            omega
          · exact hcl n hmn
      refine ⟨k + 1, rest, [], by simp, ?_, by simp, ?_, hdisc2⟩
      · intro n hn
        exact hB n (by rw [hBeq]; exact List.mem_cons_of_mem _ hn)
      · exact hB cur (by rw [hBeq]; exact List.mem_cons_self _ _)
    | cons a A2 =>
      have ha : a = cur ∧ rest = A2 ++ B := by
        have : cur :: rest = a :: (A2 ++ B) := by simpa using hq
        exact ⟨(List.cons.injEq _ _ _ _ ▸ this).1.symm, (List.cons.injEq _ _ _ _ ▸ this).2⟩
      obtain ⟨rfl, hrest⟩ := ha
      exact ⟨k, A2, B, hrest, fun n hn => hA n (List.mem_cons_of_mem _ hn), hB,
        hA a (List.mem_cons_self _ _), hinv.discovered⟩
  have hscan : bfsScan grid cur (rest, cf) =
      (neighbors4 grid cur).foldl (bfsPush cur) (rest, cf) := rfl
  obtain ⟨ext, hext1, hext2, hext3⟩ := bfsFold_queue (neighbors4 grid cur) rest cf
  have hfresh_dist : ∀ n, dFind cf n = none → n ∈ neighbors4 grid cur →
      IsDist grid start n (kc + 1) := by
    intro n hn hnb
    have hreach : ReachN grid start (kc + 1) n := ReachN.step hcur.1 hnb
    obtain ⟨a, ha⟩ := isDist_exists ⟨_, hreach⟩
    have hle : a ≤ kc + 1 := ha.2 _ hreach
    have hgt : ¬ a ≤ kc := by
      intro hle2
      have := hdisc n a ha hle2
      rw [hn] at this
      cases this
    have hae : a = kc + 1 := by omega
    exact hae ▸ ha
  rw [hscan]
  refine ⟨kc, ?_, ?_, ?_, ?_, ?_, ?_, ?_, ?_, ?_⟩
  · rcases bfsFold_lookup (neighbors4 grid cur) rest cf start with h | ⟨h1, -, -⟩
    · rw [h]; exact hinv.start_key
    · rw [hinv.start_key] at h1; cases h1
  · intro n hn
    rcases bfsFold_lookup (neighbors4 grid cur) rest cf n with h | ⟨-, -, h3⟩
    · rw [h] at hn; exact hinv.none_start n hn
    · rw [h3] at hn; simp at hn
  · intro n p hn
    rcases bfsFold_lookup (neighbors4 grid cur) rest cf n with h | ⟨-, h2, h3⟩
    · rw [h] at hn
      obtain ⟨hnb, hpkey⟩ := hinv.parent n p hn
      exact ⟨hnb, bfsFold_key_mono _ _ _ _ hpkey⟩
    · rw [h3] at hn
      have hpc : p = cur := by
        have := Option.some.inj hn
        exact (Option.some.inj this).symm
      subst hpc
      exact ⟨h2, bfsFold_key_mono _ _ _ _ hcurkey⟩
  · intro n hn
    rcases bfsFold_lookup (neighbors4 grid cur) rest cf n with h | ⟨h1, h2, -⟩
    · rw [h] at hn; exact hinv.key_dist n hn
    · exact ⟨kc + 1, hfresh_dist n h1 h2⟩
  · intro n p hn a b hna hpb
    rcases bfsFold_lookup (neighbors4 grid cur) rest cf n with h | ⟨h1, h2, h3⟩
    · rw [h] at hn; exact hinv.parent_exact n p hn a b hna hpb
    · rw [h3] at hn
      have hpc : p = cur := by
        have := Option.some.inj hn
        exact (Option.some.inj this).symm
      subst hpc
      have ha2 := isDist_unique hna (hfresh_dist n h1 h2)
      have hb2 := isDist_unique hpb hcur
      omega
  · intro n hn
    rw [hext1] at hn
    rcases List.mem_append.1 hn with hmem | hmem
    · exact bfsFold_key_mono _ _ _ _ (hinv.q_keys n (List.mem_cons_of_mem _ hmem))
    · exact bfsFold_covers _ _ _ _ (hext2 n hmem).2
  · refine ⟨A1, B1 ++ ext, by rw [hext1, hq2, List.append_assoc], hA1, ?_⟩
    intro n hn
    rcases List.mem_append.1 hn with hmem | hmem
    · exact hB1 n hmem
    · exact hfresh_dist n (hext2 n hmem).1 (hext2 n hmem).2
  · intro n a ha hle
    exact bfsFold_key_mono _ _ _ _ (hdisc n a ha hle)
  · intro n hn
    by_cases hncur : n = cur
    · subst hncur
      exact Or.inr (fun m hm => bfsFold_covers _ _ _ _ hm)
    · rcases bfsFold_lookup (neighbors4 grid cur) rest cf n with h | ⟨h1, h2, -⟩
      · rw [h] at hn
        rcases hinv.closure n hn with hqmem | hcl
        · rcases List.mem_cons.1 hqmem with rfl | hmem
          · exact absurd rfl hncur
          · exact Or.inl (by rw [hext1]; exact List.mem_append_left _ hmem)
        · exact Or.inr (fun m hm => bfsFold_key_mono _ _ _ _ (hcl m hm))
      · exact Or.inl (by rw [hext1]; exact List.mem_append_right _ (hext3 n h1 hn))

theorem bfsLoop_post {grid : Grid} {start goal : Coord} :
    ∀ fuel (q : List Coord) (cf : CameFrom) (k : Nat),
      q.length + unseenCount grid cf ≤ fuel →
      BfsInv grid start q cf k →
      BfsPost grid start goal (bfsLoop grid goal fuel q cf) := by
  intro fuel
  induction fuel with
  | zero =>
    intro q cf k hm hinv
    have hq : q = [] := List.eq_nil_of_length_eq_zero (by omega)
    subst hq
    show BfsPost grid start goal cf
    refine ⟨hinv.none_start, hinv.parent, hinv.key_dist, hinv.parent_exact, ?_⟩
    intro hreach
    refine reach_closed (by rw [hinv.start_key]; rfl) ?_ goal hreach
    intro n hn
    rcases hinv.closure n hn with hmem | hcl
    · cases hmem
    · exact hcl
  | succ f ih =>
    intro q cf k hm hinv
    cases q with
    | nil =>
      show BfsPost grid start goal cf
      refine ⟨hinv.none_start, hinv.parent, hinv.key_dist, hinv.parent_exact, ?_⟩
      intro hreach
      refine reach_closed (by rw [hinv.start_key]; rfl) ?_ goal hreach
      intro n hn
      rcases hinv.closure n hn with hmem | hcl
      · cases hmem
      · exact hcl
    | cons cur rest =>
      show BfsPost grid start goal
        (if cur = goal then cf else
          bfsLoop grid goal f (bfsScan grid cur (rest, cf)).1 (bfsScan grid cur (rest, cf)).2)
      by_cases hg : cur = goal
      · rw [if_pos hg]
        refine ⟨hinv.none_start, hinv.parent, hinv.key_dist, hinv.parent_exact, ?_⟩
        intro _
        rw [← hg]
        exact hinv.q_keys cur (List.mem_cons_self _ _)
      · rw [if_neg hg]
        obtain ⟨k2, hinv2⟩ := bfsInv_step hinv
        apply ih _ _ k2 ?_ hinv2
        have hms := bfsFold_measure cur (neighbors4 grid cur) rest cf
          (fun n hn => (mem_neighbors4.1 hn).2.1)
        have : (bfsScan grid cur (rest, cf)).1.length +
            unseenCount grid (bfsScan grid cur (rest, cf)).2 =
            rest.length + unseenCount grid cf := hms
        simp only [List.length_cons] at hm
        omega

theorem bfs_post (grid : Grid) (start goal : Coord) :
    BfsPost grid start goal
      (bfsLoop grid goal (cellCount grid + 1) [start] [(start, none)]) := by
  apply bfsLoop_post _ _ _ 0
  · have := unseenCount_le grid [(start, none)]
    simp only [List.length_singleton]
    omega
  · refine ⟨?_, ?_, ?_, ?_, ?_, ?_, ?_, ?_, ?_⟩
    · simp [dFind]
    · intro n hn
      simp only [dFind] at hn
      by_cases h : start = n
      · exact h.symm
      · rw [if_neg h] at hn; cases hn
    · intro n p hn
      simp only [dFind] at hn
      by_cases h : start = n
      · rw [if_pos h] at hn; cases hn
      · rw [if_neg h] at hn; cases hn
    · intro n hn
      simp only [dFind] at hn
      by_cases h : start = n
      · exact ⟨0, h ▸ isDist_self grid start⟩
      · rw [if_neg h] at hn; cases hn
    · intro n p hn
      simp only [dFind] at hn
      by_cases h : start = n
      · rw [if_pos h] at hn; cases hn
      · rw [if_neg h] at hn; cases hn
    · intro n hn
      rcases List.mem_singleton.1 hn with rfl
      simp [dFind]
    · refine ⟨[start], [], by simp, ?_, by simp⟩
      intro n hn
      rcases List.mem_singleton.1 hn with rfl
      exact isDist_self grid _
    · intro n a ha hle
      have ha0 : a = 0 := by omega
      subst ha0
      have := isDist_zero_eq ha
      subst this
      simp [dFind]
    · intro n hn
      simp only [dFind] at hn
      by_cases h : start = n
      · exact Or.inl (h ▸ List.mem_singleton_self start)
      · rw [if_neg h] at hn; cases hn

theorem bfs_reachable_spec {grid : Grid} {start goal : Coord}
    (hne : start ≠ goal) (hreach : Reaches grid start goal) :
    ∃ P dg, bfs grid start goal = P ∧ IsDist grid start goal dg ∧ P ≠ [] ∧
      ChainFrom grid start P ∧ P.getLastD start = goal ∧ P.length = dg := by
  classical
  have post := bfs_post grid start goal
  set cf := bfsLoop grid goal (cellCount grid + 1) [start] [(start, none)] with hcf
  have hkey : (dFind cf goal).isSome := post.goal_key hreach
  obtain ⟨dg, hdg⟩ := isDist_exists hreach
  have hgns : goal ≠ start := fun h => hne h.symm
  have hr : ∀ n a, IsDist grid start n a →
      (fun n => if h : ∃ a, IsDist grid start n a then h.choose else 0) n = a := by
    intro n a ha
    have hex : ∃ a, IsDist grid start n a := ⟨a, ha⟩
    show dite _ _ _ = a
    rw [dif_pos hex]
    exact isDist_unique hex.choose_spec ha
  have hpar : ∀ n q2, dFind cf n = some (some q2) →
      n ∈ neighbors4 grid q2 ∧ (dFind cf q2).isSome ∧
        (fun n => if h : ∃ a, IsDist grid start n a then h.choose else 0) q2 <
          (fun n => if h : ∃ a, IsDist grid start n a then h.choose else 0) n := by
    intro n q2 hnq
    obtain ⟨hnb, hq2key⟩ := post.parent n q2 hnq
    obtain ⟨a, ha⟩ := post.key_dist n (by rw [hnq]; rfl)
    obtain ⟨b, hb⟩ := post.key_dist q2 hq2key
    have hab := post.parent_exact n q2 hnq a b ha hb
    refine ⟨hnb, hq2key, ?_⟩
    rw [hr n a ha, hr q2 b hb]
    omega
  have hexact : ∀ n q2, dFind cf n = some (some q2) →
      (fun n => if h : ∃ a, IsDist grid start n a then h.choose else 0) q2 + 1 =
        (fun n => if h : ∃ a, IsDist grid start n a then h.choose else 0) n := by
    intro n q2 hnq
    obtain ⟨hnb, hq2key⟩ := post.parent n q2 hnq
    obtain ⟨a, ha⟩ := post.key_dist n (by rw [hnq]; rfl)
    obtain ⟨b, hb⟩ := post.key_dist q2 hq2key
    have hab := post.parent_exact n q2 hnq a b ha hb
    rw [hr n a ha, hr q2 b hb]
    omega
  obtain ⟨P, hP, hPne, hPchain, hPlast, hPle, hPexact⟩ :=
    reconstruct_path_spec _ post.none_start hpar hkey hgns
  have hlen := hPexact hexact
  have hr0 := hr start 0 (isDist_self grid start)
  have hrg := hr goal dg hdg
  simp only [hr0, hrg] at hlen
  refine ⟨P, dg, ?_, hdg, hPne, hPchain, hPlast, by omega⟩
  rw [bfs, if_neg hne, ← hcf]
  exact hP

theorem bfs_unreachable {grid : Grid} {start goal : Coord}
    (hnr : ¬ Reaches grid start goal) : bfs grid start goal = [] := by
  by_cases hne : start = goal
  · rw [bfs, if_pos hne]
  · rw [bfs, if_neg hne]
    apply reconstruct_path_missing
    cases hk : dFind (bfsLoop grid goal (cellCount grid + 1) [start] [(start, none)]) goal
    · rfl
    · exfalso
      have post := bfs_post grid start goal
      obtain ⟨a, ha⟩ := post.key_dist goal (by rw [hk]; rfl)
      exact hnr ⟨a, ha.1⟩

theorem bfs_self (grid : Grid) (c : Coord) : bfs grid c c = [] := by
  rw [bfs, if_pos rfl]

/-! ### DFS: parent-map core bundle, scan lemmas, invariant -/

/-- Structural facts about a `came_from` map rooted at `start`: only the
start maps to `None`, every other binding records a genuine neighbour edge
to an earlier-ranked key, and every key is reachable. -/
structure CfCore (grid : Grid) (start : Coord) (cf : CameFrom) : Prop where
  start_key : dFind cf start = some none
  none_start : ∀ n, dFind cf n = some none → n = start
  parent : ∀ n p, dFind cf n = some (some p) →
    n ∈ neighbors4 grid p ∧ (dFind cf p).isSome
  key_reach : ∀ n, (dFind cf n).isSome → Reaches grid start n
  rank : ∃ r : Coord → Nat, ∀ n p, dFind cf n = some (some p) → r p < r n

theorem cfCore_dSet_fresh {grid : Grid} {start cur nxt : Coord} {cf : CameFrom}
    (hc : CfCore grid start cf) (hfresh : dFind cf nxt = none)
    (hnb : nxt ∈ neighbors4 grid cur) (hcur : (dFind cf cur).isSome) :
    CfCore grid start (dSet cf nxt (some cur)) := by
  have hsn : start ≠ nxt := by
    intro h
    rw [← h, hc.start_key] at hfresh
    cases hfresh
  refine ⟨?_, ?_, ?_, ?_, ?_⟩
  · rw [dFind_dSet_ne _ _ _ _ hsn]
    exact hc.start_key
  · intro n hn
    by_cases hnn : n = nxt
    · subst hnn
      rw [dFind_dSet_self] at hn
      cases hn
    · rw [dFind_dSet_ne _ _ _ _ hnn] at hn
      exact hc.none_start n hn
  · intro n p hn
    by_cases hnn : n = nxt
    · subst hnn
      rw [dFind_dSet_self] at hn
      have hpc : p = cur := (Option.some.inj (Option.some.inj hn)).symm
      subst hpc
      exact ⟨hnb, dFind_dSet_isSome_mono hcur⟩
    · rw [dFind_dSet_ne _ _ _ _ hnn] at hn
      obtain ⟨h1, h2⟩ := hc.parent n p hn
      exact ⟨h1, dFind_dSet_isSome_mono h2⟩
  · intro n hn
    by_cases hnn : n = nxt
    · subst hnn
      obtain ⟨a, ha⟩ := hc.key_reach cur hcur
      exact ⟨a + 1, ReachN.step ha hnb⟩
    · rw [dFind_dSet_ne _ _ _ _ hnn] at hn
      exact hc.key_reach n hn
  · obtain ⟨r, hr⟩ := hc.rank
    refine ⟨fun m => if m = nxt then r cur + 1 else r m, ?_⟩
    intro n p hn
    dsimp only
    by_cases hnn : n = nxt
    · rw [hnn, dFind_dSet_self] at hn
      have hpc : p = cur := (Option.some.inj (Option.some.inj hn)).symm
      have hcn : cur ≠ nxt := by
        intro h2
        rw [h2, hfresh] at hcur
        cases hcur
      have hpn : p ≠ nxt := by rw [hpc]; exact hcn
      rw [if_neg hpn, if_pos hnn, hpc]
      omega
    · rw [dFind_dSet_ne _ _ _ _ hnn] at hn
      have hp2 := (hc.parent n p hn).2
      have hpn : p ≠ nxt := by
        intro h2
        rw [h2, hfresh] at hp2
        cases hp2
      rw [if_neg hpn, if_neg hnn]
      exact hr n p hn

theorem dfsFold_core {grid : Grid} {start cur : Coord} {visited : List Coord} :
    ∀ ns : List Coord, ∀ q : List Coord, ∀ cf : CameFrom,
      CfCore grid start cf → (∀ n ∈ ns, n ∈ neighbors4 grid cur) →
      (dFind cf cur).isSome →
      CfCore grid start (ns.foldl (dfsPush cur visited) (q, cf)).2 := by
  intro ns
  induction ns with
  | nil => intro q cf hc _ _; exact hc
  | cons h rest ih =>
    intro q cf hc hns hcur
    rw [List.foldl_cons]
    by_cases hh : h ∈ visited ∨ (dFind cf h).isSome
    · have hpush : dfsPush cur visited (q, cf) h = (q, cf) := by
        simp only [dfsPush, if_pos hh]
      rw [hpush]
      exact ih _ _ hc (fun n hn => hns n (List.mem_cons_of_mem _ hn)) hcur
    · push_neg at hh
      have hfresh : dFind cf h = none := by
        cases hcc : dFind cf h
        · rfl
        · rw [hcc] at hh; exact absurd rfl hh.2
      have hpush : dfsPush cur visited (q, cf) h = (h :: q, dSet cf h (some cur)) := by
        simp only [dfsPush]
        rw [if_neg]
        push_neg
        exact ⟨hh.1, by rw [hfresh]; simp⟩
      rw [hpush]
      exact ih _ _ (cfCore_dSet_fresh hc hfresh (hns h (List.mem_cons_self _ _)) hcur)
        (fun n hn => hns n (List.mem_cons_of_mem _ hn))
        (dFind_dSet_isSome_mono hcur)

theorem dfsFold_key_mono {cur : Coord} {visited : List Coord} :
    ∀ ns : List Coord, ∀ q : List Coord, ∀ cf : CameFrom, ∀ n : Coord,
      (dFind cf n).isSome →
      (dFind (ns.foldl (dfsPush cur visited) (q, cf)).2 n).isSome := by
  intro ns
  induction ns with
  | nil => intro q cf n h; exact h
  | cons h rest ih =>
    intro q cf n hn
    rw [List.foldl_cons]
    by_cases hh : h ∈ visited ∨ (dFind cf h).isSome
    · rw [show dfsPush cur visited (q, cf) h = (q, cf) by simp only [dfsPush, if_pos hh]]
      exact ih _ _ _ hn
    · rw [show dfsPush cur visited (q, cf) h = (h :: q, dSet cf h (some cur)) by
        simp only [dfsPush, if_neg hh]]
      exact ih _ _ _ (dFind_dSet_isSome_mono hn)

theorem dfsFold_stack {cur : Coord} {visited : List Coord} :
    ∀ ns : List Coord, ∀ q : List Coord, ∀ cf : CameFrom,
      ∃ ext : List Coord, (ns.foldl (dfsPush cur visited) (q, cf)).1 = ext ++ q ∧
        (∀ n ∈ ext, dFind cf n = none ∧ n ∈ ns ∧ n ∉ visited ∧
          (dFind (ns.foldl (dfsPush cur visited) (q, cf)).2 n).isSome) ∧
        (∀ n, dFind cf n = none →
          (dFind (ns.foldl (dfsPush cur visited) (q, cf)).2 n).isSome → n ∈ ext) := by
  intro ns
  induction ns with
  | nil =>
    intro q cf
    refine ⟨[], by simp, by simp, ?_⟩
    intro n h1 h2
    simp only [List.foldl_nil] at h2
    rw [h1] at h2
    cases h2
  | cons h rest ih =>
    intro q cf
    rw [List.foldl_cons]
    by_cases hh : h ∈ visited ∨ (dFind cf h).isSome
    · rw [show dfsPush cur visited (q, cf) h = (q, cf) by simp only [dfsPush, if_pos hh]]
      obtain ⟨ext, he1, he2, he3⟩ := ih q cf
      refine ⟨ext, he1, ?_, he3⟩
      intro n hn
      obtain ⟨a1, a2, a3, a4⟩ := he2 n hn
      exact ⟨a1, List.mem_cons_of_mem _ a2, a3, a4⟩
    · have hh2 := hh
      push_neg at hh2
      have hfresh : dFind cf h = none := by
        cases hcc : dFind cf h
        · rfl
        · rw [hcc] at hh2; exact absurd rfl hh2.2
      rw [show dfsPush cur visited (q, cf) h = (h :: q, dSet cf h (some cur)) by
        simp only [dfsPush, if_neg hh]]
      obtain ⟨ext, he1, he2, he3⟩ := ih (h :: q) (dSet cf h (some cur))
      refine ⟨ext ++ [h], by rw [he1]; simp, ?_, ?_⟩
      · intro n hn
        rcases List.mem_append.1 hn with hmem | hmem
        · obtain ⟨a1, a2, a3, a4⟩ := he2 n hmem
          have hnh : n ≠ h := by
            intro he
            rw [he, dFind_dSet_self] at a1
            cases a1
          rw [dFind_dSet_ne _ _ _ _ hnh] at a1
          exact ⟨a1, List.mem_cons_of_mem _ a2, a3, a4⟩
        · rcases List.mem_singleton.1 hmem with rfl
          refine ⟨hfresh, List.mem_cons_self _ _, hh2.1, ?_⟩
          exact dfsFold_key_mono _ _ _ _ (by rw [dFind_dSet_self]; rfl)
      · intro n h1 h2
        by_cases hnh : n = h
        · subst hnh
          exact List.mem_append_right _ (List.mem_singleton_self _)
        · refine List.mem_append_left _ (he3 n ?_ h2)
          rwa [dFind_dSet_ne _ _ _ _ hnh]

theorem dfsFold_lookup {cur : Coord} {visited : List Coord} :
    ∀ ns : List Coord, ∀ q : List Coord, ∀ cf : CameFrom, ∀ n : Coord,
      dFind (ns.foldl (dfsPush cur visited) (q, cf)).2 n = dFind cf n ∨
        dFind (ns.foldl (dfsPush cur visited) (q, cf)).2 n = some (some cur) := by
  intro ns
  induction ns with
  | nil => intro q cf n; exact Or.inl rfl
  | cons h rest ih =>
    intro q cf n
    rw [List.foldl_cons]
    by_cases hh : h ∈ visited ∨ (dFind cf h).isSome
    · rw [show dfsPush cur visited (q, cf) h = (q, cf) by simp only [dfsPush, if_pos hh]]
      exact ih q cf n
    · rw [show dfsPush cur visited (q, cf) h = (h :: q, dSet cf h (some cur)) by
        simp only [dfsPush, if_neg hh]]
      rcases ih (h :: q) (dSet cf h (some cur)) n with h1 | h1
      · by_cases hnh : n = h
        · subst hnh
          rw [dFind_dSet_self] at h1
          exact Or.inr h1
        · rw [dFind_dSet_ne _ _ _ _ hnh] at h1
          exact Or.inl h1
      · exact Or.inr h1

theorem dfsFold_covers {cur : Coord} {visited : List Coord} :
    ∀ ns : List Coord, ∀ q : List Coord, ∀ cf : CameFrom, ∀ n : Coord, n ∈ ns →
      n ∈ visited ∨ (dFind (ns.foldl (dfsPush cur visited) (q, cf)).2 n).isSome := by
  intro ns
  induction ns with
  | nil => intro q cf n hn; cases hn
  | cons h rest ih =>
    intro q cf n hn
    rw [List.foldl_cons]
    by_cases hh : h ∈ visited ∨ (dFind cf h).isSome
    · rw [show dfsPush cur visited (q, cf) h = (q, cf) by simp only [dfsPush, if_pos hh]]
      rcases List.mem_cons.1 hn with rfl | hmem
      · rcases hh with hv | hk
        · exact Or.inl hv
        · exact Or.inr (dfsFold_key_mono _ _ _ _ hk)
      · exact ih _ _ _ hmem
    · rw [show dfsPush cur visited (q, cf) h = (h :: q, dSet cf h (some cur)) by
        simp only [dfsPush, if_neg hh]]
      rcases List.mem_cons.1 hn with rfl | hmem
      · exact Or.inr (dfsFold_key_mono _ _ _ _ (by rw [dFind_dSet_self]; rfl))
      · exact ih _ _ _ hmem

theorem dfsFold_measure {grid : Grid} {cur : Coord} {visited : List Coord} :
    ∀ ns : List Coord, ∀ q : List Coord, ∀ cf : CameFrom,
      (∀ n ∈ ns, in_bounds grid n = true) →
      (ns.foldl (dfsPush cur visited) (q, cf)).1.length +
          unseenCount grid (ns.foldl (dfsPush cur visited) (q, cf)).2 ≤
        q.length + unseenCount grid cf := by
  intro ns
  induction ns with
  | nil => intro q cf _; exact le_refl _
  | cons h rest ih =>
    intro q cf hb
    rw [List.foldl_cons]
    by_cases hh : h ∈ visited ∨ (dFind cf h).isSome
    · rw [show dfsPush cur visited (q, cf) h = (q, cf) by simp only [dfsPush, if_pos hh]]
      exact ih _ _ (fun n hn => hb n (List.mem_cons_of_mem _ hn))
    · have hh2 := hh
      push_neg at hh2
      have hfresh : dFind cf h = none := by
        cases hcc : dFind cf h
        · rfl
        · rw [hcc] at hh2; exact absurd rfl hh2.2
      rw [show dfsPush cur visited (q, cf) h = (h :: q, dSet cf h (some cur)) by
        simp only [dfsPush, if_neg hh]]
      have hm := ih (h :: q) (dSet cf h (some cur))
        (fun n hn => hb n (List.mem_cons_of_mem _ hn))
      have hu := @unseenCount_dSet_fresh grid _ _ (some cur)
        (hb h (List.mem_cons_self _ _)) hfresh
      simp only [List.length_cons] at hm
      omega

/-- Invariant of the DFS `while` loop: structural parent-map facts plus
bookkeeping tying the stack, the visited set and the keys together. -/
structure DfsInv (grid : Grid) (start : Coord) (stack : List Coord) (cf : CameFrom)
    (visited : List Coord) : Prop where
  core : CfCore grid start cf
  stack_keys : ∀ n ∈ stack, (dFind cf n).isSome
  key_located : ∀ n, (dFind cf n).isSome → n ∈ stack ∨ n ∈ visited
  visited_keys : ∀ n ∈ visited, (dFind cf n).isSome
  visited_closed : ∀ n ∈ visited, ∀ m ∈ neighbors4 grid n, (dFind cf m).isSome

/-- What survives of the DFS invariant when the loop returns. -/
structure DfsPost (grid : Grid) (start goal : Coord) (cf : CameFrom) : Prop where
  core : CfCore grid start cf
  goal_key : Reaches grid start goal → (dFind cf goal).isSome

theorem dfsInv_step {grid : Grid} {start cur : Coord} {stack : List Coord}
    {cf : CameFrom} {visited : List Coord}
    (hinv : DfsInv grid start (cur :: stack) cf visited) (hnv : cur ∉ visited) :
    DfsInv grid start (dfsScan grid cur (cur :: visited) (stack, cf)).1
      (dfsScan grid cur (cur :: visited) (stack, cf)).2 (cur :: visited) := by
  have hcurkey : (dFind cf cur).isSome := hinv.stack_keys cur (List.mem_cons_self _ _)
  have hscan : dfsScan grid cur (cur :: visited) (stack, cf) =
      (neighbors4 grid cur).foldl (dfsPush cur (cur :: visited)) (stack, cf) := rfl
  rw [hscan]
  obtain ⟨ext, hext1, hext2, hext3⟩ :=
    @dfsFold_stack cur (cur :: visited) (neighbors4 grid cur) stack cf
  have hvkeys : ∀ n ∈ cur :: visited,
      (dFind ((neighbors4 grid cur).foldl (dfsPush cur (cur :: visited)) (stack, cf)).2 n).isSome := by
    intro n hn
    rcases List.mem_cons.1 hn with rfl | hmem
    · exact dfsFold_key_mono _ _ _ _ hcurkey
    · exact dfsFold_key_mono _ _ _ _ (hinv.visited_keys n hmem)
  refine ⟨?_, ?_, ?_, hvkeys, ?_⟩
  · exact dfsFold_core _ _ _ hinv.core (fun n hn => hn) hcurkey
  · intro n hn
    rw [hext1] at hn
    rcases List.mem_append.1 hn with hmem | hmem
    · exact (hext2 n hmem).2.2.2
    · exact dfsFold_key_mono _ _ _ _ (hinv.stack_keys n (List.mem_cons_of_mem _ hmem))
  · intro n hn
    rcases dfsFold_lookup (neighbors4 grid cur) stack cf n with h1 | h1
    · rw [h1] at hn
      rcases hinv.key_located n hn with hmem | hmem
      · rcases List.mem_cons.1 hmem with rfl | hmem2
        · exact Or.inr (List.mem_cons_self _ _)
        · exact Or.inl (by rw [hext1]; exact List.mem_append_right _ hmem2)
      · exact Or.inr (List.mem_cons_of_mem _ hmem)
    · by_cases hold : (dFind cf n).isSome
      · rcases hinv.key_located n hold with hmem | hmem
        · rcases List.mem_cons.1 hmem with rfl | hmem2
          · exact Or.inr (List.mem_cons_self _ _)
          · exact Or.inl (by rw [hext1]; exact List.mem_append_right _ hmem2)
        · exact Or.inr (List.mem_cons_of_mem _ hmem)
      · have hfresh : dFind cf n = none := by
          cases hcc : dFind cf n
          · rfl
          · rw [hcc] at hold; exact absurd rfl hold
        exact Or.inl (by rw [hext1]; exact List.mem_append_left _ (hext3 n hfresh hn))
  · intro n hn m hm
    rcases List.mem_cons.1 hn with heq | hmem
    · rw [heq] at hm
      rcases dfsFold_covers (neighbors4 grid cur) stack cf m hm with hv2 | hk
      · exact hvkeys m hv2
      · exact hk
    · exact dfsFold_key_mono _ _ _ _ (hinv.visited_closed n hmem m hm)

theorem dfsLoop_post {grid : Grid} {start goal : Coord} :
    ∀ fuel (stack : List Coord) (cf : CameFrom) (visited : List Coord),
      stack.length + unseenCount grid cf ≤ fuel →
      DfsInv grid start stack cf visited →
      DfsPost grid start goal (dfsLoop grid goal fuel stack cf visited) := by
  intro fuel
  induction fuel with
  | zero =>
    intro stack cf visited hm hinv
    have hq : stack = [] := List.eq_nil_of_length_eq_zero (by omega)
    subst hq
    show DfsPost grid start goal cf
    refine ⟨hinv.core, ?_⟩
    intro hreach
    refine reach_closed (by rw [hinv.core.start_key]; rfl) ?_ goal hreach
    intro n hn m hm
    rcases hinv.key_located n hn with hmem | hmem
    · cases hmem
    · exact hinv.visited_closed n hmem m hm
  | succ f ih =>
    intro stack cf visited hm hinv
    cases stack with
    | nil =>
      show DfsPost grid start goal cf
      refine ⟨hinv.core, ?_⟩
      intro hreach
      refine reach_closed (by rw [hinv.core.start_key]; rfl) ?_ goal hreach
      intro n hn m hm
      rcases hinv.key_located n hn with hmem | hmem
      · cases hmem
      · exact hinv.visited_closed n hmem m hm
    | cons cur rest =>
      show DfsPost grid start goal
        (if cur ∈ visited then dfsLoop grid goal f rest cf visited
         else if cur = goal then cf
         else dfsLoop grid goal f (dfsScan grid cur (cur :: visited) (rest, cf)).1
           (dfsScan grid cur (cur :: visited) (rest, cf)).2 (cur :: visited))
      by_cases hv : cur ∈ visited
      · rw [if_pos hv]
        apply ih rest cf visited ?_ ?_
        · simp only [List.length_cons] at hm
          omega
        · refine ⟨hinv.core, fun n hn => hinv.stack_keys n (List.mem_cons_of_mem _ hn),
            ?_, hinv.visited_keys, hinv.visited_closed⟩
          intro n hn
          rcases hinv.key_located n hn with hmem | hmem
          · rcases List.mem_cons.1 hmem with rfl | hmem2
            · exact Or.inr hv
            · exact Or.inl hmem2
          · exact Or.inr hmem
      · rw [if_neg hv]
        by_cases hg : cur = goal
        · rw [if_pos hg]
          refine ⟨hinv.core, ?_⟩
          intro _
          rw [← hg]
          exact hinv.stack_keys cur (List.mem_cons_self _ _)
        · rw [if_neg hg]
          have hinv2 := dfsInv_step hinv hv
          apply ih _ _ _ ?_ hinv2
          have hms := @dfsFold_measure grid cur
            (cur :: visited) (neighbors4 grid cur) rest cf
            (fun n hn => (mem_neighbors4.1 hn).2.1)
          simp only [List.length_cons] at hm
          have hds : dfsScan grid cur (cur :: visited) (rest, cf) =
              (neighbors4 grid cur).foldl (dfsPush cur (cur :: visited)) (rest, cf) := rfl
          rw [hds]
          omega

theorem dfs_post (grid : Grid) (start goal : Coord) :
    DfsPost grid start goal
      (dfsLoop grid goal (cellCount grid + 1) [start] [(start, none)] []) := by
  apply dfsLoop_post _ _ _ []
  · have := unseenCount_le grid [(start, none)]
    simp only [List.length_singleton]
    omega
  · refine ⟨⟨?_, ?_, ?_, ?_, ?_⟩, ?_, ?_, by simp, by simp⟩
    · simp [dFind]
    · intro n hn
      simp only [dFind] at hn
      by_cases h : start = n
      · exact h.symm
      · rw [if_neg h] at hn; cases hn
    · intro n p hn
      simp only [dFind] at hn
      by_cases h : start = n
      · rw [if_pos h] at hn; cases hn
      · rw [if_neg h] at hn; cases hn
    · intro n hn
      simp only [dFind] at hn
      by_cases h : start = n
      · exact ⟨0, h ▸ ReachN.refl⟩
      · rw [if_neg h] at hn; cases hn
    · refine ⟨fun _ => 0, ?_⟩
      intro n p hn
      simp only [dFind] at hn
      by_cases h : start = n
      · rw [if_pos h] at hn; cases hn
      · rw [if_neg h] at hn; cases hn
    · intro n hn
      rcases List.mem_singleton.1 hn with rfl
      simp [dFind]
    · intro n hn
      simp only [dFind] at hn
      by_cases h : start = n
      · exact Or.inl (h ▸ List.mem_singleton_self start)
      · rw [if_neg h] at hn; cases hn

theorem dfs_reachable_spec {grid : Grid} {start goal : Coord}
    (hne : start ≠ goal) (hreach : Reaches grid start goal) :
    ∃ P, dfs grid start goal = P ∧ P ≠ [] ∧
      ChainFrom grid start P ∧ P.getLastD start = goal := by
  have post := dfs_post grid start goal
  set cf := dfsLoop grid goal (cellCount grid + 1) [start] [(start, none)] [] with hcf
  have hkey : (dFind cf goal).isSome := post.goal_key hreach
  have hgns : goal ≠ start := fun h => hne h.symm
  obtain ⟨r, hr⟩ := post.core.rank
  have hpar : ∀ n q2, dFind cf n = some (some q2) →
      n ∈ neighbors4 grid q2 ∧ (dFind cf q2).isSome ∧ r q2 < r n := by
    intro n q2 hnq
    obtain ⟨h1, h2⟩ := post.core.parent n q2 hnq
    exact ⟨h1, h2, hr n q2 hnq⟩
  obtain ⟨P, hP, hPne, hPchain, hPlast, -, -⟩ :=
    reconstruct_path_spec r post.core.none_start hpar hkey hgns
  refine ⟨P, ?_, hPne, hPchain, hPlast⟩
  rw [dfs, if_neg hne, ← hcf]
  exact hP

theorem dfs_unreachable {grid : Grid} {start goal : Coord}
    (hnr : ¬ Reaches grid start goal) : dfs grid start goal = [] := by
  by_cases hne : start = goal
  · rw [dfs, if_pos hne]
  · rw [dfs, if_neg hne]
    apply reconstruct_path_missing
    cases hk : dFind (dfsLoop grid goal (cellCount grid + 1) [start] [(start, none)] []) goal
    · rfl
    · exfalso
      have post := dfs_post grid start goal
      exact hnr (post.core.key_reach goal (by rw [hk]; rfl))

theorem dfs_self (grid : Grid) (c : Coord) : dfs grid c c = [] := by
  rw [dfs, if_pos rfl]

/-! ### A*: heap order, potential function, helpers -/

theorem entryLe_refl (a : Nat × Coord) : entryLe a a = true := by
  simp [entryLe]

theorem entryLe_total (a b : Nat × Coord) : entryLe a b = true ∨ entryLe b a = true := by
  simp only [entryLe, decide_eq_true_eq]
  omega

theorem entryLe_trans {a b c : Nat × Coord} (h1 : entryLe a b = true)
    (h2 : entryLe b c = true) : entryLe a c = true := by
  simp only [entryLe, decide_eq_true_eq] at h1 h2 ⊢
  omega

theorem entryLe_fst {a b : Nat × Coord} (h : entryLe a b = true) : a.1 ≤ b.1 := by
  simp only [entryLe, decide_eq_true_eq] at h
  omega

theorem heapMin_mem (x : Nat × Coord) (h : HeapT) : heapMin x h ∈ x :: h := by
  induction h generalizing x with
  | nil => simp [heapMin]
  | cons y t ih =>
    rw [show heapMin x (y :: t) = heapMin (if entryLe y x then y else x) t from rfl]
    have := ih (if entryLe y x then y else x)
    rcases List.mem_cons.1 this with heq | hmem
    · rw [heq]
      by_cases hc : entryLe y x = true
      · simp only [if_pos hc]
        exact List.mem_cons_of_mem _ (List.mem_cons_self _ _)
      · simp only [if_neg hc]
        exact List.mem_cons_self _ _
    · exact List.mem_cons_of_mem _ (List.mem_cons_of_mem _ hmem)

theorem heapMin_le (x : Nat × Coord) (h : HeapT) :
    ∀ y ∈ x :: h, entryLe (heapMin x h) y = true := by
  induction h generalizing x with
  | nil =>
    intro y hy
    rcases List.mem_cons.1 hy with heq | hmem
    · rw [heq]; exact entryLe_refl _
    · cases hmem
  | cons z t ih =>
    intro y hy
    rw [show heapMin x (z :: t) = heapMin (if entryLe z x then z else x) t from rfl]
    have hm1 : entryLe (if entryLe z x then z else x) x = true := by
      by_cases hc : entryLe z x = true
      · rw [if_pos hc]; exact hc
      · rw [if_neg hc]; exact entryLe_refl _
    have hm2 : entryLe (if entryLe z x then z else x) z = true := by
      by_cases hc : entryLe z x = true
      · rw [if_pos hc]; exact entryLe_refl _
      · rw [if_neg hc]
        rcases entryLe_total x z with h1 | h1
        · exact h1
        · exact absurd h1 hc
    have hhead : entryLe (heapMin (if entryLe z x then z else x) t)
        (if entryLe z x then z else x) = true :=
      ih _ _ (List.mem_cons_self _ _)
    rcases List.mem_cons.1 hy with heq | hmem
    · rw [heq]; exact entryLe_trans hhead hm1
    · rcases List.mem_cons.1 hmem with heq | hmem2
      · rw [heq]; exact entryLe_trans hhead hm2
      · exact ih _ _ (List.mem_cons_of_mem _ hmem2)

theorem heapPop_spec {h : HeapT} {e : Nat × Coord} {h2 : HeapT}
    (hpop : heapPop h = some (e, h2)) :
    e ∈ h ∧ (∀ y ∈ h, entryLe e y = true) ∧ h2 = h.erase e := by
  cases h with
  | nil => cases hpop
  | cons x rest =>
    simp only [heapPop, Option.some.injEq, Prod.mk.injEq] at hpop
    obtain ⟨he, hh2⟩ := hpop
    subst he
    exact ⟨heapMin_mem x rest, heapMin_le x rest, hh2.symm⟩

theorem heapPop_none {h : HeapT} (hpop : heapPop h = none) : h = [] := by
  cases h with
  | nil => rfl
  | cons x rest => cases hpop

theorem not_mem_neighbors4_self (grid : Grid) (n : Coord) : n ∉ neighbors4 grid n := by
  intro h
  obtain ⟨hd, -, -⟩ := mem_neighbors4.1 h
  simp only [dirs4, List.mem_cons, List.mem_singleton, Prod.mk.injEq,
    List.not_mem_nil, or_false] at hd
  omega

theorem neighbors4_nodup (grid : Grid) (n : Coord) : (neighbors4 grid n).Nodup := by
  apply List.Nodup.filter
  refine List.Nodup.map ?_ (by decide)
  intro a b hab
  obtain ⟨c, d⟩ := a
  obtain ⟨e, f⟩ := b
  simp only [Prod.mk.injEq] at hab ⊢
  omega

/-- Potential of one cell: its g-score if assigned, else a value strictly
above any assignable g-score. -/
def potG (grid : Grid) (g : GScore) (n : Coord) : Nat :=
  match dFind g n with
  | some v => v
  | none => cellCount grid + 2

/-- Total potential of the g-score table. -/
def potSum (grid : Grid) (start : Coord) (g : GScore) : Nat :=
  Finset.sum (insert start (cellBox grid)) (potG grid g)

theorem potG_eq_some {grid : Grid} {g : GScore} {n : Coord} {v : Nat}
    (h : dFind g n = some v) : potG grid g n = v := by
  unfold potG
  rw [h]

theorem potG_eq_none {grid : Grid} {g : GScore} {n : Coord}
    (h : dFind g n = none) : potG grid g n = cellCount grid + 2 := by
  unfold potG
  rw [h]

theorem potSum_dSet_lt {grid : Grid} {start : Coord} {g : GScore} {n : Coord} {v : Nat}
    (hmem : n = start ∨ in_bounds grid n = true)
    (hold : dFind g n = none ∨ ∃ vn, dFind g n = some vn ∧ v < vn)
    (hvb : v ≤ cellCount grid + 1) :
    potSum grid start (dSet g n v) + 1 ≤ potSum grid start g := by
  have hmem2 : n ∈ insert start (cellBox grid) := by
    rcases hmem with rfl | hb
    · exact Finset.mem_insert_self _ _
    · exact Finset.mem_insert_of_mem (mem_cellBox.2 hb)
  have hnewpot : potG grid (dSet g n v) n = v := potG_eq_some (dFind_dSet_self g n v)
  have holdpot : v < potG grid g n := by
    rcases hold with h1 | ⟨vn, h1, h2⟩
    · rw [potG_eq_none h1]; omega
    · rw [potG_eq_some h1]; exact h2
  have hlt : Finset.sum (insert start (cellBox grid)) (potG grid (dSet g n v)) <
      Finset.sum (insert start (cellBox grid)) (potG grid g) := by
    apply Finset.sum_lt_sum
    · intro x hx
      by_cases hxn : x = n
      · rw [hxn, hnewpot]
        omega
      · unfold potG
        rw [dFind_dSet_ne _ _ _ _ hxn]
    · exact ⟨n, hmem2, by rw [hnewpot]; exact holdpot⟩
  unfold potSum
  omega

theorem potSum_le (grid : Grid) (start : Coord) (g : GScore)
    (hb : ∀ n v, dFind g n = some v → v ≤ cellCount grid + 2) :
    potSum grid start g ≤ (cellCount grid + 1) * (cellCount grid + 2) := by
  have hcard : (insert start (cellBox grid)).card ≤ cellCount grid + 1 := by
    calc (insert start (cellBox grid)).card ≤ (cellBox grid).card + 1 :=
      Finset.card_insert_le _ _
    _ = cellCount grid + 1 := by rw [card_cellBox]
  calc potSum grid start g
      ≤ (insert start (cellBox grid)).card * (cellCount grid + 2) := by
        apply Finset.sum_le_card_nsmul
        intro x _
        unfold potG
        cases hx : dFind g x
        · exact le_refl _
        · rename_i v
          exact hb x v hx
  _ ≤ (cellCount grid + 1) * (cellCount grid + 2) :=
      Nat.mul_le_mul_right _ hcard

/-- Bookkeeping facts about the g-score table: unique keys, values below the
key count (so the `1_000_000_000` default can never be reached on small
grids), keys inside the grid (or the start). -/
structure GBase (grid : Grid) (start : Coord) (g : GScore) : Prop where
  nodup : (g.map Prod.fst).Nodup
  bound : ∀ n v, dFind g n = some v → v + 1 ≤ g.length
  box : ∀ n, (dFind g n).isSome → n = start ∨ in_bounds grid n = true

theorem dFind_isSome_of_mem_keys {α β : Type} [DecidableEq α] {d : List (α × β)} {k : α}
    (h : k ∈ d.map Prod.fst) : (dFind d k).isSome := by
  cases hc : dFind d k
  · exact absurd h (dFind_eq_none_iff.1 hc)
  · rfl

theorem GBase.length_le {grid : Grid} {start : Coord} {g : GScore}
    (hb : GBase grid start g) : g.length ≤ cellCount grid + 1 := by
  have hlen : g.length = (g.map Prod.fst).length := (List.length_map _ _).symm
  rw [hlen]
  exact keys_length_le hb.nodup
    (fun x hx => hb.box x (dFind_isSome_of_mem_keys hx))

theorem GBase.dSet {grid : Grid} {start : Coord} {g : GScore} {n : Coord} {v : Nat}
    (hb : GBase grid start g) (hbox : n = start ∨ in_bounds grid n = true)
    (hv : v + 1 ≤ g.length + 1)
    (hov : ∀ vn, dFind g n = some vn → v < vn) :
    GBase grid start (dSet g n v) := by
  refine ⟨dSet_keys_nodup n v hb.nodup, ?_, ?_⟩
  · intro m w hw
    by_cases hmn : m = n
    · rw [hmn, dFind_dSet_self] at hw
      have hwv : w = v := (Option.some.inj hw).symm
      subst hwv
      cases hg : dFind g n with
      | none => rw [length_dSet_none _ hg]; omega
      | some vn =>
        have := hov vn hg
        have := hb.bound n vn hg
        rw [length_dSet_isSome _ (by rw [hg]; rfl)]
        omega
    · rw [dFind_dSet_ne _ _ _ _ hmn] at hw
      have h1 := hb.bound m w hw
      cases hg : dFind g n with
      | none => rw [length_dSet_none _ hg]; omega
      | some vn => rw [length_dSet_isSome _ (by rw [hg]; rfl)]; omega
  · intro m hm
    by_cases hmn : m = n
    · exact hmn ▸ hbox
    · rw [dFind_dSet_ne _ _ _ _ hmn] at hm
      exact hb.box m hm

/-- Characterization of one full A* neighbour scan: untouched cells keep
their entries; each neighbour is either left alone (its g-score was already
at most `tentative`) or relaxed to `tentative = g[cur] + 1` with its parent
set to `cur` and a fresh heap entry pushed; the heap only grows by the
pushed entries. -/
theorem astarFold_spec {goal cur : Coord} {v0 : Nat}
    (hsent : v0 + 1 < 1000000000) :
    ∀ ns : List Coord, ∀ heap : HeapT, ∀ cf : CameFrom, ∀ g : GScore,
      ns.Nodup → cur ∉ ns → dFind g cur = some v0 →
      (∀ n, n ∉ ns →
        dFind (ns.foldl (astarRelax goal cur) (heap, cf, g)).2.2 n = dFind g n ∧
        dFind (ns.foldl (astarRelax goal cur) (heap, cf, g)).2.1 n = dFind cf n) ∧
      (∀ n ∈ ns,
        (dFind (ns.foldl (astarRelax goal cur) (heap, cf, g)).2.2 n = dFind g n ∧
          dFind (ns.foldl (astarRelax goal cur) (heap, cf, g)).2.1 n = dFind cf n ∧
          ∃ vn, dFind g n = some vn ∧ vn ≤ v0 + 1) ∨
        (dFind (ns.foldl (astarRelax goal cur) (heap, cf, g)).2.2 n = some (v0 + 1) ∧
          dFind (ns.foldl (astarRelax goal cur) (heap, cf, g)).2.1 n = some (some cur) ∧
          (v0 + 1 + manhattan n goal, n) ∈ (ns.foldl (astarRelax goal cur) (heap, cf, g)).1 ∧
          (dFind g n = none ∨ ∃ vn, dFind g n = some vn ∧ v0 + 1 < vn))) ∧
      (∃ pushes : HeapT, (ns.foldl (astarRelax goal cur) (heap, cf, g)).1 = pushes ++ heap ∧
        ∀ e ∈ pushes, e.2 ∈ ns ∧ e.1 = v0 + 1 + manhattan e.2 goal ∧
          dFind (ns.foldl (astarRelax goal cur) (heap, cf, g)).2.2 e.2 = some (v0 + 1)) := by
  intro ns
  induction ns with
  | nil =>
    intro heap cf g hnd hcns hg0
    refine ⟨fun n _ => ⟨rfl, rfl⟩, fun n hn => absurd hn (List.not_mem_nil n), [], rfl, ?_⟩
    intro e he
    cases he
  | cons h rest ih =>
    intro heap cf g hnd hcns hg0
    have hch : cur ≠ h := fun he => hcns (he ▸ List.mem_cons_self _ _)
    have hhr : h ∉ rest := (List.nodup_cons.1 hnd).1
    have hndr : rest.Nodup := (List.nodup_cons.1 hnd).2
    have hcnr : cur ∉ rest := fun hc => hcns (List.mem_cons_of_mem _ hc)
    rw [List.foldl_cons]
    have htent : (dFind g cur).getD 0 + 1 = v0 + 1 := by rw [hg0]; rfl
    by_cases hrel : (dFind g cur).getD 0 + 1 < (dFind g h).getD 1000000000
    · -- the neighbour is relaxed
      have hstep : astarRelax goal cur (heap, cf, g) h =
          ((v0 + 1 + manhattan h goal, h) :: heap,
            dSet cf h (some cur), dSet g h (v0 + 1)) := by
        unfold astarRelax
        rw [if_pos hrel, htent]
      rw [hstep]
      have hg1 : dFind (dSet g h (v0 + 1)) cur = some v0 := by
        rw [dFind_dSet_ne _ _ _ _ hch]
        exact hg0
      obtain ⟨ihU, ihD, pushes, ihH1, ihH2⟩ :=
        ih ((v0 + 1 + manhattan h goal, h) :: heap) (dSet cf h (some cur))
          (dSet g h (v0 + 1)) hndr hcnr hg1
      have hold : dFind g h = none ∨ ∃ vn, dFind g h = some vn ∧ v0 + 1 < vn := by
        cases hgh : dFind g h with
        | none => exact Or.inl rfl
        | some vn =>
          refine Or.inr ⟨vn, rfl, ?_⟩
          rw [hgh] at hrel
          rw [hg0] at hrel
          simpa using hrel
      refine ⟨?_, ?_, pushes ++ [(v0 + 1 + manhattan h goal, h)], ?_, ?_⟩
      · intro n hn
        have hnh : n ≠ h := fun he => hn (he ▸ List.mem_cons_self _ _)
        have hnr : n ∉ rest := fun hc => hn (List.mem_cons_of_mem _ hc)
        obtain ⟨e1, e2⟩ := ihU n hnr
        rw [e1, e2, dFind_dSet_ne _ _ _ _ hnh, dFind_dSet_ne _ _ _ _ hnh]
        exact ⟨rfl, rfl⟩
      · intro n hn
        rcases List.mem_cons.1 hn with heq | hmem
        · obtain ⟨e1, e2⟩ := ihU n (heq ▸ hhr)
          refine Or.inr ⟨?_, ?_, ?_, heq ▸ hold⟩
          · rw [e1, heq, dFind_dSet_self]
          · rw [e2, heq, dFind_dSet_self]
          · rw [ihH1, heq]
            exact List.mem_append_right _ (List.mem_cons_self _ _)
        · have hnh : n ≠ h := fun he => hhr (he ▸ hmem)
          rcases ihD n hmem with ⟨e1, e2, vn, e3, e4⟩ | ⟨e1, e2, e3, e4⟩
          · rw [dFind_dSet_ne _ _ _ _ hnh] at e1
            rw [dFind_dSet_ne _ _ _ _ hnh] at e2
            exact Or.inl ⟨e1, e2, vn, by rwa [dFind_dSet_ne _ _ _ _ hnh] at e3, e4⟩
          · rw [dFind_dSet_ne _ _ _ _ hnh] at e4
            exact Or.inr ⟨e1, e2, e3, e4⟩
      · rw [ihH1]
        simp
      · intro e he
        rcases List.mem_append.1 he with hmem | hmem
        · obtain ⟨a1, a2, a3⟩ := ihH2 e hmem
          exact ⟨List.mem_cons_of_mem _ a1, a2, a3⟩
        · rcases List.mem_singleton.1 hmem with rfl
          refine ⟨List.mem_cons_self _ _, rfl, ?_⟩
          obtain ⟨e1, -⟩ := ihU h hhr
          rw [e1, dFind_dSet_self]
    · -- the neighbour keeps its (better or equal) entry
      have hstep : astarRelax goal cur (heap, cf, g) h = (heap, cf, g) := by
        unfold astarRelax
        rw [if_neg hrel]
      rw [hstep]
      obtain ⟨ihU, ihD, pushes, ihH1, ihH2⟩ := ih heap cf g hndr hcnr hg0
      have hkept : ∃ vn, dFind g h = some vn ∧ vn ≤ v0 + 1 := by
        cases hgh : dFind g h with
        | none =>
          exfalso
          rw [hgh] at hrel
          rw [hg0] at hrel
          simp only [Option.getD_some, Option.getD_none] at hrel
          omega
        | some vn =>
          refine ⟨vn, rfl, ?_⟩
          rw [hgh, hg0] at hrel
          simp only [Option.getD_some] at hrel
          omega
      refine ⟨?_, ?_, pushes, ihH1, ?_⟩
      · intro n hn
        exact ihU n (fun hc => hn (List.mem_cons_of_mem _ hc))
      · intro n hn
        rcases List.mem_cons.1 hn with heq | hmem
        · obtain ⟨e1, e2⟩ := ihU n (heq ▸ hhr)
          exact Or.inl ⟨e1, e2, heq ▸ hkept⟩
        · exact ihD n hmem
      · intro e he
        obtain ⟨a1, a2, a3⟩ := ihH2 e he
        exact ⟨List.mem_cons_of_mem _ a1, a2, a3⟩

theorem astarFold_measure {grid : Grid} {start goal cur : Coord} {v0 : Nat}
    (hvb : v0 + 2 ≤ cellCount grid + 2) :
    ∀ ns : List Coord, ∀ heap : HeapT, ∀ cf : CameFrom, ∀ g : GScore,
      cur ∉ ns → dFind g cur = some v0 → (∀ n ∈ ns, in_bounds grid n = true) →
      (ns.foldl (astarRelax goal cur) (heap, cf, g)).1.length +
          potSum grid start (ns.foldl (astarRelax goal cur) (heap, cf, g)).2.2 ≤
        heap.length + potSum grid start g := by
  intro ns
  induction ns with
  | nil => intro heap cf g _ _ _; exact le_refl _
  | cons h rest ih =>
    intro heap cf g hcns hg0 hb
    have hch : cur ≠ h := fun he => hcns (he ▸ List.mem_cons_self _ _)
    have hcnr : cur ∉ rest := fun hc => hcns (List.mem_cons_of_mem _ hc)
    rw [List.foldl_cons]
    by_cases hrel : (dFind g cur).getD 0 + 1 < (dFind g h).getD 1000000000
    · have hstep : astarRelax goal cur (heap, cf, g) h =
          ((v0 + 1 + manhattan h goal, h) :: heap,
            dSet cf h (some cur), dSet g h (v0 + 1)) := by
        unfold astarRelax
        rw [if_pos hrel]
        rw [hg0]
        rfl
      rw [hstep]
      have hg1 : dFind (dSet g h (v0 + 1)) cur = some v0 := by
        rw [dFind_dSet_ne _ _ _ _ hch]; exact hg0
      have hm := ih ((v0 + 1 + manhattan h goal, h) :: heap) (dSet cf h (some cur))
        (dSet g h (v0 + 1)) hcnr hg1 (fun n hn => hb n (List.mem_cons_of_mem _ hn))
      have hpot : potSum grid start (dSet g h (v0 + 1)) + 1 ≤ potSum grid start g := by
        apply potSum_dSet_lt (Or.inr (hb h (List.mem_cons_self _ _))) ?_ (by omega)
        cases hgh : dFind g h with
        | none => exact Or.inl rfl
        | some vn =>
          refine Or.inr ⟨vn, rfl, ?_⟩
          rw [hgh, hg0] at hrel
          simpa using hrel
      simp only [List.length_cons] at hm
      omega
    · have hstep : astarRelax goal cur (heap, cf, g) h = (heap, cf, g) := by
        unfold astarRelax
        rw [if_neg hrel]
      rw [hstep]
      exact ih heap cf g hcnr hg0 (fun n hn => hb n (List.mem_cons_of_mem _ hn))

theorem astarFold_gbase {grid : Grid} {start goal cur : Coord} {v0 : Nat} :
    ∀ ns : List Coord, ∀ heap : HeapT, ∀ cf : CameFrom, ∀ g : GScore,
      cur ∉ ns → dFind g cur = some v0 → (∀ n ∈ ns, in_bounds grid n = true) →
      GBase grid start g →
      GBase grid start (ns.foldl (astarRelax goal cur) (heap, cf, g)).2.2 := by
  intro ns
  induction ns with
  | nil => intro heap cf g _ _ _ hgb; exact hgb
  | cons h rest ih =>
    intro heap cf g hcns hg0 hb hgb
    have hch : cur ≠ h := fun he => hcns (he ▸ List.mem_cons_self _ _)
    have hcnr : cur ∉ rest := fun hc => hcns (List.mem_cons_of_mem _ hc)
    rw [List.foldl_cons]
    by_cases hrel : (dFind g cur).getD 0 + 1 < (dFind g h).getD 1000000000
    · have hstep : astarRelax goal cur (heap, cf, g) h =
          ((v0 + 1 + manhattan h goal, h) :: heap,
            dSet cf h (some cur), dSet g h (v0 + 1)) := by
        unfold astarRelax
        rw [if_pos hrel]
        rw [hg0]
        rfl
      rw [hstep]
      have hg1 : dFind (dSet g h (v0 + 1)) cur = some v0 := by
        rw [dFind_dSet_ne _ _ _ _ hch]; exact hg0
      refine ih _ _ _ hcnr hg1 (fun n hn => hb n (List.mem_cons_of_mem _ hn)) ?_
      apply hgb.dSet (Or.inr (hb h (List.mem_cons_self _ _)))
      · have := hgb.bound cur v0 hg0
        omega
      · intro vn hvn
        rw [hvn, hg0] at hrel
        simpa using hrel
    · have hstep : astarRelax goal cur (heap, cf, g) h = (heap, cf, g) := by
        unfold astarRelax
        rw [if_neg hrel]
      rw [hstep]
      exact ih heap cf g hcnr hg0 (fun n hn => hb n (List.mem_cons_of_mem _ hn)) hgb

/-- Invariant of the A* `while open_heap` loop.  `C` is a ghost set of
"settled" nodes: popped while their g-score was the true distance.  The
essential clauses: g-scores are lengths of real walks (`sound`), settled
nodes have optimally-relaxed neighbourhoods (`closed`), and any optimally
assigned unsettled node still has an admissible heap entry (`open_opt`). -/
structure AstarInv (grid : Grid) (start goal : Coord) (heap : HeapT) (cf : CameFrom)
    (g : GScore) (C : Set Coord) : Prop where
  gstart : dFind g start = some 0
  cf_start : dFind cf start = some none
  none_start : ∀ n, dFind cf n = some none → n = start
  keys_iff : ∀ n, (dFind g n).isSome ↔ (dFind cf n).isSome
  sound : ∀ n v, dFind g n = some v → ReachN grid start v n
  parent : ∀ n p, dFind cf n = some (some p) → n ∈ neighbors4 grid p ∧
    ∃ vp vn, dFind g p = some vp ∧ dFind g n = some vn ∧ vp + 1 ≤ vn
  gbase : GBase grid start g
  heap_keys : ∀ e ∈ heap, (dFind g e.2).isSome
  heap_admiss : ∀ e ∈ heap, e.2 = start ∨
    ∃ v, dFind g e.2 = some v ∧ v + manhattan e.2 goal ≤ e.1
  closed : ∀ v ∈ C, ∃ dv, IsDist grid start v dv ∧ dFind g v = some dv ∧
    ∀ w ∈ neighbors4 grid v, ∃ vw, dFind g w = some vw ∧ vw ≤ dv + 1
  open_opt : ∀ w b, IsDist grid start w b → dFind g w = some b → w ∉ C →
    ∃ fw, (fw, w) ∈ heap ∧ fw ≤ b + manhattan w goal

theorem astar_frontier {grid : Grid} {start goal : Coord} {heap : HeapT} {cf : CameFrom}
    {g : GScore} {C : Set Coord} (hinv : AstarInv grid start goal heap cf g C) :
    ∀ a z, IsDist grid start z a → z ∉ C →
      ∃ w b fw c3, IsDist grid start w b ∧ dFind g w = some b ∧ (fw, w) ∈ heap ∧
        fw ≤ b + manhattan w goal ∧ ReachN grid w c3 z ∧ b + c3 = a := by
  have walk : ∀ c2, ∀ v dv z a, v ∈ C → IsDist grid start v dv → ReachN grid v c2 z →
      dv + c2 = a → IsDist grid start z a → z ∉ C →
      ∃ w b fw c3, IsDist grid start w b ∧ dFind g w = some b ∧ (fw, w) ∈ heap ∧
        fw ≤ b + manhattan w goal ∧ ReachN grid w c3 z ∧ b + c3 = a := by
    intro c2
    induction c2 with
    | zero =>
      intro v dv z a hvC hvd hr he hza hzC
      have hzv : z = v := reachN_zero hr
      rw [hzv] at hzC
      exact absurd hvC hzC
    | succ c ihc =>
      intro v dv z a hvC hvd hr he hza hzC
      obtain ⟨w, hw, hrw⟩ := reachN_front hr
      have hreachw : ReachN grid start (dv + 1) w := ReachN.step hvd.1 hw
      obtain ⟨bw, hbw⟩ := isDist_exists ⟨_, hreachw⟩
      have hb1 : bw ≤ dv + 1 := hbw.2 _ hreachw
      have hb2 : dv + 1 ≤ bw := by
        have hz2 : ReachN grid start (bw + c) z := reachN_trans hbw.1 hrw
        have := hza.2 _ hz2
        omega
      have hbe : bw = dv + 1 := le_antisymm hb1 hb2
      obtain ⟨dv2, hdv2, hgv, hnb⟩ := hinv.closed v hvC
      have hdve : dv2 = dv := isDist_unique hdv2 hvd
      obtain ⟨vw, hgw, hvwle⟩ := hnb w hw
      have hge : vw = bw := by
        have hs := hinv.sound w vw hgw
        have := hbw.2 _ hs
        omega
      by_cases hwC : w ∈ C
      · exact ihc w bw z a hwC hbw hrw (by omega) hza hzC
      · obtain ⟨fw, hfw, hfwle⟩ := hinv.open_opt w bw hbw (hge ▸ hgw) hwC
        exact ⟨w, bw, fw, c, hbw, hge ▸ hgw, hfw, hfwle, hrw, by omega⟩
  intro a z hza hzC
  by_cases hsC : start ∈ C
  · exact walk a start 0 z a hsC (isDist_self grid start) hza.1 (by omega) hza hzC
  · obtain ⟨fw, hfw, hfwle⟩ :=
      hinv.open_opt start 0 (isDist_self grid start) hinv.gstart hsC
    exact ⟨start, 0, fw, a, isDist_self grid start, hinv.gstart, hfw, hfwle, hza.1,
      by omega⟩

theorem astarInv_step {grid : Grid} {start goal : Coord}
    (HS : cellCount grid + 2 ≤ 1000000000)
    {heap heap1 : HeapT} {cf : CameFrom} {g : GScore} {C : Set Coord}
    {f : Nat} {cur : Coord}
    (hinv : AstarInv grid start goal heap cf g C)
    (hpop : heapPop heap = some ((f, cur), heap1)) :
    ∃ C2 : Set Coord,
      AstarInv grid start goal (astarScan grid goal cur (heap1, cf, g)).1
        (astarScan grid goal cur (heap1, cf, g)).2.1
        (astarScan grid goal cur (heap1, cf, g)).2.2 C2 := by
  classical
  obtain ⟨hmem, hminle, herase⟩ := heapPop_spec hpop
  have hgcur : (dFind g cur).isSome := hinv.heap_keys _ hmem
  obtain ⟨v0, hv0⟩ := Option.isSome_iff_exists.1 hgcur
  have hlen := hinv.gbase.length_le
  have hv0b : v0 + 1 ≤ cellCount grid + 1 := by
    have := hinv.gbase.bound cur v0 hv0
    omega
  have hsent : v0 + 1 < 1000000000 := by omega
  have hnd : (neighbors4 grid cur).Nodup := neighbors4_nodup grid cur
  have hcns : cur ∉ neighbors4 grid cur := not_mem_neighbors4_self grid cur
  have hbnds : ∀ n ∈ neighbors4 grid cur, in_bounds grid n = true :=
    fun n hn => (mem_neighbors4.1 hn).2.1
  obtain ⟨U, D, pushes, HH1, HH2⟩ :=
    @astarFold_spec goal _ _ hsent (neighbors4 grid cur) heap1 cf g hnd hcns hv0
  have hscan : astarScan grid goal cur (heap1, cf, g) =
      (neighbors4 grid cur).foldl (astarRelax goal cur) (heap1, cf, g) := rfl
  rw [hscan] at *
  set R := (neighbors4 grid cur).foldl (astarRelax goal cur) (heap1, cf, g) with hR
  have hg2cur : dFind R.2.2 cur = some v0 := by
    rw [(U cur hcns).1]
    exact hv0
  have hKmono : ∀ n, (dFind g n).isSome → (dFind R.2.2 n).isSome := by
    intro n hn
    by_cases hns : n ∈ neighbors4 grid cur
    · rcases D n hns with ⟨e1, -, -⟩ | ⟨e1, -, -, -⟩
      · rw [e1]; exact hn
      · rw [e1]; rfl
    · rw [(U n hns).1]; exact hn
  have hVal : ∀ n v2, dFind R.2.2 n = some v2 → ∀ vn, dFind g n = some vn → v2 ≤ vn := by
    intro n v2 h2 vn hn
    by_cases hns : n ∈ neighbors4 grid cur
    · rcases D n hns with ⟨e1, -, -⟩ | ⟨e1, -, -, e4⟩
      · rw [e1, hn] at h2
        have := Option.some.inj h2
        omega
      · rw [e1] at h2
        have hv2 : v2 = v0 + 1 := (Option.some.inj h2).symm
        rcases e4 with e4 | ⟨vn2, e4, e5⟩
        · rw [e4] at hn; cases hn
        · rw [e4] at hn
          have : vn2 = vn := Option.some.inj hn
          omega
    · rw [(U n hns).1, hn] at h2
      have := Option.some.inj h2
      omega
  have hKey2 : ∀ n v2, dFind R.2.2 n = some v2 →
      dFind g n = some v2 ∨ (v2 = v0 + 1 ∧ n ∈ neighbors4 grid cur) := by
    intro n v2 h2
    by_cases hns : n ∈ neighbors4 grid cur
    · rcases D n hns with ⟨e1, -, -⟩ | ⟨e1, -, -, -⟩
      · rw [e1] at h2; exact Or.inl h2
      · rw [e1] at h2; exact Or.inr ⟨(Option.some.inj h2).symm, hns⟩
    · rw [(U n hns).1] at h2; exact Or.inl h2
  by_cases hopt : IsDist grid start cur v0
  ·
    refine ⟨insert cur C, ?_, ?_, ?_, ?_, ?_, ?_, ?_, ?_, ?_, ?_, ?_⟩
    ·
      by_cases hns : start ∈ neighbors4 grid cur
      · rcases D start hns with ⟨e1, -, -⟩ | ⟨-, -, -, e4⟩
        · rw [e1]; exact hinv.gstart
        · rcases e4 with e4 | ⟨vn, e4, e5⟩
          · rw [hinv.gstart] at e4; cases e4
          · rw [hinv.gstart] at e4
            have : vn = 0 := (Option.some.inj e4).symm
            omega
      · rw [(U start hns).1]; exact hinv.gstart
    ·
      by_cases hns : start ∈ neighbors4 grid cur
      · rcases D start hns with ⟨-, e2, -⟩ | ⟨-, -, -, e4⟩
        · rw [e2]; exact hinv.cf_start
        · rcases e4 with e4 | ⟨vn, e4, e5⟩
          · rw [hinv.gstart] at e4; cases e4
          · rw [hinv.gstart] at e4
            have : vn = 0 := (Option.some.inj e4).symm
            omega
      · rw [(U start hns).2]; exact hinv.cf_start
    ·
      intro n hn
      by_cases hns : n ∈ neighbors4 grid cur
      · rcases D n hns with ⟨-, e2, -⟩ | ⟨-, e2, -, -⟩
        · rw [e2] at hn; exact hinv.none_start n hn
        · rw [e2] at hn; cases hn
      · rw [(U n hns).2] at hn; exact hinv.none_start n hn
    ·
      intro n
      by_cases hns : n ∈ neighbors4 grid cur
      · rcases D n hns with ⟨e1, e2, -⟩ | ⟨e1, e2, -, -⟩
        · rw [e1, e2]; exact hinv.keys_iff n
        · rw [e1, e2]; simp
      · rw [(U n hns).1, (U n hns).2]; exact hinv.keys_iff n
    ·
      intro n v2 h2
      rcases hKey2 n v2 h2 with h3 | ⟨h3, h4⟩
      · exact hinv.sound n v2 h3
      · rw [h3]
        exact ReachN.step (hinv.sound cur v0 hv0) h4
    ·
      intro n p hn
      by_cases hns : n ∈ neighbors4 grid cur
      · rcases D n hns with ⟨e1, e2, -⟩ | ⟨e1, e2, -, -⟩
        · rw [e2] at hn
          obtain ⟨hnb, vp, vn, hgp, hgn, hle⟩ := hinv.parent n p hn
          obtain ⟨vp2, hvp2⟩ := Option.isSome_iff_exists.1 (hKmono p (by rw [hgp]; rfl))
          have hvple := hVal p vp2 hvp2 vp hgp
          rw [e1]
          exact ⟨hnb, vp2, vn, hvp2, hgn, by omega⟩
        · rw [e2] at hn
          have hpc : p = cur := (Option.some.inj (Option.some.inj hn)).symm
          subst hpc
          rw [e1]
          exact ⟨hns, v0, v0 + 1, hg2cur, rfl, le_refl _⟩
      · rw [(U n hns).2] at hn
        obtain ⟨hnb, vp, vn, hgp, hgn, hle⟩ := hinv.parent n p hn
        obtain ⟨vp2, hvp2⟩ := Option.isSome_iff_exists.1 (hKmono p (by rw [hgp]; rfl))
        have hvple := hVal p vp2 hvp2 vp hgp
        rw [(U n hns).1]
        exact ⟨hnb, vp2, vn, hvp2, hgn, by omega⟩
    ·
      exact astarFold_gbase (neighbors4 grid cur) heap1 cf g hcns hv0 hbnds hinv.gbase
    ·
      intro e he
      rw [HH1] at he
      rcases List.mem_append.1 he with hmem2 | hmem2
      · rw [(HH2 e hmem2).2.2]; rfl
      · refine hKmono e.2 (hinv.heap_keys e ?_)
        rw [herase] at hmem2
        exact (List.erase_sublist _ _).mem hmem2
    ·
      intro e he
      rw [HH1] at he
      rcases List.mem_append.1 he with hmem2 | hmem2
      · obtain ⟨-, a2, a3⟩ := HH2 e hmem2
        exact Or.inr ⟨v0 + 1, a3, by rw [a2]⟩
      · have heold : e ∈ heap := by
          rw [herase] at hmem2
          exact (List.erase_sublist _ _).mem hmem2
        rcases hinv.heap_admiss e heold with h1 | ⟨v, hgv, hle⟩
        · exact Or.inl h1
        · obtain ⟨v2, hv2⟩ := Option.isSome_iff_exists.1 (hKmono e.2 (by rw [hgv]; rfl))
          have := hVal e.2 v2 hv2 v hgv
          exact Or.inr ⟨v2, hv2, by omega⟩
    ·
      intro v hv
      rcases Set.mem_insert_iff.1 hv with rfl | hvC
      · refine ⟨v0, hopt, hg2cur, ?_⟩
        intro w hw
        rcases D w hw with ⟨e1, -, vn, e3, e4⟩ | ⟨e1, -, -, -⟩
        · exact ⟨vn, by rw [e1]; exact e3, e4⟩
        · exact ⟨v0 + 1, e1, le_refl _⟩
      · obtain ⟨dv, hdv, hgv, hnb⟩ := hinv.closed v hvC
        obtain ⟨dv2, hdv2⟩ := Option.isSome_iff_exists.1 (hKmono v (by rw [hgv]; rfl))
        have hdvle := hVal v dv2 hdv2 dv hgv
        have hsound2 : ReachN grid start dv2 v := by
          rcases hKey2 v dv2 hdv2 with h3 | ⟨h3, h4⟩
          · exact hinv.sound v dv2 h3
          · rw [h3]
            exact ReachN.step (hinv.sound cur v0 hv0) h4
        have hdvge : dv ≤ dv2 := hdv.2 _ hsound2
        refine ⟨dv, hdv, ?_, ?_⟩
        · rw [hdv2]
          congr 1
          omega
        · intro w hw
          obtain ⟨vw, hgw, hvwle⟩ := hnb w hw
          obtain ⟨vw2, hvw2⟩ := Option.isSome_iff_exists.1 (hKmono w (by rw [hgw]; rfl))
          have := hVal w vw2 hvw2 vw hgw
          exact ⟨vw2, hvw2, by omega⟩
    ·
      intro w b hwb hg2w hwC2
      have hwC : w ∉ C := fun hc => hwC2 (Set.mem_insert_of_mem _ hc)
      have hwcur : w ≠ cur := fun hc => hwC2 (hc ▸ Set.mem_insert _ _)
      by_cases hns : w ∈ neighbors4 grid cur
      · rcases D w hns with ⟨e1, -, -⟩ | ⟨e1, -, e3, -⟩
        · rw [e1] at hg2w
          obtain ⟨fw, hfw, hfwle⟩ := hinv.open_opt w b hwb hg2w hwC
          refine ⟨fw, ?_, hfwle⟩
          rw [HH1]
          refine List.mem_append_right _ ?_
          rw [herase]
          rw [List.mem_erase_of_ne (by
            intro hc
            exact hwcur (congrArg Prod.snd hc))]
          exact hfw
        · rw [e1] at hg2w
          have hb : b = v0 + 1 := (Option.some.inj hg2w).symm
          exact ⟨v0 + 1 + manhattan w goal, e3, by omega⟩
      · rw [(U w hns).1] at hg2w
        obtain ⟨fw, hfw, hfwle⟩ := hinv.open_opt w b hwb hg2w hwC
        refine ⟨fw, ?_, hfwle⟩
        rw [HH1]
        refine List.mem_append_right _ ?_
        rw [herase]
        rw [List.mem_erase_of_ne (by
          intro hc
          exact hwcur (congrArg Prod.snd hc))]
        exact hfw
  ·
    refine ⟨C, ?_, ?_, ?_, ?_, ?_, ?_, ?_, ?_, ?_, ?_, ?_⟩
    ·
      by_cases hns : start ∈ neighbors4 grid cur
      · rcases D start hns with ⟨e1, -, -⟩ | ⟨-, -, -, e4⟩
        · rw [e1]; exact hinv.gstart
        · rcases e4 with e4 | ⟨vn, e4, e5⟩
          · rw [hinv.gstart] at e4; cases e4
          · rw [hinv.gstart] at e4
            have : vn = 0 := (Option.some.inj e4).symm
            omega
      · rw [(U start hns).1]; exact hinv.gstart
    ·
      by_cases hns : start ∈ neighbors4 grid cur
      · rcases D start hns with ⟨-, e2, -⟩ | ⟨-, -, -, e4⟩
        · rw [e2]; exact hinv.cf_start
        · rcases e4 with e4 | ⟨vn, e4, e5⟩
          · rw [hinv.gstart] at e4; cases e4
          · rw [hinv.gstart] at e4
            have : vn = 0 := (Option.some.inj e4).symm
            omega
      · rw [(U start hns).2]; exact hinv.cf_start
    ·
      intro n hn
      by_cases hns : n ∈ neighbors4 grid cur
      · rcases D n hns with ⟨-, e2, -⟩ | ⟨-, e2, -, -⟩
        · rw [e2] at hn; exact hinv.none_start n hn
        · rw [e2] at hn; cases hn
      · rw [(U n hns).2] at hn; exact hinv.none_start n hn
    ·
      intro n
      by_cases hns : n ∈ neighbors4 grid cur
      · rcases D n hns with ⟨e1, e2, -⟩ | ⟨e1, e2, -, -⟩
        · rw [e1, e2]; exact hinv.keys_iff n
        · rw [e1, e2]; simp
      · rw [(U n hns).1, (U n hns).2]; exact hinv.keys_iff n
    ·
      intro n v2 h2
      rcases hKey2 n v2 h2 with h3 | ⟨h3, h4⟩
      · exact hinv.sound n v2 h3
      · rw [h3]
        exact ReachN.step (hinv.sound cur v0 hv0) h4
    ·
      intro n p hn
      by_cases hns : n ∈ neighbors4 grid cur
      · rcases D n hns with ⟨e1, e2, -⟩ | ⟨e1, e2, -, -⟩
        · rw [e2] at hn
          obtain ⟨hnb, vp, vn, hgp, hgn, hle⟩ := hinv.parent n p hn
          obtain ⟨vp2, hvp2⟩ := Option.isSome_iff_exists.1 (hKmono p (by rw [hgp]; rfl))
          have hvple := hVal p vp2 hvp2 vp hgp
          rw [e1]
          exact ⟨hnb, vp2, vn, hvp2, hgn, by omega⟩
        · rw [e2] at hn
          have hpc : p = cur := (Option.some.inj (Option.some.inj hn)).symm
          subst hpc
          rw [e1]
          exact ⟨hns, v0, v0 + 1, hg2cur, rfl, le_refl _⟩
      · rw [(U n hns).2] at hn
        obtain ⟨hnb, vp, vn, hgp, hgn, hle⟩ := hinv.parent n p hn
        obtain ⟨vp2, hvp2⟩ := Option.isSome_iff_exists.1 (hKmono p (by rw [hgp]; rfl))
        have hvple := hVal p vp2 hvp2 vp hgp
        rw [(U n hns).1]
        exact ⟨hnb, vp2, vn, hvp2, hgn, by omega⟩
    ·
      exact astarFold_gbase (neighbors4 grid cur) heap1 cf g hcns hv0 hbnds hinv.gbase
    ·
      intro e he
      rw [HH1] at he
      rcases List.mem_append.1 he with hmem2 | hmem2
      · rw [(HH2 e hmem2).2.2]; rfl
      · refine hKmono e.2 (hinv.heap_keys e ?_)
        rw [herase] at hmem2
        exact (List.erase_sublist _ _).mem hmem2
    ·
      intro e he
      rw [HH1] at he
      rcases List.mem_append.1 he with hmem2 | hmem2
      · obtain ⟨-, a2, a3⟩ := HH2 e hmem2
        exact Or.inr ⟨v0 + 1, a3, by rw [a2]⟩
      · have heold : e ∈ heap := by
          rw [herase] at hmem2
          exact (List.erase_sublist _ _).mem hmem2
        rcases hinv.heap_admiss e heold with h1 | ⟨v, hgv, hle⟩
        · exact Or.inl h1
        · obtain ⟨v2, hv2⟩ := Option.isSome_iff_exists.1 (hKmono e.2 (by rw [hgv]; rfl))
          have := hVal e.2 v2 hv2 v hgv
          exact Or.inr ⟨v2, hv2, by omega⟩
    ·
      intro v hvC
      obtain ⟨dv, hdv, hgv, hnb⟩ := hinv.closed v hvC
      obtain ⟨dv2, hdv2⟩ := Option.isSome_iff_exists.1 (hKmono v (by rw [hgv]; rfl))
      have hdvle := hVal v dv2 hdv2 dv hgv
      have hsound2 : ReachN grid start dv2 v := by
        rcases hKey2 v dv2 hdv2 with h3 | ⟨h3, h4⟩
        · exact hinv.sound v dv2 h3
        · rw [h3]
          exact ReachN.step (hinv.sound cur v0 hv0) h4
      have hdvge : dv ≤ dv2 := hdv.2 _ hsound2
      refine ⟨dv, hdv, ?_, ?_⟩
      · rw [hdv2]
        congr 1
        omega
      · intro w hw
        obtain ⟨vw, hgw, hvwle⟩ := hnb w hw
        obtain ⟨vw2, hvw2⟩ := Option.isSome_iff_exists.1 (hKmono w (by rw [hgw]; rfl))
        have := hVal w vw2 hvw2 vw hgw
        exact ⟨vw2, hvw2, by omega⟩
    ·
      intro w b hwb hg2w hwC2
      by_cases hns : w ∈ neighbors4 grid cur
      · rcases D w hns with ⟨e1, -, -⟩ | ⟨e1, -, e3, -⟩
        · rw [e1] at hg2w
          obtain ⟨fw, hfw, hfwle⟩ := hinv.open_opt w b hwb hg2w hwC2
          refine ⟨fw, ?_, hfwle⟩
          rw [HH1]
          refine List.mem_append_right _ ?_
          rw [herase]
          by_cases hprec : (fw, w) = (f, cur)
          · exfalso
            have hwc : w = cur := congrArg Prod.snd hprec
            rw [hwc, hv0] at hg2w
            have hbv : b = v0 := (Option.some.inj hg2w).symm
            exact hopt (hbv ▸ hwc ▸ hwb)
          · rw [List.mem_erase_of_ne hprec]
            exact hfw
        · rw [e1] at hg2w
          have hb : b = v0 + 1 := (Option.some.inj hg2w).symm
          exact ⟨v0 + 1 + manhattan w goal, e3, by omega⟩
      · rw [(U w hns).1] at hg2w
        obtain ⟨fw, hfw, hfwle⟩ := hinv.open_opt w b hwb hg2w hwC2
        refine ⟨fw, ?_, hfwle⟩
        rw [HH1]
        refine List.mem_append_right _ ?_
        rw [herase]
        by_cases hprec : (fw, w) = (f, cur)
        · exfalso
          have hwc : w = cur := congrArg Prod.snd hprec
          rw [hwc, hv0] at hg2w
          have hbv : b = v0 := (Option.some.inj hg2w).symm
          exact hopt (hbv ▸ hwc ▸ hwb)
        · rw [List.mem_erase_of_ne hprec]
          exact hfw

theorem manhattan_self (a : Coord) : manhattan a a = 0 := by
  unfold manhattan
  omega

theorem astar_goal_pop {grid : Grid} {start goal : Coord} {heap heap1 : HeapT}
    {cf : CameFrom} {g : GScore} {C : Set Coord} {f : Nat}
    (hinv : AstarInv grid start goal heap cf g C)
    (hpop : heapPop heap = some ((f, goal), heap1))
    (hreach : Reaches grid start goal) :
    ∃ dg, IsDist grid start goal dg ∧ dFind g goal = some dg := by
  obtain ⟨hmem, hminle, -⟩ := heapPop_spec hpop
  have hgkey : (dFind g goal).isSome := hinv.heap_keys _ hmem
  obtain ⟨v, hv⟩ := Option.isSome_iff_exists.1 hgkey
  obtain ⟨dg, hdg⟩ := isDist_exists hreach
  have hdgv : dg ≤ v := hdg.2 _ (hinv.sound goal v hv)
  refine ⟨dg, hdg, ?_⟩
  by_cases hC : goal ∈ C
  · obtain ⟨dv, hdv, hgv, -⟩ := hinv.closed goal hC
    rw [isDist_unique hdg hdv]
    exact hgv
  · rcases Nat.eq_or_lt_of_le hdgv with heq | hlt
    · rw [hv, heq]
    · exfalso
      obtain ⟨w, b, fw, c3, hwb, hgw, hfw, hfwle, hrw, hbc⟩ :=
        astar_frontier hinv dg goal hdg hC
      have hman : manhattan w goal ≤ c3 := manhattan_le_reachN hrw
      have hfwd : fw ≤ dg := by omega
      have hfv : v ≤ f := by
        rcases hinv.heap_admiss _ hmem with h1 | ⟨v2, hv2, hle2⟩
        · have hgs : goal = start := h1
          rw [hgs, hinv.gstart] at hv
          have : v = 0 := (Option.some.inj hv).symm
          omega
        · rw [hv] at hv2
          have hv2e : v2 = v := (Option.some.inj hv2).symm
          rw [manhattan_self] at hle2
          omega
      have hminf := entryLe_fst (hminle _ hfw)
      simp only at hminf
      omega

theorem astar_drain {grid : Grid} {start goal : Coord} {cf : CameFrom} {g : GScore}
    {C : Set Coord} (hinv : AstarInv grid start goal [] cf g C)
    (hreach : Reaches grid start goal) :
    ∃ dg, IsDist grid start goal dg ∧ dFind g goal = some dg := by
  obtain ⟨dg, hdg⟩ := isDist_exists hreach
  by_cases hC : goal ∈ C
  · obtain ⟨dv, hdv, hgv, -⟩ := hinv.closed goal hC
    exact ⟨dg, hdg, by rw [isDist_unique hdg hdv]; exact hgv⟩
  · have hf := astar_frontier hinv dg goal hdg hC
    obtain ⟨w, b, fw, c3, h1, h2, h3, h4, h5, h6⟩ := hf
    cases h3

/-- What survives of the A* invariant when the loop returns. -/
structure AstarPost (grid : Grid) (start goal : Coord) (cf : CameFrom) (g : GScore) :
    Prop where
  gstart : dFind g start = some 0
  none_start : ∀ n, dFind cf n = some none → n = start
  keys_iff : ∀ n, (dFind g n).isSome ↔ (dFind cf n).isSome
  sound : ∀ n v, dFind g n = some v → ReachN grid start v n
  parent : ∀ n p, dFind cf n = some (some p) → n ∈ neighbors4 grid p ∧
    ∃ vp vn, dFind g p = some vp ∧ dFind g n = some vn ∧ vp + 1 ≤ vn
  goal_opt : Reaches grid start goal →
    ∃ dg, IsDist grid start goal dg ∧ dFind g goal = some dg

theorem astarLoop_post {grid : Grid} {start goal : Coord}
    (HS : cellCount grid + 2 ≤ 1000000000) :
    ∀ fuel (heap : HeapT) (cf : CameFrom) (g : GScore) (C : Set Coord),
      heap.length + potSum grid start g ≤ fuel →
      AstarInv grid start goal heap cf g C →
      ∃ g2, AstarPost grid start goal (astarLoop grid goal fuel heap cf g) g2 := by
  intro fuel
  induction fuel with
  | zero =>
    intro heap cf g C hm hinv
    have hq : heap = [] := List.eq_nil_of_length_eq_zero (by omega)
    subst hq
    exact ⟨g, hinv.gstart, hinv.none_start, hinv.keys_iff, hinv.sound, hinv.parent,
      astar_drain hinv⟩
  | succ f ih =>
    intro heap cf g C hm hinv
    show ∃ g2, AstarPost grid start goal
      (match heapPop heap with
        | none => cf
        | some (entry, heap1) =>
          if entry.2 = goal then cf
          else
            let acc := astarScan grid goal entry.2 (heap1, cf, g)
            astarLoop grid goal f acc.1 acc.2.1 acc.2.2) g2
    rcases hp : heapPop heap with _ | ⟨⟨fe, ne⟩, heap1⟩
    · have hq : heap = [] := heapPop_none hp
      subst hq
      exact ⟨g, hinv.gstart, hinv.none_start, hinv.keys_iff, hinv.sound, hinv.parent,
        astar_drain hinv⟩
    · show ∃ g2, AstarPost grid start goal
        (if ne = goal then cf
         else astarLoop grid goal f (astarScan grid goal ne (heap1, cf, g)).1
           (astarScan grid goal ne (heap1, cf, g)).2.1
           (astarScan grid goal ne (heap1, cf, g)).2.2) g2
      by_cases hg : ne = goal
      · rw [if_pos hg]
        subst hg
        exact ⟨g, hinv.gstart, hinv.none_start, hinv.keys_iff, hinv.sound, hinv.parent,
          fun hreach => astar_goal_pop hinv hp hreach⟩
      · rw [if_neg hg]
        obtain ⟨C2, hinv2⟩ := astarInv_step HS hinv hp
        apply ih _ _ _ C2 ?_ hinv2
        obtain ⟨hmem, -, herase⟩ := heapPop_spec hp
        have hgcur : (dFind g ne).isSome := hinv.heap_keys _ hmem
        obtain ⟨v0, hv0⟩ := Option.isSome_iff_exists.1 hgcur
        have hv0b : v0 + 2 ≤ cellCount grid + 2 := by
          have h1 := hinv.gbase.bound ne v0 hv0
          have h2 := hinv.gbase.length_le
          omega
        have hms := @astarFold_measure _ start goal _ _ hv0b (neighbors4 grid ne)
          heap1 cf g (not_mem_neighbors4_self grid ne) hv0
          (fun n hn => (mem_neighbors4.1 hn).2.1)
        have hlen1 : heap1.length + 1 = heap.length := by
          rw [herase]
          have h1 := List.length_erase_of_mem hmem
          have h2 : 1 ≤ heap.length := List.length_pos.2 (List.ne_nil_of_mem hmem)
          omega
        have hscan : astarScan grid goal ne (heap1, cf, g) =
            (neighbors4 grid ne).foldl (astarRelax goal ne) (heap1, cf, g) := rfl
        rw [hscan]
        omega

theorem astar_init (grid : Grid) (start goal : Coord) :
    AstarInv grid start goal [(0, start)] [(start, none)] [(start, 0)] ∅ := by
  refine ⟨?_, ?_, ?_, ?_, ?_, ?_, ⟨?_, ?_, ?_⟩, ?_, ?_, ?_, ?_⟩
  · simp [dFind]
  · simp [dFind]
  · intro n hn
    simp only [dFind] at hn
    by_cases h : start = n
    · exact h.symm
    · rw [if_neg h] at hn; cases hn
  · intro n
    simp only [dFind]
    by_cases h : start = n
    · simp [h]
    · simp [h]
  · intro n v hv
    simp only [dFind] at hv
    by_cases h : start = n
    · rw [if_pos h] at hv
      have hv0 : v = 0 := (Option.some.inj hv).symm
      rw [hv0, ← h]
      exact ReachN.refl
    · rw [if_neg h] at hv; cases hv
  · intro n p hn
    simp only [dFind] at hn
    by_cases h : start = n
    · rw [if_pos h] at hn; cases hn
    · rw [if_neg h] at hn; cases hn
  · simp
  · intro n v hv
    simp only [dFind] at hv
    by_cases h : start = n
    · rw [if_pos h] at hv
      have hv0 : v = 0 := (Option.some.inj hv).symm
      simp [hv0]
    · rw [if_neg h] at hv; cases hv
  · intro n hn
    simp only [dFind] at hn
    by_cases h : start = n
    · exact Or.inl h.symm
    · rw [if_neg h] at hn; cases hn
  · intro e he
    rcases List.mem_singleton.1 he with rfl
    simp [dFind]
  · intro e he
    rcases List.mem_singleton.1 he with rfl
    exact Or.inl rfl
  · intro v hv
    cases hv
  · intro w b hwb hgw hwC
    refine ⟨0, ?_, ?_⟩
    · simp only [dFind] at hgw
      by_cases h : start = w
      · rw [← h]
        exact List.mem_singleton_self _
      · rw [if_neg h] at hgw; cases hgw
    · omega

theorem astar_reachable_spec {grid : Grid} {start goal : Coord}
    (HS : cellCount grid + 2 ≤ 1000000000)
    (hne : start ≠ goal) (hreach : Reaches grid start goal) :
    ∃ P dg, astar grid start goal = P ∧ IsDist grid start goal dg ∧ P ≠ [] ∧
      ChainFrom grid start P ∧ P.getLastD start = goal ∧ P.length = dg := by
  have hfuel : 1 + potSum grid start [(start, 0)] ≤ astarFuel grid := by
    have := potSum_le grid start [(start, 0)] ?_
    · unfold astarFuel
      nlinarith
    · intro n v hv
      simp only [dFind] at hv
      by_cases h : start = n
      · rw [if_pos h] at hv
        have : v = 0 := (Option.some.inj hv).symm
        omega
      · rw [if_neg h] at hv; cases hv
  obtain ⟨g2, post⟩ := astarLoop_post HS (astarFuel grid) [(0, start)] [(start, none)]
    [(start, 0)] ∅ (by simpa using hfuel) (astar_init grid start goal)
  set cf := astarLoop grid goal (astarFuel grid) [(0, start)] [(start, none)] [(start, 0)]
    with hcf
  obtain ⟨dg, hdg, hgoal⟩ := post.goal_opt hreach
  have hkey : (dFind cf goal).isSome := (post.keys_iff goal).1 (by rw [hgoal]; rfl)
  have hgns : goal ≠ start := fun h => hne h.symm
  have hpar : ∀ n q2, dFind cf n = some (some q2) →
      n ∈ neighbors4 grid q2 ∧ (dFind cf q2).isSome ∧
        (fun n => (dFind g2 n).getD 0) q2 < (fun n => (dFind g2 n).getD 0) n := by
    intro n q2 hnq
    obtain ⟨hnb, vp, vn, hgp, hgn, hle⟩ := post.parent n q2 hnq
    refine ⟨hnb, (post.keys_iff q2).1 (by rw [hgp]; rfl), ?_⟩
    simp only [hgp, hgn, Option.getD_some]
    omega
  obtain ⟨P, hP, hPne, hPchain, hPlast, hPle, -⟩ :=
    reconstruct_path_spec _ post.none_start hpar hkey hgns
  have hr0 : (dFind g2 start).getD 0 = 0 := by rw [post.gstart]; rfl
  have hrg : (dFind g2 goal).getD 0 = dg := by rw [hgoal]; rfl
  simp only [hr0, hrg] at hPle
  have hreachP : ReachN grid start P.length goal := by
    have := chainFrom_reachN hPchain
    rwa [hPlast] at this
  have hdgle : dg ≤ P.length := hdg.2 _ hreachP
  refine ⟨P, dg, ?_, hdg, hPne, hPchain, hPlast, by omega⟩
  rw [astar, if_neg hne, ← hcf]
  exact hP

/-- Sentinel-free soundness facts: every key the A* loop ever creates is
reachable, with a g-score that is the length of a real walk and strictly
below the `1_000_000_000` default (so unreachable or ultra-distant goals
never enter the maps, whatever the grid size). -/
structure AstarSound (grid : Grid) (start : Coord) (heap : HeapT) (cf : CameFrom)
    (g : GScore) : Prop where
  keys_iff : ∀ n, (dFind g n).isSome ↔ (dFind cf n).isSome
  sound : ∀ n v, dFind g n = some v → ReachN grid start v n
  cap : ∀ n v, dFind g n = some v → v < 1000000000
  heap_g : ∀ e ∈ heap, (dFind g e.2).isSome

theorem astarFold_sndinv {grid : Grid} {start goal cur : Coord} :
    ∀ ns : List Coord, ∀ heap : HeapT, ∀ cf : CameFrom, ∀ g : GScore,
      (∀ n ∈ ns, n ∈ neighbors4 grid cur) → (dFind g cur).isSome →
      AstarSound grid start heap cf g →
      AstarSound grid start (ns.foldl (astarRelax goal cur) (heap, cf, g)).1
        (ns.foldl (astarRelax goal cur) (heap, cf, g)).2.1
        (ns.foldl (astarRelax goal cur) (heap, cf, g)).2.2 := by
  intro ns
  induction ns with
  | nil => intro heap cf g _ _ hs; exact hs
  | cons h rest ih =>
    intro heap cf g hns hgcur hs
    rw [List.foldl_cons]
    obtain ⟨v0, hv0⟩ := Option.isSome_iff_exists.1 hgcur
    by_cases hrel : (dFind g cur).getD 0 + 1 < (dFind g h).getD 1000000000
    · have hch : cur ≠ h := by
        intro he
        rw [he] at hv0 hrel
        rw [hv0] at hrel
        simp only [Option.getD_some] at hrel
        omega
      have hstep : astarRelax goal cur (heap, cf, g) h =
          ((v0 + 1 + manhattan h goal, h) :: heap,
            dSet cf h (some cur), dSet g h (v0 + 1)) := by
        unfold astarRelax
        rw [if_pos hrel, hv0]
        rfl
      rw [hstep]
      have hcap1 : v0 + 1 < 1000000000 := by
        rcases hgh : dFind g h with _ | vn
        · rw [hgh, hv0] at hrel
          simpa using hrel
        · have := hs.cap h vn hgh
          rw [hgh, hv0] at hrel
          simp only [Option.getD_some] at hrel
          omega
      refine ih _ _ _ (fun n hn => hns n (List.mem_cons_of_mem _ hn)) ?_ ?_
      · rw [dFind_dSet_ne _ _ _ _ hch]
        exact hgcur
      · refine ⟨?_, ?_, ?_, ?_⟩
        · intro n
          by_cases hnh : n = h
          · rw [hnh, dFind_dSet_self, dFind_dSet_self]
            simp
          · rw [dFind_dSet_ne _ _ _ _ hnh, dFind_dSet_ne _ _ _ _ hnh]
            exact hs.keys_iff n
        · intro n v hv
          by_cases hnh : n = h
          · rw [hnh, dFind_dSet_self] at hv
            have hve : v = v0 + 1 := (Option.some.inj hv).symm
            rw [hve, hnh]
            exact ReachN.step (hs.sound cur v0 hv0) (hns h (List.mem_cons_self _ _))
          · rw [dFind_dSet_ne _ _ _ _ hnh] at hv
            exact hs.sound n v hv
        · intro n v hv
          by_cases hnh : n = h
          · rw [hnh, dFind_dSet_self] at hv
            have hve : v = v0 + 1 := (Option.some.inj hv).symm
            omega
          · rw [dFind_dSet_ne _ _ _ _ hnh] at hv
            exact hs.cap n v hv
        · intro e he
          rcases List.mem_cons.1 he with heq | hmem
          · rw [heq]
            rw [dFind_dSet_self]
            rfl
          · by_cases hnh : e.2 = h
            · rw [hnh, dFind_dSet_self]; rfl
            · rw [dFind_dSet_ne _ _ _ _ hnh]
              exact hs.heap_g e hmem
    · have hstep : astarRelax goal cur (heap, cf, g) h = (heap, cf, g) := by
        unfold astarRelax
        rw [if_neg hrel]
      rw [hstep]
      exact ih _ _ _ (fun n hn => hns n (List.mem_cons_of_mem _ hn)) hgcur hs

theorem astarLoop_sound {grid : Grid} {start goal : Coord} :
    ∀ fuel (heap : HeapT) (cf : CameFrom) (g : GScore),
      AstarSound grid start heap cf g →
      ∃ g2 heap2, AstarSound grid start heap2 (astarLoop grid goal fuel heap cf g) g2 := by
  intro fuel
  induction fuel with
  | zero => intro heap cf g hs; exact ⟨g, heap, hs⟩
  | succ f ih =>
    intro heap cf g hs
    show ∃ g2 heap2, AstarSound grid start heap2
      (match heapPop heap with
        | none => cf
        | some (entry, heap1) =>
          if entry.2 = goal then cf
          else
            let acc := astarScan grid goal entry.2 (heap1, cf, g)
            astarLoop grid goal f acc.1 acc.2.1 acc.2.2) g2
    rcases hp : heapPop heap with _ | ⟨⟨fe, ne⟩, heap1⟩
    · exact ⟨g, heap, hs⟩
    · show ∃ g2 heap2, AstarSound grid start heap2
        (if ne = goal then cf
         else astarLoop grid goal f (astarScan grid goal ne (heap1, cf, g)).1
           (astarScan grid goal ne (heap1, cf, g)).2.1
           (astarScan grid goal ne (heap1, cf, g)).2.2) g2
      by_cases hg : ne = goal
      · rw [if_pos hg]
        exact ⟨g, heap, hs⟩
      · rw [if_neg hg]
        obtain ⟨hmem, -, herase⟩ := heapPop_spec hp
        have hgcur : (dFind g ne).isSome := hs.heap_g _ hmem
        have hs1 : AstarSound grid start heap1 cf g :=
          ⟨hs.keys_iff, hs.sound, hs.cap, fun e he => hs.heap_g e (by
            rw [herase] at he
            exact (List.erase_sublist _ _).mem he)⟩
        exact ih _ _ _ (astarFold_sndinv (neighbors4 grid ne) heap1 cf g
          (fun n hn => hn) hgcur hs1)

theorem astarSound_init (grid : Grid) (start : Coord) :
    AstarSound grid start [(0, start)] [(start, none)] [(start, 0)] := by
  refine ⟨?_, ?_, ?_, ?_⟩
  · intro n
    simp only [dFind]
    by_cases h : start = n
    · simp [h]
    · simp [h]
  · intro n v hv
    simp only [dFind] at hv
    by_cases h : start = n
    · rw [if_pos h] at hv
      have hv0 : v = 0 := (Option.some.inj hv).symm
      rw [hv0, ← h]
      exact ReachN.refl
    · rw [if_neg h] at hv; cases hv
  · intro n v hv
    simp only [dFind] at hv
    by_cases h : start = n
    · rw [if_pos h] at hv
      have : v = 0 := (Option.some.inj hv).symm
      omega
    · rw [if_neg h] at hv; cases hv
  · intro e he
    rcases List.mem_singleton.1 he with rfl
    simp [dFind]

theorem astar_key_facts {grid : Grid} {start goal : Coord} :
    ∃ g2, (∀ n, (dFind (astarLoop grid goal (astarFuel grid) [(0, start)]
        [(start, none)] [(start, 0)]) n).isSome → ∃ v, dFind g2 n = some v ∧
        ReachN grid start v n ∧ v < 1000000000) := by
  obtain ⟨g2, heap2, hs⟩ := @astarLoop_sound _ _ goal (astarFuel grid)
    [(0, start)] [(start, none)] [(start, 0)] (astarSound_init grid start)
  refine ⟨g2, ?_⟩
  intro n hn
  obtain ⟨v, hv⟩ := Option.isSome_iff_exists.1 ((hs.keys_iff n).2 hn)
  exact ⟨v, hv, hs.sound n v hv, hs.cap n v hv⟩

theorem astar_unreachable {grid : Grid} {start goal : Coord}
    (hnr : ¬ Reaches grid start goal) : astar grid start goal = [] := by
  by_cases hne : start = goal
  · rw [astar, if_pos hne]
  · rw [astar, if_neg hne]
    apply reconstruct_path_missing
    cases hk : dFind (astarLoop grid goal (astarFuel grid) [(0, start)]
        [(start, none)] [(start, 0)]) goal
    · rfl
    · exfalso
      obtain ⟨g2, hfacts⟩ := @astar_key_facts grid start goal
      obtain ⟨v, -, hr, -⟩ := hfacts goal (by rw [hk]; rfl)
      exact hnr ⟨v, hr⟩

theorem astar_far_empty {grid : Grid} {start goal : Coord}
    (hfar : 1000000000 ≤ manhattan start goal) : astar grid start goal = [] := by
  by_cases hne : start = goal
  · rw [astar, if_pos hne]
  · rw [astar, if_neg hne]
    apply reconstruct_path_missing
    cases hk : dFind (astarLoop grid goal (astarFuel grid) [(0, start)]
        [(start, none)] [(start, 0)]) goal
    · rfl
    · exfalso
      obtain ⟨g2, hfacts⟩ := @astar_key_facts grid start goal
      obtain ⟨v, -, hr, hcap⟩ := hfacts goal (by rw [hk]; rfl)
      have := manhattan_le_reachN hr
      omega

theorem astar_self (grid : Grid) (c : Coord) : astar grid c c = [] := by
  rw [astar, if_pos rfl]

/-! ### A single-row giant grid separating `astar` from `bfs` -/

/-- One open row of 1,000,000,001 cells: the walk to column 1,000,000,000
has exactly the length of the `1_000_000_000` sentinel that `astar` uses as
infinity, so A* never relaxes the goal while BFS still finds the path. -/
def bigGrid : Grid := [List.replicate 1000000001 '.']

theorem passable_eq {grid : Grid} {r c : Int} {row : List Char} {ch : Char}
    (hr : pyIdx grid r = some row) (hc : pyIdx row c = some ch) :
    passable grid (r, c) = some (decide (ch ≠ '#')) := by
  unfold passable
  dsimp only
  rw [hr, Option.some_bind, hc, Option.map_some']

theorem pyIdx_nonneg {α : Type} {l : List α} {i : Int} (h0 : 0 ≤ i) :
    pyIdx l i = l.get? i.toNat := by
  unfold pyIdx
  rw [if_pos h0]

theorem bigGrid_passable {c : Int} (h0 : 0 ≤ c) (hlt : c < 1000000001) :
    passable bigGrid (0, c) = some true := by
  have hrow : pyIdx bigGrid (0 : Int) = some (List.replicate 1000000001 '.') := rfl
  have hchar : pyIdx (List.replicate 1000000001 '.') c = some '.' := by
    rw [pyIdx_nonneg h0, List.get?_eq_getElem?, List.getElem?_replicate,
      if_pos (show c.toNat < 1000000001 by omega)]
  rw [passable_eq hrow hchar]
  rfl

theorem bigGrid_len : bigGrid.length = 1 := rfl

theorem bigGrid_cols : gridCols bigGrid = 1000000001 := by
  unfold gridCols
  rw [if_neg]
  · rw [show bigGrid.headD [] = List.replicate 1000000001 '.' from rfl,
      List.length_replicate]
  · rw [bigGrid_len]
    norm_num

theorem bigGrid_in_bounds {c : Int} (h0 : 0 ≤ c) (hlt : c < 1000000001) :
    in_bounds bigGrid (0, c) = true := by
  rw [in_bounds_iff]
  refine ⟨le_refl _, ?_, h0, ?_⟩
  · show (0 : Int) < (bigGrid.length : Int)
    rw [bigGrid_len]
    norm_num
  · rw [bigGrid_cols]
    exact_mod_cast hlt

theorem bigGrid_reachN : ∀ k : Nat, k ≤ 1000000000 →
    ReachN bigGrid (0, 0) k (0, (k : Int)) := by
  intro k
  induction k with
  | zero =>
    intro _
    show ReachN bigGrid (0, 0) 0 (0, ((0 : Nat) : Int))
    have h1 : ((0 : Nat) : Int) = 0 := rfl
    rw [h1]
    exact ReachN.refl
  | succ k ih =>
    intro hk
    refine ReachN.step (ih (by omega)) ?_
    rw [mem_neighbors4]
    refine ⟨?_, ?_, ?_⟩
    · show ((0 : Int) - 0, ((k + 1 : Nat) : Int) - ((k : Nat) : Int)) ∈ dirs4
      have h1 : ((k + 1 : Nat) : Int) - ((k : Nat) : Int) = 1 := by
        push_cast
        ring
      rw [h1]
      norm_num [dirs4]
    · exact bigGrid_in_bounds (Int.natCast_nonneg _)
        (by exact_mod_cast (show k + 1 < 1000000001 by omega))
    · exact bigGrid_passable (Int.natCast_nonneg _)
        (by exact_mod_cast (show k + 1 < 1000000001 by omega))

/-! ### Named example grids for concrete witnesses -/

/-- 3x3 grid with a single central wall. -/
def wallGrid : Grid := [['.', '.', '.'], ['.', '#', '.'], ['.', '.', '.']]

/-- 3x3 grid with no walls. -/
def openGrid : Grid := [['.', '.', '.'], ['.', '.', '.'], ['.', '.', '.']]

theorem chainFrom_chain2 {grid : Grid} {v : Coord} {P : List Coord}
    (h : ChainFrom grid v P) :
    List.Chain' (fun a b => manhattan a b = 1) (v :: P) := by
  cases P with
  | nil => simp
  | cons c rest =>
    exact List.Chain'.cons (neighbors4_manhattan h.1) (chainFrom_adjacent h)

/-! ### The claims -/

/-- C1: for every grid and every (start, goal) pair with goal reachable from
start, the path returned by `bfs` has length equal to the true graph
distance (minimum number of cardinal moves through in-bounds passable
cells) from start to goal. -/
theorem claim_C1 {grid : Grid} {start goal : Coord}
    (hreach : Reaches grid start goal) :
    ∃ dg, IsDist grid start goal dg ∧ (bfs grid start goal).length = dg := by
  by_cases hne : start = goal
  · refine ⟨0, ?_, ?_⟩
    · rw [hne]
      exact isDist_self grid goal
    · rw [hne, bfs_self]
      rfl
  · obtain ⟨P, dg, hP, hdist, -, -, -, hlen⟩ := bfs_reachable_spec hne hreach
    refine ⟨dg, hdist, ?_⟩
    rw [hP]
    exact hlen

/-- Witness for C1 at the 3x3 wall grid: (2,2) is reachable from (0,0). -/
theorem claim_C1_witness :
    Reaches wallGrid (0, 0) (2, 2) ∧
      ∃ dg, IsDist wallGrid (0, 0) (2, 2) dg ∧
        (bfs wallGrid (0, 0) (2, 2)).length = dg := by
  have s1 : ReachN wallGrid (0, 0) 1 (1, 0) := ReachN.step ReachN.refl (by decide)
  have s2 : ReachN wallGrid (0, 0) 2 (2, 0) := ReachN.step s1 (by decide)
  have s3 : ReachN wallGrid (0, 0) 3 (2, 1) := ReachN.step s2 (by decide)
  have s4 : ReachN wallGrid (0, 0) 4 (2, 2) := ReachN.step s3 (by decide)
  exact ⟨⟨4, s4⟩, claim_C1 ⟨4, s4⟩⟩

/-- C2, counterexample: on a single open row of 1,000,000,001 cells the goal
at column 1,000,000,000 sits at graph distance equal to A*'s
`1_000_000_000` "infinity" sentinel, so `g < g_score.get(nxt, 1_000_000_000)`
never relaxes far cells and `astar` returns the empty path while `bfs`
returns a (non-empty) genuine path: the two lengths differ. -/
theorem claim_C2_counterexample :
    astar bigGrid (0, 0) (0, 1000000000) = [] ∧
      bfs bigGrid (0, 0) (0, 1000000000) ≠ [] := by
  have hcast : ((1000000000 : Nat) : Int) = (1000000000 : Int) := by norm_num
  have hr : ReachN bigGrid (0, 0) 1000000000 (0, (1000000000 : Int)) := by
    have h := bigGrid_reachN 1000000000 (le_refl _)
    rwa [hcast] at h
  have hne : ((0, 0) : Coord) ≠ (0, 1000000000) := by decide
  constructor
  · apply astar_far_empty
    show (1000000000 : Nat) ≤ manhattan (0, 0) (0, 1000000000)
    decide
  · obtain ⟨P, dg, hP, -, hPne, -, -, -⟩ := bfs_reachable_spec hne ⟨_, hr⟩
    rw [hP]
    exact hPne

/-- C2, amended: on any grid small enough that every cell's g-score stays
strictly below the `1_000_000_000` sentinel (cellCount + 2 ≤ 10^9 suffices),
`astar` with the Manhattan heuristic returns a path of the same length as
`bfs`, and the two results are empty on exactly the same inputs. -/
theorem claim_C2 {grid : Grid} {start goal : Coord}
    (HS : cellCount grid + 2 ≤ 1000000000) :
    (astar grid start goal).length = (bfs grid start goal).length ∧
      (astar grid start goal = [] ↔ bfs grid start goal = []) := by
  have hlen : (astar grid start goal).length = (bfs grid start goal).length := by
    by_cases hne : start = goal
    · rw [hne, astar_self, bfs_self]
    · by_cases hreach : Reaches grid start goal
      · obtain ⟨P, dg, hP, hdist, -, -, -, hl⟩ := bfs_reachable_spec hne hreach
        obtain ⟨Q, dg2, hQ, hdist2, -, -, -, hl2⟩ := astar_reachable_spec HS hne hreach
        rw [hP, hQ, hl, hl2]
        exact isDist_unique hdist2 hdist
      · rw [astar_unreachable hreach, bfs_unreachable hreach]
  refine ⟨hlen, ?_⟩
  rw [← List.length_eq_zero, ← List.length_eq_zero, hlen]

/-- Witness for C2 (amended) on the 3x3 wall grid. -/
theorem claim_C2_witness :
    cellCount wallGrid + 2 ≤ 1000000000 ∧
      ((astar wallGrid (0, 0) (2, 2)).length = (bfs wallGrid (0, 0) (2, 2)).length ∧
        (astar wallGrid (0, 0) (2, 2) = [] ↔ bfs wallGrid (0, 0) (2, 2) = [])) :=
  ⟨by decide, claim_C2 (by decide)⟩

/-- C3: each of `dfs`, `bfs` and `astar` returns the empty sequence when
start equals goal, and also when goal is unreachable from start. -/
theorem claim_C3 {grid : Grid} {start goal : Coord}
    (h : start = goal ∨ ¬ Reaches grid start goal) :
    dfs grid start goal = [] ∧ bfs grid start goal = [] ∧
      astar grid start goal = [] := by
  rcases h with rfl | hnr
  · exact ⟨dfs_self grid start, bfs_self grid start, astar_self grid start⟩
  · exact ⟨dfs_unreachable hnr, bfs_unreachable hnr, astar_unreachable hnr⟩

/-- Witness for C3: start = goal on the 3x3 wall grid. -/
theorem claim_C3_witness :
    (((0, 0) : Coord) = (0, 0) ∨ ¬ Reaches wallGrid (0, 0) (0, 0)) ∧
      (dfs wallGrid (0, 0) (0, 0) = [] ∧ bfs wallGrid (0, 0) (0, 0) = [] ∧
        astar wallGrid (0, 0) (0, 0) = []) :=
  ⟨Or.inl rfl, claim_C3 (Or.inl rfl)⟩

/-- C4: for start ≠ goal, `dfs` returns a non-empty path iff goal is
reachable; every returned cell is in-bounds and passable; consecutive cells
(including the step off `start`) differ by exactly one cardinal unit step;
the last cell is goal; and the returned length may exceed that of
`bfs`/`astar` (witnessed on the open 3x3 grid). -/
theorem claim_C4 {grid : Grid} {start goal : Coord} (hne : start ≠ goal) :
    (dfs grid start goal ≠ [] ↔ Reaches grid start goal) ∧
      (∀ c ∈ dfs grid start goal,
        in_bounds grid c = true ∧ passable grid c = some true) ∧
      List.Chain' (fun a b => manhattan a b = 1) (start :: dfs grid start goal) ∧
      (dfs grid start goal ≠ [] → (dfs grid start goal).getLastD start = goal) ∧
      (∃ g2 s2 t2, (bfs g2 s2 t2).length < (dfs g2 s2 t2).length ∧
        (astar g2 s2 t2).length < (dfs g2 s2 t2).length) := by
  have hex : ∃ g2 s2 t2, (bfs g2 s2 t2).length < (dfs g2 s2 t2).length ∧
      (astar g2 s2 t2).length < (dfs g2 s2 t2).length :=
    ⟨openGrid, (0, 0), (2, 0), by decide, by decide⟩
  by_cases hreach : Reaches grid start goal
  · obtain ⟨P, hP, hPne, hPchain, hPlast⟩ := dfs_reachable_spec hne hreach
    rw [hP]
    exact ⟨⟨fun _ => hreach, fun _ => hPne⟩, chainFrom_valid hPchain,
      chainFrom_chain2 hPchain, fun _ => hPlast, hex⟩
  · rw [dfs_unreachable hreach]
    refine ⟨⟨fun h => absurd rfl h, fun h => absurd h hreach⟩, ?_, ?_, ?_, hex⟩
    · intro c hc
      cases hc
    · exact List.chain'_singleton start
    · intro h
      exact absurd rfl h

/-- Witness for C4 at the 3x3 wall grid with start (0,0), goal (2,2). -/
theorem claim_C4_witness :
    ((0, 0) : Coord) ≠ (2, 2) ∧
      ((dfs wallGrid (0, 0) (2, 2) ≠ [] ↔ Reaches wallGrid (0, 0) (2, 2)) ∧
        (∀ c ∈ dfs wallGrid (0, 0) (2, 2),
          in_bounds wallGrid c = true ∧ passable wallGrid c = some true) ∧
        List.Chain' (fun a b => manhattan a b = 1)
          ((0, 0) :: dfs wallGrid (0, 0) (2, 2)) ∧
        (dfs wallGrid (0, 0) (2, 2) ≠ [] →
          (dfs wallGrid (0, 0) (2, 2)).getLastD (0, 0) = (2, 2)) ∧
        (∃ g2 s2 t2, (bfs g2 s2 t2).length < (dfs g2 s2 t2).length ∧
          (astar g2 s2 t2).length < (dfs g2 s2 t2).length)) :=
  ⟨by decide, claim_C4 (by decide)⟩

/-! ### Python negative indexing facts for C10 -/

theorem pyIdx_isSome {α : Type} {l : List α} {i : Int}
    (h1 : -(l.length : Int) ≤ i) (h2 : i < (l.length : Int)) :
    (pyIdx l i).isSome = true := by
  unfold pyIdx
  by_cases h0 : 0 ≤ i
  · rw [if_pos h0]
    have hne : ¬ (l.get? i.toNat = none) := by
      rw [List.get?_eq_none]
      omega
    exact Option.ne_none_iff_isSome.1 hne
  · rw [if_neg h0, if_pos (by omega)]
    have hne : ¬ (l.get? (i + l.length).toNat = none) := by
      rw [List.get?_eq_none]
      omega
    exact Option.ne_none_iff_isSome.1 hne

theorem pyIdx_out {α : Type} {l : List α} {i : Int}
    (h : (l.length : Int) ≤ i ∨ i < -(l.length : Int)) : pyIdx l i = none := by
  unfold pyIdx
  rcases h with h | h
  · rw [if_pos (by omega)]
    exact List.get?_eq_none.2 (by omega)
  · rw [if_neg (by omega), if_neg (by omega)]

theorem pyIdx_neg_wrap {α : Type} {l : List α} {i : Int}
    (h1 : i < 0) (h2 : -(l.length : Int) ≤ i) :
    pyIdx l i = pyIdx l (i + l.length) := by
  unfold pyIdx
  rw [if_neg (by omega), if_pos (by omega), if_pos (by omega)]

/-- C10: on a non-empty grid, a passability query at a negative row index
within Python's negative-index range does not fail: it equals the query at
the wrapped-around row (and, given the fetched row, any column in the
Python index range also succeeds), even though `in_bounds` is false there;
only indices at or past the extent make the lookup fail. -/
theorem claim_C10 {grid : Grid} {r c : Int} (_hg : grid ≠ [])
    (hr1 : -(grid.length : Int) ≤ r) (hr2 : r < 0) :
    in_bounds grid (r, c) = false ∧
      passable grid (r, c) = passable grid (r + grid.length, c) ∧
      (∀ row, pyIdx grid r = some row →
        -(row.length : Int) ≤ c → c < (row.length : Int) →
        (passable grid (r, c)).isSome = true) ∧
      (∀ r2 : Int, (grid.length : Int) ≤ r2 ∨ r2 < -(grid.length : Int) →
        passable grid (r2, c) = none) := by
  refine ⟨?_, ?_, ?_, ?_⟩
  · rw [Bool.eq_false_iff]
    intro hcon
    rw [in_bounds_iff] at hcon
    have h0 := hcon.1
    simp only at h0
    omega
  · unfold passable
    dsimp only
    rw [pyIdx_neg_wrap hr2 hr1]
  · intro row hrow hc1 hc2
    unfold passable
    dsimp only
    rw [hrow, Option.some_bind]
    obtain ⟨ch, hch⟩ := Option.isSome_iff_exists.1 (pyIdx_isSome hc1 hc2)
    rw [hch]
    rfl
  · intro r2 h2
    unfold passable
    dsimp only
    rw [pyIdx_out h2]
    rfl

/-- Witness for C10: row index -1 on the 3x3 wall grid wraps to row 2. -/
theorem claim_C10_witness :
    wallGrid ≠ [] ∧ -((wallGrid.length : Nat) : Int) ≤ -1 ∧ (-1 : Int) < 0 ∧
      (in_bounds wallGrid (-1, 0) = false ∧
        passable wallGrid (-1, 0) = passable wallGrid (-1 + wallGrid.length, 0) ∧
        (∀ row, pyIdx wallGrid (-1) = some row →
          -(row.length : Int) ≤ 0 → (0 : Int) < (row.length : Int) →
          (passable wallGrid (-1, 0)).isSome = true) ∧
        (∀ r2 : Int, (wallGrid.length : Int) ≤ r2 ∨ r2 < -(wallGrid.length : Int) →
          passable wallGrid (r2, 0) = none)) :=
  ⟨by decide, by decide, by decide, claim_C10 (by decide) (by decide) (by decide)⟩

/-! ### Embedding of src/game.py

UI rendering, timers and threads are not modelled; what is kept is every
field and operation the claims talk about.  The Tk label
`game_over_label` is kept as a string field because the win overlay is
the game's only win flag (`'You Win!'` is written by `_handle_win` and
reset to `'Game Over'` by `_start_game`/`_restart_game`).  Random draws
of `_update_ai`/`_patrol_ghost` are supplied by an oracle argument; the
draw sites and everything gated on them follow the source. -/

def LEVEL : Grid := [
  "####################".toList,
  "#P.....#G.....#...S#".toList,
  "#.###..#..##..#..#.#".toList,
  "#...#..#..G...#..#.#".toList,
  "#.#.#..###..###..#.#".toList,
  "#.#.#....G......##.#".toList,
  "#.#.####.##.####.#.#".toList,
  "#......G.......#...#".toList,
  "#.####.######..#.###".toList,
  "#....#........S#...#".toList,
  "#.#..#.######..#.###".toList,
  "#.#..#......#..#...#".toList,
  "#.#..#.##.G.#..#.###".toList,
  "#....#..S....#..G.P#".toList,
  "####################".toList]

def ROWS : Nat := LEVEL.length

def COLS : Nat := (LEVEL.headD []).length

/-- `game.Entity` (dataclass defaults as in the source). -/
structure Entity where
  row : Int
  col : Int
  color : String
  alive : Bool := true
  direction : Coord := (0, 0)
  territory : Option (List Coord) := none
  is_special : Bool := false
deriving DecidableEq

/-- `Entity.move`: commit the move and the facing direction only when the
candidate cell passes the global-bounds check and is not a wall; `none`
models the IndexError Python would raise when the bounds check passes but
the grid is smaller than `ROWS x COLS`. -/
def Entity.move (e : Entity) (drow dcol : Int) (grid : Grid) : Option Entity :=
  let nr := e.row + drow
  let nc := e.col + dcol
  if 0 ≤ nr ∧ nr < (ROWS : Int) ∧ 0 ≤ nc ∧ nc < (COLS : Int) then
    match passable grid (nr, nc) with
    | none => none
    | some true => some { e with row := nr, col := nc, direction := (drow, dcol) }
    | some false => some e
  else some e

/-- `Entity.is_in_territory` (`not self.territory` is true for both `None`
and the empty list). -/
def Entity.is_in_territory (e : Entity) (pos : Coord) : Bool :=
  if e.is_special then true
  else match e.territory with
    | none => true
    | some t => if t.isEmpty then true else decide (pos ∈ t)

/-- `game.Beam` (dataclass defaults as in the source). -/
structure Beam where
  row : Int
  col : Int
  drow : Int
  dcol : Int
  color : String
  owner : String
  active : Bool := true
deriving DecidableEq

/-- `Beam.step`: no-op when inactive; deactivate in place on leaving the
global bounds or entering a wall; otherwise advance one cell. -/
def Beam.step (b : Beam) (grid : Grid) : Option Beam :=
  if b.active = false then some b
  else
    let nr := b.row + b.drow
    let nc := b.col + b.dcol
    if ¬ (0 ≤ nr ∧ nr < (ROWS : Int) ∧ 0 ≤ nc ∧ nc < (COLS : Int)) then
      some { b with active := false }
    else
      match passable grid (nr, nc) with
      | none => none
      | some false => some { b with active := false }
      | some true => some { b with row := nr, col := nc }

/-- `Game._set_grid` (`row = list(self.grid[r]); row[c] = ch;
self.grid[r] = ''.join(row)`); `none` models the IndexError on an
out-of-range index. -/
def set_grid (grid : Grid) (r c : Nat) (ch : Char) : Option Grid :=
  match grid.get? r with
  | none => none
  | some row => if c < row.length then some (grid.set r (row.set c ch)) else none

def rangeL (a b : Nat) : List Nat := List.range' a (b - a)

/-- `Game._define_ghost_territory`. -/
def define_ghost_territory (start_r start_c ghost_id : Nat) : List Coord :=
  let territories : List (List Coord) := [
    (rangeL 1 8).flatMap (fun r => (rangeL 10 19).map (fun c => ((r : Int), (c : Int)))),
    (rangeL 5 12).flatMap (fun r => (rangeL 1 19).map (fun c => ((r : Int), (c : Int)))),
    (rangeL 10 14).flatMap (fun r => (rangeL 1 10).map (fun c => ((r : Int), (c : Int)))),
    (rangeL 10 14).flatMap (fun r => (rangeL 10 19).map (fun c => ((r : Int), (c : Int))))]
  match territories.get? ghost_id with
  | some t => t
  | none =>
      (rangeL (start_r - 2) (min ROWS (start_r + 3))).flatMap
        (fun r => (rangeL (start_c - 2) (min COLS (start_c + 3))).map
          (fun c => ((r : Int), (c : Int))))

/-- The world fields `_parse_level` builds up. -/
structure ParseAcc where
  grid : Grid
  pellets : List (Coord × Bool)
  player : Option Entity
  player_spawn : Option Coord
  ghosts : List Entity
  ghost_count : Nat
  special_ghost_count : Nat
deriving DecidableEq

/-- One character of the `_parse_level` scan (the `elif` chain followed by
the separate `if ch == '.'`). -/
def parseCell (r c : Nat) (ch : Char) (st : ParseAcc) : Option ParseAcc :=
  let chain : Option ParseAcc :=
    if ch = 'P' then
      match set_grid st.grid r c ' ' with
      | none => none
      | some g2 =>
        match st.player with
        | none => some { st with
            player := some { row := (r : Int), col := (c : Int), color := "yellow" },
            player_spawn := some ((r : Int), (c : Int)), grid := g2 }
        | some _ => some { st with
            grid := g2,
            pellets := dSet st.pellets ((r : Int), (c : Int)) true }
    else if ch = 'G' then
      match set_grid st.grid r c ' ' with
      | none => none
      | some g2 =>
        let gh : Entity := {
          row := (r : Int)
          col := (c : Int)
          color := "red"
          territory := some (define_ghost_territory r c st.ghost_count) }
        some { st with
          ghosts := st.ghosts ++ [gh]
          ghost_count := st.ghost_count + 1
          grid := g2 }
    else if ch = 'S' then
      match set_grid st.grid r c ' ' with
      | none => none
      | some g2 =>
        let gh : Entity := {
          row := (r : Int)
          col := (c : Int)
          color := "purple"
          is_special := true }
        some { st with
          ghosts := st.ghosts ++ [gh]
          special_ghost_count := st.special_ghost_count + 1
          grid := g2 }
    else some st
  match chain with
  | none => none
  | some st2 =>
    if ch = '.' then
      some { st2 with pellets := dSet st2.pellets ((r : Int), (c : Int)) true }
    else
      some st2

def parseLine (r : Nat) : Nat → List Char → ParseAcc → Option ParseAcc
  | _, [], st => some st
  | c, ch :: rest, st =>
    match parseCell r c ch st with
    | none => none
    | some st2 => parseLine r (c + 1) rest st2

/-- `_parse_level` iterates `self.grid` while `_set_grid` mutates it, but a
mutation only ever touches the row currently being scanned and `line` is
captured before the row is scanned, so scanning the original rows while
threading the mutated grid is exact. -/
def parseRows : Nat → List (List Char) → ParseAcc → Option ParseAcc
  | _, [], st => some st
  | r, line :: rest, st =>
    match parseLine r 0 line st with
    | none => none
    | some st2 => parseRows (r + 1) rest st2

def parse_level (grid0 : Grid) : Option ParseAcc :=
  parseRows 0 grid0 ⟨grid0, [], none, none, [], 0, 0⟩

/-- The game-state fields the claims are about (`Game.__init__`). -/
structure GState where
  grid : Grid
  pellets : List (Coord × Bool)
  player : Option Entity
  player_spawn : Option Coord
  ghosts : List Entity
  beams : List Beam
  difficulty : String
  score : Int
  lives : Int
  state : String
  menu_var : String
  game_over_label : String
deriving DecidableEq

/-- The state after `Game.__init__` (menu shown, world parsed from LEVEL). -/
def initState : Option GState :=
  match parse_level LEVEL with
  | none => none
  | some pa => some {
      grid := pa.grid, pellets := pa.pellets, player := pa.player,
      player_spawn := pa.player_spawn, ghosts := pa.ghosts, beams := [],
      difficulty := "medium", score := 0, lives := 5, state := "menu",
      menu_var := "medium", game_over_label := "Game Over" }

/-- The pellet dict seeded at parse time. -/
def initPellets : List (Coord × Bool) :=
  match parse_level LEVEL with
  | none => []
  | some pa => pa.pellets

/-! ### Game operations -/

/-- `Game._check_win` (`not any(self.pellets.values()) if self.pellets
else False`). -/
def check_win (pellets : List (Coord × Bool)) : Bool :=
  if pellets.isEmpty then false else ! pellets.any (fun kv => kv.2)

/-- `Game._handle_win` (state and win-overlay label; the score overlay is
pure UI). -/
def handle_win (g : GState) : GState :=
  { g with state := "game_over", game_over_label := "You Win!" }

/-- `Game._move_player`. -/
def move_player (g : GState) (dr dc : Int) : Option GState :=
  if g.state ≠ "playing" then some g
  else match g.player with
    | none => some g
    | some p =>
      if p.alive = false then some g
      else
        match p.move dr dc g.grid with
        | none => none
        | some p2 =>
          let pos : Coord := (p2.row, p2.col)
          let g2 := { g with player := some p2 }
          match dFind g2.pellets pos with
          | some true =>
            let g3 := { g2 with
              pellets := dSet g2.pellets pos false
              score := g2.score + 10 }
            if check_win g3.pellets then some (handle_win g3) else some g3
          | _ => some g2

/-- `Game._fire_player` (a zero facing vector is *defaulted to (0, 1)* and
a beam is spawned anyway). -/
def fire_player (g : GState) : GState :=
  if g.state ≠ "playing" then g
  else match g.player with
    | none => g
    | some p =>
      let d := if p.direction.1 = 0 ∧ p.direction.2 = 0 then ((0 : Int), (1 : Int))
        else p.direction
      let beam : Beam := {
        row := p.row
        col := p.col
        drow := d.1
        dcol := d.2
        color := "yellow"
        owner := "player" }
      { g with beams := g.beams ++ [beam] }

/-- `Game._ghost_fire` (returns without spawning on a zero facing vector). -/
def ghost_fire (g : GState) (ghost : Entity) : GState :=
  if ghost.direction.1 = 0 ∧ ghost.direction.2 = 0 then g
  else
    let beam : Beam := {
      row := ghost.row
      col := ghost.col
      drow := ghost.direction.1
      dcol := ghost.direction.2
      color := "cyan"
      owner := "ghost" }
    { g with beams := g.beams ++ [beam] }

/-- `Game._lose_life`. -/
def lose_life (g : GState) : GState :=
  if 0 < g.lives then
    let g2 := { g with lives := g.lives - 1 }
    if g2.lives ≤ 0 then { g2 with state := "game_over" }
    else match g2.player, g2.player_spawn with
      | some p, some sp =>
        { g2 with player := some { p with row := sp.1, col := sp.2, direction := (0, 0) } }
      | _, _ => g2
  else g

/-- `Game._update_beams`. -/
def update_beams (g : GState) : Option GState :=
  match g.beams.mapM (fun b => if b.active then b.step g.grid else some b) with
  | none => none
  | some beams2 => some { g with beams := beams2.filter (fun b => b.active) }

/-- The inner ghost loop of the player-beam branch of `_check_collisions`
(first live ghost on the beam's cell dies, the beam dies, score +100,
then `break`). -/
def beamHitGhosts : List Entity → Beam → List Entity × Beam × Int
  | [], b => ([], b, 0)
  | gh :: rest, b =>
    if gh.alive ∧ (gh.row, gh.col) = (b.row, b.col) then
      ({ gh with alive := false } :: rest, { b with active := false }, 100)
    else
      let r := beamHitGhosts rest b
      (gh :: r.1, r.2.1, r.2.2)

/-- The beam loop of `_check_collisions`, threading the whole game state
(a ghost beam hitting the player runs `_lose_life` mid-loop). -/
def collideBeamList : GState → List Beam → GState × List Beam
  | g, [] => (g, [])
  | g, b :: rest =>
    if b.active = false then
      let r := collideBeamList g rest
      (r.1, b :: r.2)
    else if b.owner = "player" then
      let hit := beamHitGhosts g.ghosts b
      let g2 := { g with ghosts := hit.1, score := g.score + hit.2.2 }
      let r := collideBeamList g2 rest
      (r.1, hit.2.1 :: r.2)
    else
      match g.player with
      | some p =>
        if p.alive ∧ (p.row, p.col) = (b.row, b.col) then
          let g2 := lose_life g
          let r := collideBeamList g2 rest
          (r.1, { b with active := false } :: r.2)
        else
          let r := collideBeamList g rest
          (r.1, b :: r.2)
      | none =>
        let r := collideBeamList g rest
        (r.1, b :: r.2)

/-- The ghost-touch loop of `_check_collisions` (each live ghost on the
player's current cell costs a life). -/
def ghostTouch : GState → List Entity → GState
  | g, [] => g
  | g, gh :: rest =>
    match g.player with
    | some p =>
      if gh.alive ∧ p.alive ∧ (gh.row, gh.col) = (p.row, p.col) then
        ghostTouch (lose_life g) rest
      else ghostTouch g rest
    | none => ghostTouch g rest

/-- `Game._check_collisions`. -/
def check_collisions (g : GState) : GState :=
  match g.player with
  | none => g
  | some _ =>
    let pr := collideBeamList g g.beams
    let g3 := { pr.1 with beams := pr.2 }
    let g4 := ghostTouch g3 g3.ghosts
    if g4.state = "playing" ∧ check_win g4.pellets then handle_win g4 else g4

/-- `Game._move_towards_target`. -/
def move_towards_target (grid : Grid) (ghost : Entity) (target : Coord) : Option Entity :=
  let dr : Int := if ghost.row < target.1 then 1 else if target.1 < ghost.row then -1 else 0
  let dc : Int := if ghost.col < target.2 then 1 else if target.2 < ghost.col then -1 else 0
  ghost.move dr dc grid

/-- The direction loop of `_patrol_ghost`: the two branches of the
territory test run the identical move-and-compare, so the test has no
behavioural effect; `order` is the shuffled direction list. -/
def patrol_try (grid : Grid) : Entity → List Coord → Option Entity
  | ghost, [] => some ghost
  | ghost, (drow, dcol) :: rest =>
    match ghost.move drow dcol grid with
    | none => none
    | some gh2 =>
      if (gh2.row, gh2.col) ≠ (ghost.row, ghost.col) then some gh2
      else patrol_try grid gh2 rest

/-- `Game._patrol_ghost`; `roll` is the outcome of
`random.random() < patrol_chance`. -/
def patrol_ghost (grid : Grid) (roll : Bool) (order : List Coord) (ghost : Entity) :
    Option Entity :=
  if roll then patrol_try grid ghost order else some ghost

/-- `DIFF_ALGO.get(self.difficulty, bfs)`. -/
def diff_algo (difficulty : String) : Grid → Coord → Coord → List Coord :=
  if difficulty = "easy" then dfs
  else if difficulty = "medium" then bfs
  else if difficulty = "hard" then astar
  else bfs

/-- One ghost of `_update_ai`: chase via pathfinding (or directly) when
special or the player is in territory, else patrol; `fire` is the outcome
of the `random.random() < fire_p` draw. -/
def ai_one (g : GState) (target : Coord) (fire roll : Bool) (order : List Coord)
    (ghost : Entity) : Option (GState × Entity) :=
  if ghost.alive = false then some (g, ghost)
  else
    if ghost.is_special || ghost.is_in_territory target then
      match (match diff_algo g.difficulty g.grid (ghost.row, ghost.col) target with
        | (nr, nc) :: _ => ghost.move (nr - ghost.row) (nc - ghost.col) g.grid
        | [] => move_towards_target g.grid ghost target) with
      | none => none
      | some gh2 =>
        let dist := (gh2.row - target.1).natAbs + (gh2.col - target.2).natAbs
        if dist ≤ 6 ∧ fire then some (ghost_fire g gh2, gh2)
        else some (g, gh2)
    else
      match patrol_ghost g.grid roll order ghost with
      | none => none
      | some gh2 => some (g, gh2)

/-- The ghost loop of `_update_ai`; the oracle yields, per ghost index, the
fire draw, the patrol draw and the shuffled patrol order. -/
def ai_list (target : Coord) (oracle : Nat → Bool × Bool × List Coord) :
    Nat → GState → List Entity → Option (GState × List Entity)
  | _, g, [] => some (g, [])
  | i, g, gh :: rest =>
    match ai_one g target (oracle i).1 (oracle i).2.1 (oracle i).2.2 gh with
    | none => none
    | some r =>
      match ai_list target oracle (i + 1) r.1 rest with
      | none => none
      | some r2 => some (r2.1, r.2 :: r2.2)

/-- `Game._update_ai`. -/
def update_ai (g : GState) (oracle : Nat → Bool × Bool × List Coord) : Option GState :=
  match g.player with
  | none => some g
  | some p =>
    match ai_list (p.row, p.col) oracle 0 g g.ghosts with
    | none => none
    | some r => some { r.1 with ghosts := r.2 }

/-- The `revive` closure of `_schedule_ghost_respawn` (runs later on a
timer thread: a separate transition). -/
def revive_ghost (g : GState) (i : Nat) : GState :=
  match g.ghosts.get? i with
  | some gh => { g with ghosts := g.ghosts.set i { gh with alive := true } }
  | none => g

/-- `Game._toggle_pause`. -/
def toggle_pause (g : GState) : GState :=
  if g.state = "playing" then { g with state := "paused" }
  else if g.state = "paused" then { g with state := "playing" }
  else g

/-- `Game._set_difficulty`. -/
def set_difficulty (g : GState) (d : String) : GState :=
  if g.state = "menu" ∨ g.state = "paused" then { g with difficulty := d, menu_var := d }
  else g

/-- `Game._reset_level` (fresh world from LEVEL, then `_parse_level`). -/
def reset_level (g : GState) : Option GState :=
  match parse_level LEVEL with
  | none => none
  | some pa => some { g with
      grid := pa.grid
      pellets := pa.pellets
      player := pa.player
      player_spawn := pa.player_spawn
      ghosts := pa.ghosts
      beams := []
      score := 0
      lives := 5 }

/-- `Game._start_game`. -/
def start_game (g : GState) : Option GState :=
  match reset_level { g with difficulty := g.menu_var } with
  | none => none
  | some g2 => some { g2 with lives := 5, game_over_label := "Game Over", state := "playing" }

/-- `Game._resume_from_pause`. -/
def resume_from_pause (g : GState) : GState :=
  { g with state := "playing" }

/-- `Game._quit_to_menu`. -/
def quit_to_menu (g : GState) : GState :=
  { g with state := "menu" }

/-- `Game._restart_game`. -/
def restart_game (g : GState) : Option GState :=
  match reset_level g with
  | none => none
  | some g2 => some { g2 with lives := 5, game_over_label := "Game Over", state := "playing" }

/-! ### The session transition system -/

/-- One observable game transition: a bound key handler, an overlay button
that is visible in the corresponding state, one heartbeat phase of
`_game_loop` (AI tick, beam advance, collision resolution — all gated on
`state == 'playing'`), or a scheduled ghost revival. -/
inductive GStep : GState → GState → Prop where
  | move : ∀ {g g2} (dr dc : Int), (dr, dc) ∈ dirs4 →
      move_player g dr dc = some g2 → GStep g g2
  | fireP : ∀ g, GStep g (fire_player g)
  | ai : ∀ {g g2} oracle, g.state = "playing" →
      update_ai g oracle = some g2 → GStep g g2
  | beamsAdv : ∀ {g g2}, g.state = "playing" →
      update_beams g = some g2 → GStep g g2
  | collide : ∀ g, g.state = "playing" → GStep g (check_collisions g)
  | pauseKey : ∀ g, GStep g (toggle_pause g)
  | diffKey : ∀ g d, GStep g (set_difficulty g d)
  | startG : ∀ {g g2}, g.state = "menu" → start_game g = some g2 → GStep g g2
  | resumeB : ∀ g, g.state = "paused" → GStep g (resume_from_pause g)
  | toMenuB : ∀ g, g.state = "paused" ∨ g.state = "game_over" →
      GStep g (quit_to_menu g)
  | restartB : ∀ {g g2}, g.state = "game_over" → restart_game g = some g2 → GStep g g2
  | respawn : ∀ g i, GStep g (revive_ghost g i)

/-- A session state: reachable from the freshly constructed game. -/
def GReach (g : GState) : Prop :=
  ∃ g0, initState = some g0 ∧ Relation.ReflTransGen GStep g0 g

/-- The session is won: game-over phase showing the win overlay text. -/
def wonOf (g : GState) : Prop :=
  g.state = "game_over" ∧ g.game_over_label = "You Win!"

/-- Some pellet is still present (`any(self.pellets.values())`). -/
def pelletsLeft (pellets : List (Coord × Bool)) : Bool :=
  pellets.any (fun kv => kv.2)

/-- The state invariant of the transition system. -/
structure GInv (g : GState) : Prop where
  state_ok : g.state = "menu" ∨ g.state = "playing" ∨ g.state = "paused" ∨
    g.state = "game_over"
  keys_eq : g.pellets.map Prod.fst = initPellets.map Prod.fst
  active_play : g.state = "playing" ∨ g.state = "paused" → pelletsLeft g.pellets = true
  won_clear : g.state = "game_over" → g.game_over_label = "You Win!" →
    pelletsLeft g.pellets = false
  lost_left : g.state = "game_over" → g.game_over_label ≠ "You Win!" →
    pelletsLeft g.pellets = true
  label_play : g.state = "playing" ∨ g.state = "paused" →
    g.game_over_label = "Game Over"
  lives_pos : g.state = "playing" ∨ g.state = "paused" → 0 < g.lives
  player_some : g.state = "playing" ∨ g.state = "paused" → g.player.isSome
  spawn_some : g.state = "playing" ∨ g.state = "paused" → g.player_spawn.isSome

/-- The fields `GInv` watches, all unchanged. -/
def CoreEq (g g2 : GState) : Prop :=
  g2.pellets = g.pellets ∧ g2.state = g.state ∧ g2.lives = g.lives ∧
    g2.player = g.player ∧ g2.player_spawn = g.player_spawn ∧
    g2.game_over_label = g.game_over_label

theorem ginv_of_coreEq {g g2 : GState} (he : CoreEq g g2) (hi : GInv g) : GInv g2 := by
  obtain ⟨h1, h2, h3, h4, h5, h6⟩ := he
  refine ⟨?_, ?_, ?_, ?_, ?_, ?_, ?_, ?_, ?_⟩
  · rw [h2]; exact hi.state_ok
  · rw [h1]; exact hi.keys_eq
  · rw [h2, h1]; exact hi.active_play
  · rw [h2, h6, h1]; exact hi.won_clear
  · rw [h2, h6, h1]; exact hi.lost_left
  · rw [h2, h6]; exact hi.label_play
  · rw [h2, h3]; exact hi.lives_pos
  · rw [h2, h4]; exact hi.player_some
  · rw [h2, h5]; exact hi.spawn_some

theorem coreEq_refl (g : GState) : CoreEq g g := ⟨rfl, rfl, rfl, rfl, rfl, rfl⟩

theorem coreEq_trans {a b c : GState} (h1 : CoreEq a b) (h2 : CoreEq b c) :
    CoreEq a c :=
  ⟨h2.1.trans h1.1, h2.2.1.trans h1.2.1, h2.2.2.1.trans h1.2.2.1,
    h2.2.2.2.1.trans h1.2.2.2.1, h2.2.2.2.2.1.trans h1.2.2.2.2.1,
    h2.2.2.2.2.2.trans h1.2.2.2.2.2⟩

theorem fire_player_coreEq (g : GState) : CoreEq g (fire_player g) := by
  unfold fire_player
  by_cases h : g.state ≠ "playing"
  · rw [if_pos h]
    exact coreEq_refl g
  · rw [if_neg h]
    cases hp : g.player with
    | none => exact coreEq_refl g
    | some p => exact ⟨rfl, rfl, rfl, hp.symm, rfl, rfl⟩

theorem ghost_fire_coreEq (g : GState) (ghost : Entity) :
    CoreEq g (ghost_fire g ghost) := by
  unfold ghost_fire
  by_cases h : ghost.direction.1 = 0 ∧ ghost.direction.2 = 0
  · rw [if_pos h]
    exact coreEq_refl g
  · rw [if_neg h]
    exact ⟨rfl, rfl, rfl, rfl, rfl, rfl⟩

theorem update_beams_coreEq {g g2 : GState} (h : update_beams g = some g2) :
    CoreEq g g2 := by
  unfold update_beams at h
  cases hm : g.beams.mapM (fun b => if b.active then b.step g.grid else some b) with
  | none => rw [hm] at h; cases h
  | some bs =>
    rw [hm] at h
    have h2 := Option.some.inj h
    rw [← h2]
    exact ⟨rfl, rfl, rfl, rfl, rfl, rfl⟩

theorem set_difficulty_coreEq (g : GState) (d : String) :
    CoreEq g (set_difficulty g d) := by
  unfold set_difficulty
  by_cases h : g.state = "menu" ∨ g.state = "paused"
  · rw [if_pos h]
    exact ⟨rfl, rfl, rfl, rfl, rfl, rfl⟩
  · rw [if_neg h]
    exact coreEq_refl g

theorem revive_ghost_coreEq (g : GState) (i : Nat) :
    CoreEq g (revive_ghost g i) := by
  unfold revive_ghost
  cases g.ghosts.get? i with
  | none => exact coreEq_refl g
  | some gh => exact ⟨rfl, rfl, rfl, rfl, rfl, rfl⟩

theorem ai_one_coreEq {g : GState} {target : Coord} {fire roll : Bool}
    {order : List Coord} {ghost : Entity} {r : GState × Entity}
    (h : ai_one g target fire roll order ghost = some r) : CoreEq g r.1 := by
  unfold ai_one at h
  by_cases ha : ghost.alive = false
  · rw [if_pos ha] at h
    have h2 := Option.some.inj h
    rw [← h2]
    exact coreEq_refl g
  · rw [if_neg ha] at h
    by_cases hc : (ghost.is_special || ghost.is_in_territory target) = true
    · rw [if_pos hc] at h
      cases hm : (match diff_algo g.difficulty g.grid (ghost.row, ghost.col) target with
        | (nr, nc) :: _ => ghost.move (nr - ghost.row) (nc - ghost.col) g.grid
        | [] => move_towards_target g.grid ghost target) with
      | none => rw [hm] at h; cases h
      | some gh2 =>
        rw [hm] at h
        dsimp only at h
        by_cases hd : ((gh2.row - target.1).natAbs + (gh2.col - target.2).natAbs ≤ 6
            ∧ fire = true)
        · rw [if_pos hd] at h
          have h2 := Option.some.inj h
          rw [← h2]
          exact ghost_fire_coreEq g gh2
        · rw [if_neg hd] at h
          have h2 := Option.some.inj h
          rw [← h2]
          exact coreEq_refl g
    · rw [if_neg hc] at h
      cases hm : patrol_ghost g.grid roll order ghost with
      | none => rw [hm] at h; cases h
      | some gh2 =>
        rw [hm] at h
        have h2 := Option.some.inj h
        rw [← h2]
        exact coreEq_refl g

theorem ai_list_coreEq {target : Coord} {oracle : Nat → Bool × Bool × List Coord} :
    ∀ {i : Nat} {g : GState} {l : List Entity} {r : GState × List Entity},
      ai_list target oracle i g l = some r → CoreEq g r.1 := by
  intro i g l
  induction l generalizing i g with
  | nil =>
    intro r h
    have h2 := Option.some.inj h
    rw [← h2]
    exact coreEq_refl g
  | cons gh rest ih =>
    intro r h
    unfold ai_list at h
    cases h1 : ai_one g target (oracle i).1 (oracle i).2.1 (oracle i).2.2 gh with
    | none => rw [h1] at h; cases h
    | some r1 =>
      rw [h1] at h
      dsimp only at h
      cases h2 : ai_list target oracle (i + 1) r1.1 rest with
      | none => rw [h2] at h; cases h
      | some r2 =>
        rw [h2] at h
        have h3 := Option.some.inj h
        rw [← h3]
        show CoreEq g r2.1
        exact coreEq_trans (ai_one_coreEq h1) (ih h2)

theorem update_ai_coreEq {g g2 : GState} {oracle : Nat → Bool × Bool × List Coord}
    (h : update_ai g oracle = some g2) : CoreEq g g2 := by
  unfold update_ai at h
  cases hp : g.player with
  | none =>
    rw [hp] at h
    have h2 := Option.some.inj h
    rw [← h2]
    exact coreEq_refl g
  | some p =>
    rw [hp] at h
    dsimp only at h
    cases hl : ai_list (p.row, p.col) oracle 0 g g.ghosts with
    | none => rw [hl] at h; cases h
    | some r =>
      rw [hl] at h
      have h2 := Option.some.inj h
      rw [← h2]
      obtain ⟨a1, a2, a3, a4, a5, a6⟩ := ai_list_coreEq hl
      exact ⟨a1, a2, a3, a4, a5, a6⟩

theorem ginv_toggle_pause {g : GState} (hi : GInv g) : GInv (toggle_pause g) := by
  unfold toggle_pause
  by_cases h1 : g.state = "playing"
  · rw [if_pos h1]
    refine ⟨Or.inr (Or.inr (Or.inl rfl)), hi.keys_eq, ?_, ?_, ?_, ?_, ?_, ?_, ?_⟩
    · intro _
      exact hi.active_play (Or.inl h1)
    · intro hs
      simp at hs
    · intro hs
      simp at hs
    · intro _
      exact hi.label_play (Or.inl h1)
    · intro _
      exact hi.lives_pos (Or.inl h1)
    · intro _
      exact hi.player_some (Or.inl h1)
    · intro _
      exact hi.spawn_some (Or.inl h1)
  · rw [if_neg h1]
    by_cases h2 : g.state = "paused"
    · rw [if_pos h2]
      refine ⟨Or.inr (Or.inl rfl), hi.keys_eq, ?_, ?_, ?_, ?_, ?_, ?_, ?_⟩
      · intro _
        exact hi.active_play (Or.inr h2)
      · intro hs
        simp at hs
      · intro hs
        simp at hs
      · intro _
        exact hi.label_play (Or.inr h2)
      · intro _
        exact hi.lives_pos (Or.inr h2)
      · intro _
        exact hi.player_some (Or.inr h2)
      · intro _
        exact hi.spawn_some (Or.inr h2)
    · rw [if_neg h2]
      exact hi

theorem ginv_resume {g : GState} (hp : g.state = "paused") (hi : GInv g) :
    GInv (resume_from_pause g) := by
  unfold resume_from_pause
  refine ⟨Or.inr (Or.inl rfl), hi.keys_eq, ?_, ?_, ?_, ?_, ?_, ?_, ?_⟩
  · intro _
    exact hi.active_play (Or.inr hp)
  · intro hs
    simp at hs
  · intro hs
    simp at hs
  · intro _
    exact hi.label_play (Or.inr hp)
  · intro _
    exact hi.lives_pos (Or.inr hp)
  · intro _
    exact hi.player_some (Or.inr hp)
  · intro _
    exact hi.spawn_some (Or.inr hp)

theorem ginv_quit {g : GState} (hi : GInv g) : GInv (quit_to_menu g) := by
  unfold quit_to_menu
  refine ⟨Or.inl rfl, hi.keys_eq, ?_, ?_, ?_, ?_, ?_, ?_, ?_⟩
  · intro hs
    rcases hs with hs | hs <;> simp at hs
  · intro hs
    simp at hs
  · intro hs
    simp at hs
  · intro hs
    rcases hs with hs | hs <;> simp at hs
  · intro hs
    rcases hs with hs | hs <;> simp at hs
  · intro hs
    rcases hs with hs | hs <;> simp at hs
  · intro hs
    rcases hs with hs | hs <;> simp at hs

theorem check_win_of_left {l : List (Coord × Bool)} (h : pelletsLeft l = true) :
    check_win l = false := by
  unfold check_win
  unfold pelletsLeft at h
  by_cases he : l.isEmpty = true
  · rw [if_pos he]
  · rw [if_neg he, h]
    rfl

theorem left_of_check_win {l : List (Coord × Bool)} (h : check_win l = true) :
    pelletsLeft l = false := by
  unfold check_win at h
  unfold pelletsLeft
  by_cases he : l.isEmpty = true
  · rw [if_pos he] at h
    cases h
  · rw [if_neg he] at h
    simpa using h

theorem left_of_not_win {l : List (Coord × Bool)} (h : check_win l = false)
    (h2 : l.isEmpty = false) : pelletsLeft l = true := by
  unfold check_win at h
  unfold pelletsLeft
  rw [if_neg (by rw [h2]; exact Bool.false_ne_true)] at h
  simpa using h

theorem isEmpty_false_of_keys {l : List (Coord × Bool)} {L : List Coord}
    (h : l.map Prod.fst = L) (h2 : L ≠ []) : l.isEmpty = false := by
  cases l with
  | nil => exact absurd h.symm h2
  | cons a rest => rfl

/-- What survives the collision phase: the state string stays in
{playing, game_over}, a playing state keeps positive lives, and the player
object stays present. -/
def CollOK (g : GState) : Prop :=
  (g.state = "playing" ∨ g.state = "game_over") ∧
    (g.state = "playing" → 0 < g.lives) ∧ g.player.isSome = true

theorem lose_life_collOK {g : GState} (h : CollOK g) :
    CollOK (lose_life g) ∧ (lose_life g).pellets = g.pellets ∧
      (lose_life g).game_over_label = g.game_over_label ∧
      (lose_life g).player_spawn = g.player_spawn := by
  obtain ⟨hst, hlv, hpl⟩ := h
  unfold lose_life
  by_cases h0 : 0 < g.lives
  · rw [if_pos h0]
    dsimp only
    by_cases h1 : g.lives - 1 ≤ 0
    · rw [if_pos h1]
      exact ⟨⟨Or.inr rfl, fun hs => by simp at hs, hpl⟩, rfl, rfl, rfl⟩
    · rw [if_neg h1]
      cases hp : g.player with
      | none =>
        rw [hp] at hpl
        cases hpl
      | some p =>
        cases hsp : g.player_spawn with
        | none =>
          dsimp only
          exact ⟨⟨hst, fun _ => by show 0 < g.lives - 1; omega, rfl⟩, rfl, rfl, rfl⟩
        | some sp =>
          dsimp only
          exact ⟨⟨hst, fun _ => by show 0 < g.lives - 1; omega, rfl⟩, rfl, rfl, rfl⟩
  · rw [if_neg h0]
    exact ⟨⟨hst, hlv, hpl⟩, rfl, rfl, rfl⟩

theorem collide_list_ok : ∀ (bs : List Beam) (g : GState), CollOK g →
    CollOK (collideBeamList g bs).1 ∧
      (collideBeamList g bs).1.pellets = g.pellets ∧
      (collideBeamList g bs).1.game_over_label = g.game_over_label ∧
      (collideBeamList g bs).1.player_spawn = g.player_spawn := by
  intro bs
  induction bs with
  | nil =>
    intro g h
    exact ⟨h, rfl, rfl, rfl⟩
  | cons b rest ih =>
    intro g h
    unfold collideBeamList
    by_cases h1 : b.active = false
    · rw [if_pos h1]
      dsimp only
      exact ih g h
    · rw [if_neg h1]
      by_cases h2 : b.owner = "player"
      · rw [if_pos h2]
        dsimp only
        have h3 : CollOK { g with
            ghosts := (beamHitGhosts g.ghosts b).1
            score := g.score + (beamHitGhosts g.ghosts b).2.2 } :=
          ⟨h.1, h.2.1, h.2.2⟩
        exact ih _ h3
      · rw [if_neg h2]
        cases hp : g.player with
        | none =>
          have := h.2.2
          rw [hp] at this
          cases this
        | some p =>
          dsimp only
          by_cases h4 : (p.alive = true ∧ (p.row, p.col) = (b.row, b.col))
          · rw [if_pos h4]
            dsimp only
            obtain ⟨hc, hp1, hp2, hp3⟩ := lose_life_collOK h
            obtain ⟨ic, i1, i2, i3⟩ := ih (lose_life g) hc
            exact ⟨ic, i1.trans hp1, i2.trans hp2, i3.trans hp3⟩
          · rw [if_neg h4]
            dsimp only
            exact ih g h

theorem ghost_touch_ok : ∀ (l : List Entity) (g : GState), CollOK g →
    CollOK (ghostTouch g l) ∧ (ghostTouch g l).pellets = g.pellets ∧
      (ghostTouch g l).game_over_label = g.game_over_label ∧
      (ghostTouch g l).player_spawn = g.player_spawn := by
  intro l
  induction l with
  | nil =>
    intro g h
    exact ⟨h, rfl, rfl, rfl⟩
  | cons gh rest ih =>
    intro g h
    unfold ghostTouch
    cases hp : g.player with
    | none =>
      have := h.2.2
      rw [hp] at this
      cases this
    | some p =>
      dsimp only
      by_cases h4 : (gh.alive = true ∧ p.alive = true ∧ (gh.row, gh.col) = (p.row, p.col))
      · rw [if_pos h4]
        obtain ⟨hc, hp1, hp2, hp3⟩ := lose_life_collOK h
        obtain ⟨ic, i1, i2, i3⟩ := ih (lose_life g) hc
        exact ⟨ic, i1.trans hp1, i2.trans hp2, i3.trans hp3⟩
      · rw [if_neg h4]
        exact ih g h

theorem ginv_collide {g : GState} (hp : g.state = "playing") (hi : GInv g) :
    GInv (check_collisions g) := by
  unfold check_collisions
  cases hpl : g.player with
  | none => exact hi
  | some p =>
    dsimp only
    have hok : CollOK g :=
      ⟨Or.inl hp, fun _ => hi.lives_pos (Or.inl hp), by rw [hpl]; rfl⟩
    obtain ⟨hc1, e1, e2, e3⟩ := collide_list_ok g.beams g hok
    have hok3 : CollOK { (collideBeamList g g.beams).1 with
        beams := (collideBeamList g g.beams).2 } := ⟨hc1.1, hc1.2.1, hc1.2.2⟩
    obtain ⟨hc2, f1, f2, f3⟩ := ghost_touch_ok _ _ hok3
    have hpel : (ghostTouch { (collideBeamList g g.beams).1 with
        beams := (collideBeamList g g.beams).2 }
        { (collideBeamList g g.beams).1 with
          beams := (collideBeamList g g.beams).2 }.ghosts).pellets = g.pellets :=
      f1.trans e1
    have hlab : (ghostTouch { (collideBeamList g g.beams).1 with
        beams := (collideBeamList g g.beams).2 }
        { (collideBeamList g g.beams).1 with
          beams := (collideBeamList g g.beams).2 }.ghosts).game_over_label =
        g.game_over_label := f2.trans e2
    have hspn : (ghostTouch { (collideBeamList g g.beams).1 with
        beams := (collideBeamList g g.beams).2 }
        { (collideBeamList g g.beams).1 with
          beams := (collideBeamList g g.beams).2 }.ghosts).player_spawn =
        g.player_spawn := f3.trans e3
    have hleft : pelletsLeft g.pellets = true := hi.active_play (Or.inl hp)
    rw [if_neg (by
      intro hcon
      have hw := hcon.2
      rw [hpel] at hw
      rw [check_win_of_left hleft] at hw
      cases hw)]
    refine ⟨?_, ?_, ?_, ?_, ?_, ?_, ?_, ?_, ?_⟩
    · rcases hc2.1 with hs | hs
      · exact Or.inr (Or.inl hs)
      · exact Or.inr (Or.inr (Or.inr hs))
    · rw [hpel]
      exact hi.keys_eq
    · intro _
      rw [hpel]
      exact hleft
    · intro h1 h2
      rw [hlab] at h2
      rw [hi.label_play (Or.inl hp)] at h2
      simp at h2
    · intro _ _
      rw [hpel]
      exact hleft
    · intro _
      rw [hlab]
      exact hi.label_play (Or.inl hp)
    · intro hs
      rcases hs with hs | hs
      · exact hc2.2.1 hs
      · rcases hc2.1 with h5 | h5 <;> rw [hs] at h5 <;> simp at h5
    · intro _
      exact hc2.2.2
    · intro _
      rw [hspn]
      exact hi.spawn_some (Or.inl hp)

theorem initPellets_keys_ne : initPellets.map Prod.fst ≠ [] := by decide

theorem initPellets_left : pelletsLeft initPellets = true := by decide

theorem ginv_move {g g2 : GState} {dr dc : Int}
    (h : move_player g dr dc = some g2) (hi : GInv g) : GInv g2 := by
  unfold move_player at h
  by_cases hs0 : g.state ≠ "playing"
  · rw [if_pos hs0] at h
    rw [← Option.some.inj h]
    exact hi
  · rw [if_neg hs0] at h
    push_neg at hs0
    cases hp : g.player with
    | none =>
      rw [hp] at h
      rw [← Option.some.inj h]
      exact hi
    | some p =>
      rw [hp] at h
      dsimp only at h
      by_cases ha : p.alive = false
      · rw [if_pos ha] at h
        rw [← Option.some.inj h]
        exact hi
      · rw [if_neg ha] at h
        cases hm : p.move dr dc g.grid with
        | none =>
          rw [hm] at h
          cases h
        | some p2 =>
          rw [hm] at h
          dsimp only at h
          cases hf : dFind g.pellets (p2.row, p2.col) with
          | none =>
            rw [hf] at h
            dsimp only at h
            rw [← Option.some.inj h]
            exact ⟨hi.state_ok, hi.keys_eq, hi.active_play, hi.won_clear, hi.lost_left,
              hi.label_play, hi.lives_pos, fun _ => rfl, hi.spawn_some⟩
          | some b =>
            cases b with
            | false =>
              rw [hf] at h
              dsimp only at h
              rw [← Option.some.inj h]
              exact ⟨hi.state_ok, hi.keys_eq, hi.active_play, hi.won_clear, hi.lost_left,
                hi.label_play, hi.lives_pos, fun _ => rfl, hi.spawn_some⟩
            | true =>
              rw [hf] at h
              dsimp only at h
              have hkeys : (dSet g.pellets (p2.row, p2.col) false).map Prod.fst =
                  initPellets.map Prod.fst :=
                (dSet_keys_of_isSome false (by rw [hf]; rfl)).trans hi.keys_eq
              by_cases hw : check_win (dSet g.pellets (p2.row, p2.col) false) = true
              · rw [if_pos hw] at h
                unfold handle_win at h
                rw [← Option.some.inj h]
                refine ⟨Or.inr (Or.inr (Or.inr rfl)), hkeys, ?_, ?_, ?_, ?_, ?_,
                  fun _ => rfl, ?_⟩
                · intro hs2
                  rcases hs2 with h5 | h5 <;> simp at h5
                · intro _ _
                  exact left_of_check_win hw
                · intro _ hlab
                  exact absurd rfl hlab
                · intro hs2
                  rcases hs2 with h5 | h5 <;> simp at h5
                · intro hs2
                  rcases hs2 with h5 | h5 <;> simp at h5
                · intro hs2
                  rcases hs2 with h5 | h5 <;> simp at h5
              · rw [if_neg hw] at h
                rw [← Option.some.inj h]
                have hw2 : check_win (dSet g.pellets (p2.row, p2.col) false) = false :=
                  Bool.eq_false_iff.mpr hw
                have hleft2 : pelletsLeft (dSet g.pellets (p2.row, p2.col) false) = true :=
                  left_of_not_win hw2 (isEmpty_false_of_keys hkeys initPellets_keys_ne)
                refine ⟨?_, hkeys, fun _ => hleft2, ?_, ?_, ?_, ?_, fun _ => rfl, ?_⟩
                · exact hi.state_ok
                · intro hs2
                  rw [hs0] at hs2
                  simp at hs2
                · intro hs2
                  rw [hs0] at hs2
                  simp at hs2
                · intro _
                  exact hi.label_play (Or.inl hs0)
                · intro _
                  exact hi.lives_pos (Or.inl hs0)
                · intro _
                  exact hi.spawn_some (Or.inl hs0)

theorem reset_level_fields {g g2 : GState} (h : reset_level g = some g2) :
    g2.pellets = initPellets ∧ g2.player.isSome = true ∧
      g2.player_spawn.isSome = true := by
  unfold reset_level at h
  cases hp : parse_level LEVEL with
  | none =>
    rw [hp] at h
    cases h
  | some pa =>
    rw [hp] at h
    rw [← Option.some.inj h]
    refine ⟨?_, ?_, ?_⟩
    · show pa.pellets = initPellets
      unfold initPellets
      rw [hp]
    · show pa.player.isSome = true
      have hx : (parse_level LEVEL).map (fun pa => pa.player.isSome) = some true := by
        decide
      rw [hp] at hx
      exact Option.some.inj hx
    · show pa.player_spawn.isSome = true
      have hx : (parse_level LEVEL).map (fun pa => pa.player_spawn.isSome) = some true := by
        decide
      rw [hp] at hx
      exact Option.some.inj hx

theorem ginv_fresh {g3 g2 : GState}
    (h2 : g2 = { g3 with lives := 5, game_over_label := "Game Over", state := "playing" })
    (hpel : g3.pellets = initPellets) (hpl : g3.player.isSome = true)
    (hsp : g3.player_spawn.isSome = true) : GInv g2 := by
  rw [h2]
  refine ⟨Or.inr (Or.inl rfl), ?_, ?_, ?_, ?_, ?_, ?_, ?_, ?_⟩
  · show g3.pellets.map Prod.fst = initPellets.map Prod.fst
    rw [hpel]
  · intro _
    show pelletsLeft g3.pellets = true
    rw [hpel]
    exact initPellets_left
  · intro hs
    simp at hs
  · intro hs
    simp at hs
  · intro _
    rfl
  · intro _
    show (0 : Int) < 5
    norm_num
  · intro _
    exact hpl
  · intro _
    exact hsp

theorem ginv_start {g g2 : GState} (h : start_game g = some g2) : GInv g2 := by
  unfold start_game at h
  cases hr : reset_level { g with difficulty := g.menu_var } with
  | none =>
    rw [hr] at h
    cases h
  | some g3 =>
    rw [hr] at h
    obtain ⟨hpel, hpl, hsp⟩ := reset_level_fields hr
    exact ginv_fresh (Option.some.inj h).symm hpel hpl hsp

theorem ginv_restart {g g2 : GState} (h : restart_game g = some g2) : GInv g2 := by
  unfold restart_game at h
  cases hr : reset_level g with
  | none =>
    rw [hr] at h
    cases h
  | some g3 =>
    rw [hr] at h
    obtain ⟨hpel, hpl, hsp⟩ := reset_level_fields hr
    exact ginv_fresh (Option.some.inj h).symm hpel hpl hsp

theorem ginv_init {g0 : GState} (h : initState = some g0) : GInv g0 := by
  unfold initState at h
  cases hp : parse_level LEVEL with
  | none =>
    rw [hp] at h
    cases h
  | some pa =>
    rw [hp] at h
    rw [← Option.some.inj h]
    refine ⟨Or.inl rfl, ?_, ?_, ?_, ?_, ?_, ?_, ?_, ?_⟩
    · show pa.pellets.map Prod.fst = initPellets.map Prod.fst
      unfold initPellets
      rw [hp]
    · intro hs
      rcases hs with hs | hs <;> simp at hs
    · intro hs
      simp at hs
    · intro hs
      simp at hs
    · intro hs
      rcases hs with hs | hs <;> simp at hs
    · intro hs
      rcases hs with hs | hs <;> simp at hs
    · intro hs
      rcases hs with hs | hs <;> simp at hs
    · intro hs
      rcases hs with hs | hs <;> simp at hs

theorem ginv_step {g g2 : GState} (hs : GStep g g2) (hi : GInv g) : GInv g2 := by
  cases hs with
  | move dr dc hd hm => exact ginv_move hm hi
  | fireP => exact ginv_of_coreEq (fire_player_coreEq g) hi
  | ai oracle hp hu => exact ginv_of_coreEq (update_ai_coreEq hu) hi
  | beamsAdv hp hu => exact ginv_of_coreEq (update_beams_coreEq hu) hi
  | collide hp => exact ginv_collide hp hi
  | pauseKey => exact ginv_toggle_pause hi
  | diffKey d => exact ginv_of_coreEq (set_difficulty_coreEq g d) hi
  | startG hp hu => exact ginv_start hu
  | resumeB hp => exact ginv_resume hp hi
  | toMenuB hp => exact ginv_quit hi
  | restartB hp hu => exact ginv_restart hu
  | respawn i => exact ginv_of_coreEq (revive_ghost_coreEq g i) hi

theorem ginv_reach {g : GState} (h : GReach g) : GInv g := by
  obtain ⟨g0, h0, hsteps⟩ := h
  induction hsteps with
  | refl => exact ginv_init h0
  | tail hst hstep ih => exact ginv_step hstep ih

/-! ### Claims about the game -/

/-- A concrete playing state: player parked at (1,1) with the dataclass
default facing (0, 0). -/
def cexPlayer : Entity := { row := 1, col := 1, color := "yellow" }

def cexState : GState := {
  grid := LEVEL
  pellets := []
  player := some cexPlayer
  player_spawn := some (1, 1)
  ghosts := []
  beams := []
  difficulty := "medium"
  score := 0
  lives := 5
  state := "playing"
  menu_var := "medium"
  game_over_label := "Game Over" }

/-- C5, counterexample: a player fire intent with facing (0, 0) does spawn
a projectile — `_fire_player` silently replaces the zero vector by (0, 1)
and appends a beam, so the active projectile list grows. -/
theorem claim_C5_counterexample :
    ∃ p, cexState.player = some p ∧ p.direction = (0, 0) ∧
      (fire_player cexState).beams ≠ cexState.beams := by
  refine ⟨cexPlayer, rfl, rfl, ?_⟩
  decide

/-- C5, amended: a pursuer fire intent with zero facing spawns nothing and
leaves the projectile list unchanged; a player fire intent with zero facing
spawns anyway, defaulting the direction to (0, 1). -/
theorem claim_C5 :
    (∀ (g : GState) (ghost : Entity), ghost.direction = (0, 0) →
      (ghost_fire g ghost).beams = g.beams) ∧
    (∀ (g : GState) (p : Entity), g.state = "playing" → g.player = some p →
      p.direction = (0, 0) →
      (fire_player g).beams = g.beams ++
        [{ row := p.row, col := p.col, drow := 0, dcol := 1,
           color := "yellow", owner := "player", active := true }]) := by
  constructor
  · intro g ghost hd
    unfold ghost_fire
    rw [if_pos (by rw [hd]; exact ⟨rfl, rfl⟩)]
  · intro g p hs hp hd
    unfold fire_player
    rw [if_neg (by rw [hs]; simp)]
    rw [hp]
    dsimp only
    rw [if_pos (by rw [hd]; exact ⟨rfl, rfl⟩)]

/-- Witness for C5 at concrete states. -/
theorem claim_C5_witness :
    (ghost_fire cexState { row := 2, col := 2, color := "red" }).beams =
        cexState.beams ∧
      (fire_player cexState).beams = cexState.beams ++
        [{ row := 1, col := 1, drow := 0, dcol := 1, color := "yellow",
           owner := "player", active := true }] :=
  ⟨claim_C5.1 cexState { row := 2, col := 2, color := "red" } rfl,
    claim_C5.2 cexState cexPlayer rfl rfl rfl⟩

theorem shape_gridCols {grid : Grid} (h1 : grid.length = ROWS)
    (h2 : ∀ row ∈ grid, row.length = COLS) : gridCols grid = COLS := by
  unfold gridCols
  rw [if_neg (by rw [h1]; decide)]
  cases grid with
  | nil => exact absurd h1 (by decide)
  | cons a rest => exact h2 a (List.mem_cons_self a rest)

theorem shape_in_bounds {grid : Grid} {n : Coord} (h1 : grid.length = ROWS)
    (h2 : ∀ row ∈ grid, row.length = COLS) :
    (in_bounds grid n = true) ↔
      (0 ≤ n.1 ∧ n.1 < (ROWS : Int) ∧ 0 ≤ n.2 ∧ n.2 < (COLS : Int)) := by
  rw [in_bounds_iff, h1, shape_gridCols h1 h2]

theorem shape_passable_isSome {grid : Grid} {r c : Int}
    (h1 : grid.length = ROWS) (h2 : ∀ row ∈ grid, row.length = COLS)
    (hr : 0 ≤ r) (hr2 : r < (ROWS : Int)) (hc : 0 ≤ c) (hc2 : c < (COLS : Int)) :
    (passable grid (r, c)).isSome = true := by
  have hrow : (pyIdx grid r).isSome = true :=
    pyIdx_isSome (by omega) (by rw [h1]; exact hr2)
  obtain ⟨row, hrowe⟩ := Option.isSome_iff_exists.1 hrow
  have hrmem : row ∈ grid := by
    unfold pyIdx at hrowe
    rw [if_pos hr] at hrowe
    exact List.get?_mem hrowe
  have hlen : row.length = COLS := h2 row hrmem
  have hch : (pyIdx row c).isSome = true :=
    pyIdx_isSome (by omega) (by rw [hlen]; exact hc2)
  obtain ⟨ch, hche⟩ := Option.isSome_iff_exists.1 hch
  unfold passable
  dsimp only
  rw [hrowe, Option.some_bind, hche]
  rfl

/-- C6: under the game's grid shape, `Entity.move` never fails, commits the
new position and facing exactly when the candidate cell is in-bounds and
passable, and otherwise leaves both the position and the facing direction
untouched. -/
theorem claim_C6 {e : Entity} {drow dcol : Int} {grid : Grid}
    (hshape : grid.length = ROWS ∧ ∀ row ∈ grid, row.length = COLS) :
    ∃ e2, e.move drow dcol grid = some e2 ∧
      ((in_bounds grid (e.row + drow, e.col + dcol) = true ∧
          passable grid (e.row + drow, e.col + dcol) = some true →
        e2 = { e with
          row := e.row + drow
          col := e.col + dcol
          direction := (drow, dcol) }) ∧
       (¬ (in_bounds grid (e.row + drow, e.col + dcol) = true ∧
          passable grid (e.row + drow, e.col + dcol) = some true) →
        e2 = e)) := by
  obtain ⟨h1, h2⟩ := hshape
  unfold Entity.move
  dsimp only
  by_cases hg : (0 ≤ e.row + drow ∧ e.row + drow < (ROWS : Int) ∧
      0 ≤ e.col + dcol ∧ e.col + dcol < (COLS : Int))
  · rw [if_pos hg]
    have hps : (passable grid (e.row + drow, e.col + dcol)).isSome = true :=
      shape_passable_isSome h1 h2 hg.1 hg.2.1 hg.2.2.1 hg.2.2.2
    obtain ⟨b, hb⟩ := Option.isSome_iff_exists.1 hps
    rw [hb]
    cases b with
    | true =>
      refine ⟨_, rfl, fun _ => rfl, fun hcon => ?_⟩
      exact absurd ⟨(shape_in_bounds h1 h2).2 hg, rfl⟩ hcon
    | false =>
      refine ⟨e, rfl, ?_, fun _ => rfl⟩
      intro hcon
      exact absurd hcon.2 (by simp)
  · rw [if_neg hg]
    refine ⟨e, rfl, ?_, fun _ => rfl⟩
    intro hcon
    exact absurd ((shape_in_bounds h1 h2).1 hcon.1) hg

/-- Witness for C6: moving right from (1,1) on the LEVEL grid. -/
theorem claim_C6_witness :
    (LEVEL.length = ROWS ∧ ∀ row ∈ LEVEL, row.length = COLS) ∧
      ∃ e2, cexPlayer.move 0 1 LEVEL = some e2 ∧
        ((in_bounds LEVEL (cexPlayer.row + 0, cexPlayer.col + 1) = true ∧
            passable LEVEL (cexPlayer.row + 0, cexPlayer.col + 1) = some true →
          e2 = { cexPlayer with
            row := cexPlayer.row + 0
            col := cexPlayer.col + 1
            direction := (0, 1) }) ∧
         (¬ (in_bounds LEVEL (cexPlayer.row + 0, cexPlayer.col + 1) = true ∧
            passable LEVEL (cexPlayer.row + 0, cexPlayer.col + 1) = some true) →
          e2 = cexPlayer)) :=
  ⟨⟨rfl, by decide⟩, claim_C6 ⟨rfl, by decide⟩⟩

/-- C7: under the game's grid shape, `Beam.step` never fails, is a no-op on
an inactive projectile, advances an active one into an in-bounds passable
cell, deactivates it in place otherwise, and consequently a projectile
that is still active after a step sits on an in-bounds passable cell. -/
theorem claim_C7 {b : Beam} {grid : Grid}
    (hshape : grid.length = ROWS ∧ ∀ row ∈ grid, row.length = COLS) :
    ∃ b2, b.step grid = some b2 ∧
      (b.active = false → b2 = b) ∧
      (b.active = true →
        ((in_bounds grid (b.row + b.drow, b.col + b.dcol) = true ∧
            passable grid (b.row + b.drow, b.col + b.dcol) = some true →
          b2 = { b with row := b.row + b.drow, col := b.col + b.dcol }) ∧
         (¬ (in_bounds grid (b.row + b.drow, b.col + b.dcol) = true ∧
            passable grid (b.row + b.drow, b.col + b.dcol) = some true) →
          b2 = { b with active := false }))) ∧
      (b2.active = true →
        in_bounds grid (b2.row, b2.col) = true ∧
          passable grid (b2.row, b2.col) = some true) := by
  obtain ⟨h1, h2⟩ := hshape
  unfold Beam.step
  by_cases ha : b.active = false
  · rw [if_pos ha]
    refine ⟨b, rfl, fun _ => rfl, ?_, ?_⟩
    · intro hcon
      rw [hcon] at ha
      cases ha
    · intro hcon
      rw [hcon] at ha
      cases ha
  · rw [if_neg ha]
    dsimp only
    by_cases hg : (0 ≤ b.row + b.drow ∧ b.row + b.drow < (ROWS : Int) ∧
        0 ≤ b.col + b.dcol ∧ b.col + b.dcol < (COLS : Int))
    · rw [if_neg (not_not_intro hg)]
      have hps : (passable grid (b.row + b.drow, b.col + b.dcol)).isSome = true :=
        shape_passable_isSome h1 h2 hg.1 hg.2.1 hg.2.2.1 hg.2.2.2
      obtain ⟨pb, hb⟩ := Option.isSome_iff_exists.1 hps
      rw [hb]
      cases pb with
      | false =>
        refine ⟨{ b with active := false }, rfl, fun hf => absurd hf ha, ?_, ?_⟩
        · intro _
          refine ⟨?_, fun _ => rfl⟩
          intro hcon
          exact absurd hcon.2 (by simp)
        · intro h3
          cases h3
      | true =>
        refine ⟨{ b with row := b.row + b.drow, col := b.col + b.dcol }, rfl,
          fun hf => absurd hf ha, ?_, ?_⟩
        · intro _
          refine ⟨fun _ => rfl, ?_⟩
          intro hcon
          exact absurd ⟨(shape_in_bounds h1 h2).2 hg, rfl⟩ hcon
        · intro _
          exact ⟨(shape_in_bounds h1 h2).2 hg, hb⟩
    · rw [if_pos hg]
      refine ⟨{ b with active := false }, rfl, fun hf => absurd hf ha, ?_, ?_⟩
      · intro _
        refine ⟨?_, fun _ => rfl⟩
        intro hcon
        exact absurd ((shape_in_bounds h1 h2).1 hcon.1) hg
      · intro h3
        cases h3

/-- The concrete beam for the C7 witness. -/
def wBeam : Beam :=
  { row := 1, col := 1, drow := 0, dcol := 1, color := "yellow", owner := "player" }

/-- Witness for C7: an active beam at (1,1) moving right on the LEVEL grid. -/
theorem claim_C7_witness :
    (LEVEL.length = ROWS ∧ ∀ row ∈ LEVEL, row.length = COLS) ∧
      ∃ b2, wBeam.step LEVEL = some b2 ∧
        (wBeam.active = false → b2 = wBeam) ∧
        (wBeam.active = true →
          ((in_bounds LEVEL (wBeam.row + wBeam.drow, wBeam.col + wBeam.dcol) = true ∧
              passable LEVEL (wBeam.row + wBeam.drow, wBeam.col + wBeam.dcol) =
                some true →
            b2 = { wBeam with
              row := wBeam.row + wBeam.drow
              col := wBeam.col + wBeam.dcol }) ∧
           (¬ (in_bounds LEVEL (wBeam.row + wBeam.drow, wBeam.col + wBeam.dcol) = true ∧
              passable LEVEL (wBeam.row + wBeam.drow, wBeam.col + wBeam.dcol) =
                some true) →
            b2 = { wBeam with active := false }))) ∧
        (b2.active = true →
          in_bounds LEVEL (b2.row, b2.col) = true ∧
            passable LEVEL (b2.row, b2.col) = some true) :=
  ⟨⟨rfl, by decide⟩, claim_C7 ⟨rfl, by decide⟩⟩

/-- C8: in every reachable playing session state, losing a life decrements
lives; hitting zero flips the phase to game-over, otherwise the player is
teleported back to the remembered spawn with facing zeroed; score and the
pellet dict are untouched either way. -/
theorem claim_C8 {g : GState} (hre : GReach g) (hpl : g.state = "playing") :
    (lose_life g).lives = g.lives - 1 ∧
      (g.lives - 1 = 0 → (lose_life g).state = "game_over") ∧
      (g.lives - 1 ≠ 0 →
        (lose_life g).state = g.state ∧
        ∃ p sp, g.player = some p ∧ g.player_spawn = some sp ∧
          (lose_life g).player =
            some { p with row := sp.1, col := sp.2, direction := (0, 0) }) ∧
      (lose_life g).score = g.score ∧
      (lose_life g).pellets = g.pellets := by
  have hi := ginv_reach hre
  have hlv : 0 < g.lives := hi.lives_pos (Or.inl hpl)
  obtain ⟨p, hp⟩ := Option.isSome_iff_exists.1 (hi.player_some (Or.inl hpl))
  obtain ⟨sp, hsp⟩ := Option.isSome_iff_exists.1 (hi.spawn_some (Or.inl hpl))
  unfold lose_life
  rw [if_pos hlv]
  dsimp only
  by_cases h1 : g.lives - 1 ≤ 0
  · rw [if_pos h1]
    refine ⟨rfl, fun _ => rfl, ?_, rfl, rfl⟩
    intro hne
    omega
  · rw [if_neg h1]
    rw [hp, hsp]
    dsimp only
    refine ⟨rfl, ?_, ?_, rfl, rfl⟩
    · intro h0
      omega
    · intro _
      exact ⟨rfl, p, sp, rfl, rfl, rfl⟩

/-- The state right after clicking Start on the freshly opened menu. -/
def startedState : Option GState :=
  match initState with
  | none => none
  | some g0 => start_game g0

theorem start_game_state {g g2 : GState} (h : start_game g = some g2) :
    g2.state = "playing" := by
  unfold start_game at h
  cases hr : reset_level { g with difficulty := g.menu_var } with
  | none =>
    rw [hr] at h
    cases h
  | some g3 =>
    rw [hr] at h
    rw [← Option.some.inj h]

theorem initState_menu {g0 : GState} (h : initState = some g0) :
    g0.state = "menu" := by
  unfold initState at h
  cases hp : parse_level LEVEL with
  | none =>
    rw [hp] at h
    cases h
  | some pa =>
    rw [hp] at h
    rw [← Option.some.inj h]

/-- Witness for C8: the state reached by starting a game from the menu. -/
theorem claim_C8_witness : ∃ g1, startedState = some g1 ∧
    ((lose_life g1).lives = g1.lives - 1 ∧
      (g1.lives - 1 = 0 → (lose_life g1).state = "game_over") ∧
      (g1.lives - 1 ≠ 0 →
        (lose_life g1).state = g1.state ∧
        ∃ p sp, g1.player = some p ∧ g1.player_spawn = some sp ∧
          (lose_life g1).player =
            some { p with row := sp.1, col := sp.2, direction := (0, 0) }) ∧
      (lose_life g1).score = g1.score ∧
      (lose_life g1).pellets = g1.pellets) := by
  have hs : startedState.isSome = true := by decide
  cases hI : initState with
  | none =>
    exfalso
    have hnone : startedState = none := by
      unfold startedState
      rw [hI]
    rw [hnone] at hs
    cases hs
  | some g0 =>
    have hst : startedState = start_game g0 := by
      unfold startedState
      rw [hI]
    cases hS : start_game g0 with
    | none =>
      rw [hst, hS] at hs
      cases hs
    | some g1 =>
      refine ⟨g1, by rw [hst, hS], ?_⟩
      have hreach : GReach g1 :=
        ⟨g0, hI, Relation.ReflTransGen.single (GStep.startG (initState_menu hI) hS)⟩
      exact claim_C8 hreach (start_game_state hS)

/-- C9: in every reachable session state, every cell with a present pellet
was seeded at parse time, and — outside the menu — the session is won
exactly when the (non-empty) seeded pellet set has been fully cleared. -/
theorem claim_C9 {g : GState} (hre : GReach g) :
    (∀ p, dFind g.pellets p = some true → p ∈ initPellets.map Prod.fst) ∧
      (g.state ≠ "menu" →
        (wonOf g ↔ (initPellets.map Prod.fst ≠ [] ∧
          pelletsLeft g.pellets = false))) := by
  have hi := ginv_reach hre
  constructor
  · intro p hp
    have hmem : p ∈ g.pellets.map Prod.fst :=
      List.mem_map_of_mem Prod.fst (dFind_mem hp)
    rw [hi.keys_eq] at hmem
    exact hmem
  · intro hmenu
    unfold wonOf
    constructor
    · rintro ⟨hgo, hlab⟩
      exact ⟨initPellets_keys_ne, hi.won_clear hgo hlab⟩
    · rintro ⟨-, hleft⟩
      rcases hi.state_ok with hs | hs | hs | hs
      · exact absurd hs hmenu
      · rw [hi.active_play (Or.inl hs)] at hleft
        cases hleft
      · rw [hi.active_play (Or.inr hs)] at hleft
        cases hleft
      · refine ⟨hs, ?_⟩
        by_contra hlab
        rw [hi.lost_left hs hlab] at hleft
        cases hleft

/-- Witness for C9: the freshly constructed game state. -/
theorem claim_C9_witness : ∃ g0, initState = some g0 ∧
    ((∀ p, dFind g0.pellets p = some true → p ∈ initPellets.map Prod.fst) ∧
      (g0.state ≠ "menu" →
        (wonOf g0 ↔ (initPellets.map Prod.fst ≠ [] ∧
          pelletsLeft g0.pellets = false)))) := by
  have hs : initState.isSome = true := by decide
  cases hI : initState with
  | none =>
    rw [hI] at hs
    cases hs
  | some g0 =>
    exact ⟨g0, rfl, claim_C9 ⟨g0, hI, Relation.ReflTransGen.refl⟩⟩
